import Mathlib

/-!
# Huffman coder (`HCNode.cpp`, `HCTree.cpp`, `compress.cpp`, `uncompress.cpp`)

A shallow embedding of the tree construction, of `encode` / `decode`, and of the
two driver loops, followed by the properties proved about them.

Conventions of the embedding.

* The C++ free store is a list of `HCNode` cells; an `HCNode*` is the index of a
  cell in that list, `new` appends a cell, and the null pointer is `none`.
* `int` is `Int` reduced to 32-bit two's complement by `wrapInt` wherever the
  program performs arithmetic on it.
* `byte` is a `Nat` below 256.
* A bit is a `Bool` (`false` for 0, `true` for 1).  The classes `BitOutputStream` and
  `BitInputStream` are not among the sources; following section 6 of the specification
  (bits are read back in the order they were written) a stream is the list of the bits
  written to it, resp. still to be read, in order.
* `std::priority_queue` is described by its contract (`PriorityQueue.Lawful`): the results
  hold for every implementation of the queue, whatever it does with entries that the
  comparator cannot tell apart.
* Dereferencing a null pointer, reading a missing bit and taking the top of an empty
  queue have no defined result in the program; the embedding returns `none` there.
-/

namespace Huffman

/-! ## Machine integers -/

/-- The 32-bit two's complement `int` that represents the integer `x`. -/
def wrapInt (x : Int) : Int := (x + 2147483648) % 4294967296 - 2147483648

/-- The values an `int` can hold. -/
def IsInt32 (x : Int) : Prop := -2147483648 ≤ x ∧ x < 2147483648

instance (x : Int) : Decidable (IsInt32 x) := by unfold IsInt32; infer_instance

/-! ## `HCNode` -/

/-- Modelled from the spec: the declaration of `HCNode` (`HCNode.hpp`) is not among the
sources; section 3 of the specification gives its fields: the weight `count`, the
`symbol`, the two children `c0` and `c1`, and the parent back-reference `p`. -/
structure HCNode where
  count : Int
  symbol : Nat
  c0 : Option Nat
  c1 : Option Nat
  p : Option Nat
deriving DecidableEq, Repr

/-- `HCNode::operator<` of `HCNode.cpp`. -/
def HCNode.lt (self other : HCNode) : Bool :=
  if self.count ≠ other.count then decide (self.count > other.count)
  else decide (self.symbol < other.symbol)

/-! ## The priority queue of `HCNode*` -/

/-- An `HCNode*` held by the queue: the address together with the cell it pointed to when
it was pushed.  The queue compares two pointers through the `count` and the `symbol` of
their cells, and `build` writes neither field after the cell is constructed. -/
structure QEntry where
  ptr : Nat
  node : HCNode
deriving DecidableEq, Repr

/-- Modelled from the spec: the comparator class `HCNodePtrComp` (`HCNode.hpp`) is not
among the sources; section 9 of the specification says that the comparison logic is bound
to the node itself, so comparing two pointers compares the cells with `operator<`. -/
def HCNodePtrComp (lhs rhs : QEntry) : Bool := lhs.node.lt rhs.node

/-- The operations of `std::priority_queue<HCNode*, vector<HCNode*>, HCNodePtrComp>` that
`build` uses, over an arbitrary representation `Q`.  `content` lists the entries a queue
holds; it is used by the specification of the queue only. -/
structure PriorityQueue where
  Q : Type
  empty : Q
  push : Q → QEntry → Q
  top : Q → Option QEntry
  pop : Q → Q
  size : Q → Nat
  content : Q → List QEntry

/-- The contract of `std::priority_queue`: `push` adds an entry, `size` counts the
entries, `top` is an entry below which (for the comparator) no other entry lies, and `pop`
removes that entry.  Which of several equivalent greatest entries is on top is left to the
implementation. -/
structure PriorityQueue.Lawful (P : PriorityQueue) : Prop where
  content_empty : P.content P.empty = []
  content_push : ∀ q e, (P.content (P.push q e)).Perm (e :: P.content q)
  size_eq : ∀ q, P.size q = (P.content q).length
  top_empty : ∀ q, P.content q = [] → P.top q = none
  top_pop : ∀ q, P.content q ≠ [] → ∃ e, P.top q = some e ∧
    (P.content q).Perm (e :: P.content (P.pop q)) ∧
    ∀ b ∈ P.content (P.pop q), HCNodePtrComp e b = false

/-- The greatest entry of a list for `HCNodePtrComp` (the first one among equivalent ones). -/
def maxEntry : List QEntry → Option QEntry
  | [] => none
  | e :: rest =>
    match maxEntry rest with
    | none => some e
    | some m => if HCNodePtrComp e m then some m else some e

/-- A reference priority queue: an unordered list searched for its greatest entry. -/
def listPQ : PriorityQueue where
  Q := List QEntry
  empty := []
  push := fun q e => e :: q
  top := maxEntry
  pop := fun q =>
    match maxEntry q with
    | none => q
    | some m => q.erase m
  size := List.length
  content := id

/-! ## `HCTree` -/

/-- Modelled from the spec: the declaration of `HCTree` (`HCTree.hpp`) is not among the
sources; section 3 of the specification gives a tree as a root node plus a leaf index of one
slot per symbol.  `nodes` is the free store the pointers refer to. -/
structure HCTree where
  nodes : List HCNode
  root : Option Nat
  leaves : List (Option Nat)
deriving DecidableEq, Repr

/-- Modelled from the spec: the constructor of `HCTree` (`HCTree.hpp`) is not among the
sources; by section 3 of the specification a symbol is a byte value 0..255 and the leaf index
has a slot for each symbol.  The tree before `build`: no root, 256 empty slots. -/
def HCTree.init : HCTree := ⟨[], none, List.replicate 256 none⟩

/-- The local state of `HCTree::build`. -/
structure BuildState (P : PriorityQueue) where
  nodes : List HCNode
  leaves : List (Option Nat)
  index : Nat
  pq : P.Q

/-- The first loop of `HCTree::build`, from position `i` of the table on: one new leaf per
nonzero frequency, stored in the next free slot of `leaves` and pushed on the queue.  The
symbol of the leaf is the position converted to `byte`.  (A table of 256 entries never
needs more than the 256 slots; a write past the last slot is not modelled.) -/
def buildLeaves (P : PriorityQueue) : List Int → Nat → BuildState P → BuildState P
  | [], _, st => st
  | f :: fs, i, st =>
    if f ≠ 0 then
      let leaf : HCNode := ⟨f, i % 256, none, none, none⟩
      let ptr := st.nodes.length
      buildLeaves P fs (i + 1)
        { nodes := st.nodes ++ [leaf]
          leaves := st.leaves.set st.index (some ptr)
          index := st.index + 1
          pq := P.push st.pq ⟨ptr, leaf⟩ }
    else buildLeaves P fs (i + 1) st

/-- The assignment `node->p = parent`. -/
def setParent (nodes : List HCNode) (node parent : Nat) : List HCNode :=
  match nodes[node]? with
  | none => nodes
  | some nd => nodes.set node { nd with p := some parent }

/-- The second loop of `HCTree::build`: while more than one node is queued, the two top
nodes are removed and become the children `c0` and `c1` of a new node, whose count is the
`int` sum of the counts read through the two pointers, and which is pushed.
The loop runs at most `fuel` times. -/
def mergeLoop (P : PriorityQueue) : Nat → BuildState P → Option (BuildState P)
  | 0, st => if P.size st.pq > 1 then none else some st
  | fuel + 1, st =>
    if P.size st.pq > 1 then
      match P.top st.pq with
      | none => none
      | some node1 =>
        let pq1 := P.pop st.pq
        match P.top pq1 with
        | none => none
        | some node2 =>
          let pq2 := P.pop pq1
          match st.nodes[node1.ptr]?, st.nodes[node2.ptr]? with
          | some cell1, some cell2 =>
            let newNode : HCNode :=
              ⟨wrapInt (cell1.count + cell2.count), 0, some node1.ptr, some node2.ptr, none⟩
            let newPtr := st.nodes.length
            let nodes1 := st.nodes ++ [newNode]
            let nodes2 := setParent (setParent nodes1 node2.ptr newPtr) node1.ptr newPtr
            mergeLoop P fuel
              { st with nodes := nodes2, pq := P.push pq2 ⟨newPtr, newNode⟩ }
          | _, _ => none
    else some st

/-- `HCTree::build`, on a fresh tree. -/
def build (P : PriorityQueue) (freqs : List Int) : Option HCTree :=
  let st0 : BuildState P := ⟨[], HCTree.init.leaves, 0, P.empty⟩
  let st1 := buildLeaves P freqs 0 st0
  match mergeLoop P (P.size st1.pq) st1 with
  | none => none
  | some st2 =>
    match P.top st2.pq with
    | none => none
    | some r => some ⟨st2.nodes, some r.ptr, st2.leaves⟩

/-! ## `encode` and `decode` -/

/-- The leaf search at the head of `HCTree::encode`: the slots of the leaf index are
visited in order until one holds a node with the wanted symbol.  An empty slot is
dereferenced by the program, and when no slot matches the null `node` is dereferenced
right after the search; both are `none` here. -/
def findLeaf (nodes : List HCNode) (symbol : Nat) : List (Option Nat) → Option Nat
  | [] => none
  | none :: _ => none
  | some l :: rest =>
    match nodes[l]? with
    | none => none
    | some nd => if nd.symbol = symbol then some l else findLeaf nodes symbol rest

/-- The upward walk of `HCTree::encode`: while the node has a parent, push 0 when the node
is its parent's `c0` and 1 otherwise, and move to the parent.  `code` is the stack, its top
first.  The walk makes at most `fuel` tests of `node->p`. -/
def climb (nodes : List HCNode) : Nat → Nat → List Bool → Option (List Bool)
  | 0, _, _ => none
  | fuel + 1, node, code =>
    match nodes[node]? with
    | none => none
    | some nd =>
      match nd.p with
      | none => some code
      | some par =>
        match nodes[par]? with
        | none => none
        | some pn => climb nodes fuel par ((if some node = pn.c0 then false else true) :: code)

/-- The last loop of `HCTree::encode`: write the top of the stack and pop, until the stack
is empty.  `out` is the list of bits the stream has received. -/
def writeCode : List Bool → List Bool → List Bool
  | [], out => out
  | top :: rest, out => writeCode rest (out ++ [top])

/-- `HCTree::encode(byte, BitOutputStream&)`: the stream after the call. -/
def encode (t : HCTree) (symbol : Nat) (out : List Bool) : Option (List Bool) :=
  match findLeaf t.nodes symbol t.leaves with
  | none => none
  | some node =>
    match climb t.nodes t.nodes.length node [] with
    | none => none
    | some code => some (writeCode code out)

/-- The loop of `HCTree::decode`, one input bit per round, from `node` on: the symbol of the
leaf reached and the bits left in the stream. -/
def decodeLoop (nodes : List HCNode) : List Bool → Nat → Option (Nat × List Bool)
  | [], node =>
    match nodes[node]? with
    | none => none
    | some nd => if nd.c0.isSome || nd.c1.isSome then none else some (nd.symbol, [])
  | direction :: rest, node =>
    match nodes[node]? with
    | none => none
    | some nd =>
      if nd.c0.isSome || nd.c1.isSome then
        match (if direction = false then nd.c0 else nd.c1) with
        | none => none
        | some next => decodeLoop nodes rest next
      else some (nd.symbol, direction :: rest)

/-- `HCTree::decode(BitInputStream&)`: the symbol returned and the stream after the call. -/
def decode (t : HCTree) (input : List Bool) : Option (Nat × List Bool) :=
  match t.root with
  | none => none
  | some r => decodeLoop t.nodes input r

/-! ## The drivers -/

/-- The counting loop of `compress.cpp`: `counts[nextChar]++` for every byte read. -/
def countBytes : List Nat → List Int → List Int
  | [], counts => counts
  | nextChar :: rest, counts =>
    countBytes rest (counts.set nextChar (wrapInt (counts.getD nextChar 0 + 1)))

/-- The table `compress.cpp` passes to `build`. -/
def frequencies (seq : List Nat) : List Int := countBytes seq (List.replicate 256 0)

/-- The encoding loop of `compress.cpp`: `tree.encode(nextChar, out)` for every byte. -/
def encodeAll (t : HCTree) : List Nat → List Bool → Option (List Bool)
  | [], out => some out
  | nextChar :: rest, out =>
    match encode t nextChar out with
    | none => none
    | some out1 => encodeAll t rest out1

/-- The decoding loop of `uncompress.cpp`: `total` calls of `tree.decode(in)`; the bytes
written, in order, and the stream after the last call. -/
def decodeAll (t : HCTree) : Nat → List Bool → Option (List Nat × List Bool)
  | 0, input => some ([], input)
  | total + 1, input =>
    match decode t input with
    | none => none
    | some (sym, rest) =>
      match decodeAll t total rest with
      | none => none
      | some (syms, rest1) => some (sym :: syms, rest1)

/-! ## Paths and depths in the store -/

/-- The node reached from `node` by following the bits: `c0` on 0, `c1` on 1. -/
def descend (nodes : List HCNode) : List Bool → Nat → Option Nat
  | [], node => some node
  | b :: bs, node =>
    match nodes[node]? with
    | none => none
    | some nd =>
      match (if b = false then nd.c0 else nd.c1) with
      | none => none
      | some next => descend nodes bs next

/-- A cell without children. -/
def HCNode.isLeaf (nd : HCNode) : Bool := nd.c0.isNone && nd.c1.isNone

/-- Depth below `node` of the childless node that carries `symbol`, searching at most `fuel`
levels, `c0` before `c1`. -/
def leafDepth (nodes : List HCNode) (symbol : Nat) : Nat → Nat → Option Nat
  | 0, _ => none
  | fuel + 1, node =>
    match nodes[node]? with
    | none => none
    | some nd =>
      match nd.c0, nd.c1 with
      | some a, some b =>
        match leafDepth nodes symbol fuel a with
        | some d => some (d + 1)
        | none =>
          match leafDepth nodes symbol fuel b with
          | some d => some (d + 1)
          | none => none
      | none, none => if nd.symbol = symbol then some 0 else none
      | _, _ => none

/-- Depth of the leaf of `symbol` in the tree: the number of edges between the root and
that leaf. -/
def HCTree.depth (t : HCTree) (symbol : Nat) : Option Nat :=
  match t.root with
  | none => none
  | some r => leafDepth t.nodes symbol t.nodes.length r

/-- Symbols of the childless nodes below `node`, from `c0` to `c1`, searching at most `fuel`
levels. -/
def leafSymbols (nodes : List HCNode) : Nat → Nat → List Nat
  | 0, _ => []
  | fuel + 1, node =>
    match nodes[node]? with
    | none => []
    | some nd =>
      if nd.isLeaf then [nd.symbol]
      else
        (match nd.c0 with
          | none => []
          | some a => leafSymbols nodes fuel a) ++
        (match nd.c1 with
          | none => []
          | some b => leafSymbols nodes fuel b)

/-- Symbols carried by the leaves of the tree. -/
def HCTree.leafSymbols (t : HCTree) : List Nat :=
  match t.root with
  | none => []
  | some r => Huffman.leafSymbols t.nodes t.nodes.length r

/-- Symbols of the nodes that the filled slots of the leaf index point to, in slot order. -/
def HCTree.indexSymbols (t : HCTree) : List Nat :=
  t.leaves.filterMap (fun slot => slot.bind (fun q => (t.nodes[q]?).map HCNode.symbol))

/-- Symbols with a nonzero frequency, in increasing order. -/
def liveSymbols (freqs : List Int) : List Nat :=
  (List.range 256).filter (fun s => freqs.getD s 0 ≠ 0)

/-! ## Code trees and weighted path length -/

/-- A binary tree with symbols at its leaves: the shape of a code. -/
inductive CodeTree where
  | leaf (symbol : Nat) : CodeTree
  | node (l r : CodeTree) : CodeTree
deriving DecidableEq, Repr

/-- The symbols at the leaves, from left to right. -/
def CodeTree.symbols : CodeTree → List Nat
  | .leaf s => [s]
  | .node l r => l.symbols ++ r.symbols

/-- Depth of the leaf with the given symbol (of the leftmost one). -/
def CodeTree.depthOf (symbol : Nat) : CodeTree → Option Nat
  | .leaf s => if s = symbol then some 0 else none
  | .node l r =>
    match l.depthOf symbol with
    | some d => some (d + 1)
    | none =>
      match r.depthOf symbol with
      | some d => some (d + 1)
      | none => none

/-- The leaves with their depths, for a tree whose root is at depth `k`. -/
def CodeTree.symDepths : CodeTree → Nat → List (Nat × Nat)
  | .leaf s, k => [(s, k)]
  | .node l r, k => l.symDepths (k + 1) ++ r.symDepths (k + 1)

/-- Sum of the weights `g` of the symbols of a code tree. -/
def CodeTree.weight (g : Nat → Int) (T : CodeTree) : Int := (T.symbols.map g).sum

/-- Sum over the inner nodes of the weights of the leaves below. -/
def CodeTree.cost (g : Nat → Int) : CodeTree → Int
  | .leaf _ => 0
  | .node l r => l.cost g + r.cost g + (l.weight g + r.weight g)

/-- Weighted path length of a code tree for a table: the sum over the 256 symbols of
frequency times depth of the leaf of the symbol. -/
def CodeTree.wpl (T : CodeTree) (freqs : List Int) : Int :=
  ((List.range 256).map (fun s => freqs.getD s 0 * (((T.depthOf s).getD 0 : Nat) : Int))).sum

/-- A binary tree with symbols at its leaves in which an inner node has one or two
children. -/
inductive BinTree where
  | leaf (symbol : Nat) : BinTree
  | one (child : BinTree) : BinTree
  | node (l r : BinTree) : BinTree
deriving DecidableEq, Repr

/-- The symbols at the leaves, from left to right. -/
def BinTree.symbols : BinTree → List Nat
  | .leaf s => [s]
  | .one c => c.symbols
  | .node l r => l.symbols ++ r.symbols

/-- Depth of the leaf with the given symbol (of the leftmost one). -/
def BinTree.depthOf (symbol : Nat) : BinTree → Option Nat
  | .leaf s => if s = symbol then some 0 else none
  | .one c =>
    match c.depthOf symbol with
    | some d => some (d + 1)
    | none => none
  | .node l r =>
    match l.depthOf symbol with
    | some d => some (d + 1)
    | none =>
      match r.depthOf symbol with
      | some d => some (d + 1)
      | none => none

/-- Weighted path length of a binary tree for a table: the sum over the 256 symbols of
frequency times depth of the leaf of the symbol. -/
def BinTree.wpl (T : BinTree) (freqs : List Int) : Int :=
  ((List.range 256).map (fun s => freqs.getD s 0 * (((T.depthOf s).getD 0 : Nat) : Int))).sum

/-- The tree with every node that has a single child replaced by that child. -/
def BinTree.contract : BinTree → CodeTree
  | .leaf s => .leaf s
  | .one c => c.contract
  | .node l r => .node l.contract r.contract

/-- Weighted path length of a built tree for a table: the sum over the 256 symbols of
frequency times depth of the leaf of the symbol. -/
def HCTree.wpl (t : HCTree) (freqs : List Int) : Int :=
  ((List.range 256).map (fun s => freqs.getD s 0 * (((t.depth s).getD 0 : Nat) : Int))).sum

/-- Multisets of the depths of the leaves of a binary tree in which every inner node has two
children: such a multiset arises from the single depth 0 by splitting leaves. -/
inductive Full : Multiset Nat → Prop where
  | one : Full {0}
  | split (d : Nat) (D : Multiset Nat) : Full (d ::ₘ D) → Full ((d + 1) ::ₘ (d + 1) ::ₘ D)

/-- Cost of an assignment of depths to weights: the sum of weight times depth. -/
def pairCost (C : Multiset (Int × Nat)) : Int := (C.map (fun p => p.1 * (p.2 : Int))).sum

/-! ## Trees as values

The shape that a group of cells of the free store has, used to state and prove the
properties of the store that `build` leaves behind. -/

/-- A tree of cells: every node carries the address of its cell and the `count` stored in
it; a leaf also carries its `symbol`. -/
inductive PTree where
  | leaf (ptr : Nat) (count : Int) (symbol : Nat) : PTree
  | node (ptr : Nat) (count : Int) (l r : PTree) : PTree
deriving DecidableEq, Repr

/-- Address of the root cell. -/
def PTree.ptr : PTree → Nat
  | .leaf ptr _ _ => ptr
  | .node ptr _ _ _ => ptr

/-- The `count` of the root cell. -/
def PTree.count : PTree → Int
  | .leaf _ count _ => count
  | .node _ count _ _ => count

/-- The cell at the root of the tree when its parent pointer is `par`. -/
def PTree.cell (par : Option Nat) : PTree → HCNode
  | .leaf _ count symbol => ⟨count, symbol, none, none, par⟩
  | .node _ count l r => ⟨count, 0, some l.ptr, some r.ptr, par⟩

/-- The queue entry of a tree that has no parent yet. -/
def PTree.entry (t : PTree) : QEntry := ⟨t.ptr, t.cell none⟩

/-- All addresses of the tree, root first. -/
def PTree.ptrs : PTree → List Nat
  | .leaf ptr _ _ => [ptr]
  | .node ptr _ l r => ptr :: (l.ptrs ++ r.ptrs)

/-- The leaves of the tree from left to right, as (address, symbol, count). -/
def PTree.leafList : PTree → List (Nat × Nat × Int)
  | .leaf ptr count symbol => [(ptr, symbol, count)]
  | .node _ _ l r => l.leafList ++ r.leafList

/-- The store `nodes` holds the tree `t`, and the parent pointer of its root is `par`. -/
def Repr (nodes : List HCNode) : Option Nat → PTree → Prop
  | par, .leaf ptr count symbol => nodes[ptr]? = some ⟨count, symbol, none, none, par⟩
  | par, .node ptr count l r =>
    nodes[ptr]? = some ⟨count, 0, some l.ptr, some r.ptr, par⟩ ∧
      Repr nodes (some ptr) l ∧ Repr nodes (some ptr) r

/-- The subtree reached from the root by a sequence of bits (0: first child, 1: second). -/
def PTree.sub : PTree → List Bool → Option PTree
  | t, [] => some t
  | .leaf _ _ _, _ :: _ => none
  | .node _ _ l r, b :: bs => if b = false then l.sub bs else r.sub bs

/-- Depth of the leaf with the given symbol (of the leftmost one). -/
def PTree.depthOf (symbol : Nat) : PTree → Option Nat
  | .leaf _ _ s => if s = symbol then some 0 else none
  | .node _ _ l r =>
    match l.depthOf symbol with
    | some d => some (d + 1)
    | none =>
      match r.depthOf symbol with
      | some d => some (d + 1)
      | none => none

/-- Number of edges on the longest branch. -/
def PTree.height : PTree → Nat
  | .leaf _ _ _ => 0
  | .node _ _ l r => max l.height r.height + 1

/-- Every inner node carries the 32-bit sum of the counts of its two children. -/
def PTree.Summed : PTree → Prop
  | .leaf _ _ _ => True
  | .node _ count l r => count = wrapInt (l.count + r.count) ∧ l.Summed ∧ r.Summed

/-- Sum of the counts of the leaves. -/
def PTree.weight (t : PTree) : Int := (t.leafList.map (fun x => x.2.2)).sum

/-- The tree without addresses and counts. -/
def PTree.shape : PTree → CodeTree
  | .leaf _ _ s => .leaf s
  | .node _ _ l r => .node l.shape r.shape

/-- Sum over the inner nodes of the counts of the leaves below: the weighted path length
in terms of the counts. -/
def PTree.cost : PTree → Int
  | .leaf _ _ _ => 0
  | .node _ _ l r => l.cost + r.cost + (l.weight + r.weight)

/-- All addresses of a list of trees. -/
def forestPtrs (ts : List PTree) : List Nat := ts.flatMap PTree.ptrs

/-- All leaves of a list of trees. -/
def forestLeaves (ts : List PTree) : List (Nat × Nat × Int) := ts.flatMap PTree.leafList

/-- The merge loop of `build` on trees as values: `Huff ts t` when repeatedly replacing two
trees that the comparator allows on top of the queue, one after the other, by their parent
(at the next free address) turns the forest `ts` into the single tree `t`. -/
inductive Huff : List PTree → PTree → Prop where
  | done (t : PTree) : Huff [t] t
  | step (ts : List PTree) (t1 t2 : PTree) (rest : List PTree) (t : PTree) :
      ts.Perm (t1 :: t2 :: rest) →
      (∀ u ∈ t2 :: rest, HCNodePtrComp t1.entry u.entry = false) →
      (∀ u ∈ rest, HCNodePtrComp t2.entry u.entry = false) →
      Huff (PTree.node (forestPtrs ts).length (wrapInt (t1.count + t2.count)) t1 t2 :: rest) t →
      Huff ts t

/-- What `build` maintains between two rounds of its merge loop: the queue holds the roots
of the forest `ts`, the store holds the trees of `ts` (roots without a parent), and the
cells of the store are exactly the nodes of `ts`, each once. -/
structure Inv (P : PriorityQueue) (st : BuildState P) (ts : List PTree) : Prop where
  queue : (P.content st.pq).Perm (ts.map PTree.entry)
  repr : ∀ t ∈ ts, Repr st.nodes none t
  ptrs : (forestPtrs ts).Perm (List.range st.nodes.length)

/-- The leaves the first loop of `build` creates for the table `fs` read from position `i`
on, the first of them at address `ptr`. -/
def leafForest : List Int → Nat → Nat → List PTree
  | [], _, _ => []
  | f :: fs, i, ptr =>
    if f ≠ 0 then PTree.leaf ptr f (i % 256) :: leafForest fs (i + 1) (ptr + 1)
    else leafForest fs (i + 1) ptr

/-- The leaves of `leafForest`, as (address, symbol, count). -/
def leafTriples : List Int → Nat → Nat → List (Nat × Nat × Int)
  | [], _, _ => []
  | f :: fs, i, ptr =>
    if f ≠ 0 then (ptr, i % 256, f) :: leafTriples fs (i + 1) (ptr + 1)
    else leafTriples fs (i + 1) ptr

/-- Number of nonzero entries of a table. -/
def liveCount (fs : List Int) : Nat := (fs.filter (fun f => f ≠ 0)).length

/-- The facts that tie the `HCTree` `t` built from the table `freqs` to a tree value `T`:
the root of `t` is the root of `T`, the store holds `T` and nothing else, `T` comes from
the leaves of the table by the merge loop, and the leaf index lists the leaves in table
order, followed by empty slots. -/
structure Built (freqs : List Int) (t : HCTree) (T : PTree) : Prop where
  root : t.root = some T.ptr
  repr : Repr t.nodes none T
  ptrs : T.ptrs.Perm (List.range t.nodes.length)
  huff : Huff (leafForest freqs 0 0) T
  index : t.leaves = (leafTriples freqs 0 0).map (fun x => some x.1) ++
    List.replicate (256 - liveCount freqs) none
  leaves : T.leafList.Perm (leafTriples freqs 0 0)

/-- The table of the input "aab": `a` (97) twice, `b` (98) once. -/
def tableAAB : List Int := List.replicate 97 0 ++ [2, 1] ++ List.replicate 157 0

/-- The tree that `build` returns for `tableAAB`. -/
def treeAAB : HCTree :=
  ⟨[⟨2, 97, none, none, some 2⟩, ⟨1, 98, none, none, some 2⟩, ⟨3, 0, some 1, some 0, none⟩],
    some 2, [some 0, some 1] ++ List.replicate 254 none⟩

/-- A table with two nonzero entries of equal frequency: `a` (97) once, `b` (98) once. -/
def tableTie : List Int := List.replicate 97 0 ++ [1, 1] ++ List.replicate 157 0

/-- The tree that `build` returns for `tableTie`. -/
def treeTie : HCTree :=
  ⟨[⟨1, 97, none, none, some 2⟩, ⟨1, 98, none, none, some 2⟩, ⟨2, 0, some 1, some 0, none⟩],
    some 2, [some 0, some 1] ++ List.replicate 254 none⟩

/-- The entries of the table are non-negative and their sum is an `int`, so that no sum of
counts formed by `build` overflows. -/
def NoOverflow (freqs : List Int) : Prop := (∀ f ∈ freqs, 0 ≤ f) ∧ freqs.sum < 2147483648

/-- A table with two entries of 2^30: their sum is not an `int`. -/
def tableOver2 : List Int := [1073741824, 1073741824] ++ List.replicate 254 0

/-- A table with four entries of 2^30: sums of two of them are not an `int`. -/
def tableOver4 : List Int :=
  [1073741824, 1073741824, 1073741824, 1073741824] ++ List.replicate 252 0

/-- The balanced tree over the symbols 0, 1, 2, 3. -/
def balanced4 : BinTree := .node (.node (.leaf 0) (.leaf 1)) (.node (.leaf 2) (.leaf 3))

/-- A table with one nonzero entry: `a` (97) five times. -/
def tableA : List Int := List.replicate 97 0 ++ [5] ++ List.replicate 158 0

/-- A byte sequence in which the byte 0 occurs 2^32 times, followed by one byte 1. -/
def seqWrap : List Nat := List.replicate 4294967296 0 ++ [1]

/-! ## The rounds of the merge loop -/

/-- One round of the second loop of `HCTree::build`, the body of the `while`: the two top
nodes are removed, a new node with the first as `c0` and the second as `c1` is created, it
becomes the parent of both and is pushed. -/
def mergeStep (P : PriorityQueue) (st : BuildState P) : Option (BuildState P) :=
  match P.top st.pq with
  | none => none
  | some node1 =>
    let pq1 := P.pop st.pq
    match P.top pq1 with
    | none => none
    | some node2 =>
      let pq2 := P.pop pq1
      match st.nodes[node1.ptr]?, st.nodes[node2.ptr]? with
      | some cell1, some cell2 =>
        let newNode : HCNode :=
          ⟨wrapInt (cell1.count + cell2.count), 0, some node1.ptr, some node2.ptr, none⟩
        let newPtr := st.nodes.length
        let nodes1 := st.nodes ++ [newNode]
        let nodes2 := setParent (setParent nodes1 node2.ptr newPtr) node1.ptr newPtr
        some { st with nodes := nodes2, pq := P.push pq2 ⟨newPtr, newNode⟩ }
      | _, _ => none

/-- The states in which `build`, called on the table `freqs`, tests the condition of its
merge loop: the state after the leaf loop, and the state after every round that starts with
more than one queued node. -/
inductive LoopState (P : PriorityQueue) (freqs : List Int) : BuildState P → Prop where
  | start : LoopState P freqs
      (buildLeaves P freqs 0 (⟨[], HCTree.init.leaves, 0, P.empty⟩ : BuildState P))
  | round (st st2 : BuildState P) : LoopState P freqs st → P.size st.pq > 1 →
      mergeStep P st = some st2 → LoopState P freqs st2

/-- In every inner node the count of the first child is at most that of the second. -/
def PTree.Ordered : PTree → Prop
  | .leaf _ _ _ => True
  | .node _ _ l r => l.count ≤ r.count ∧ l.Ordered ∧ r.Ordered

/-- The counter `total` of `compress.cpp` during the counting loop: `total++` for every
byte read, in `int`. -/
def countTotal : List Nat → Int → Int
  | [], total => total
  | _ :: rest, total => countTotal rest (wrapInt (total + 1))

/-- The total that `compress.cpp` writes at the start of the header. -/
def headerTotal (seq : List Nat) : Int := countTotal seq 0

/-- A byte sequence in which the byte 0 occurs 2^31 times, followed by one byte 1. -/
def seqNeg : List Nat := List.replicate 2147483648 0 ++ [1]

/-- The table that `compress` counts for `seqNeg`: the counter of byte 0 has wrapped. -/
def tableNeg : List Int := [-2147483648, 1] ++ List.replicate 254 0

/-- The tree that `build` returns for `tableNeg`. -/
def treeNeg : HCTree :=
  ⟨[⟨-2147483648, 0, none, none, some 2⟩, ⟨1, 1, none, none, some 2⟩,
      ⟨-2147483647, 0, some 0, some 1, none⟩],
    some 2, [some 0, some 1] ++ List.replicate 254 none⟩

/-- A table with five nonzero entries, 2^29 twice and 2^30 three times: their sum is not an
`int`. -/
def tableSkew : List Int :=
  [536870912, 536870912, 1073741824, 1073741824, 1073741824] ++ List.replicate 251 0

/-- A table in which the byte 0 occurs twice and the bytes 1 and 2 once. -/
def tableZeroTie : List Int := [2, 1, 1] ++ List.replicate 253 0

/-! ## Basic facts -/

theorem getElem?_setParent (nodes : List HCNode) (a n i : Nat) :
    (setParent nodes a n)[i]? =
      if i = a then (nodes[a]?).map (fun nd => { nd with p := some n }) else nodes[i]? := by
  unfold setParent
  cases h : nodes[a]? with
  | none =>
    by_cases hi : i = a
    · subst hi; simp [h]
    · simp [hi]
  | some nd =>
    by_cases hi : i = a
    · subst hi
      have hlt : i < nodes.length := by
        by_contra hc
        rw [List.getElem?_eq_none (by omega)] at h
        cases h
      simp [List.getElem?_set_eq_of_lt, hlt]
    · simp [hi, List.getElem?_set_ne (Ne.symm hi)]

theorem length_setParent (nodes : List HCNode) (a n : Nat) :
    (setParent nodes a n).length = nodes.length := by
  unfold setParent
  cases nodes[a]? <;> simp

theorem Repr.root_cell {nodes : List HCNode} {par : Option Nat} {t : PTree}
    (h : Repr nodes par t) : nodes[t.ptr]? = some (t.cell par) := by
  cases t with
  | leaf ptr c s => exact h
  | node ptr c l r => exact h.1

theorem Repr.frame {nodes nodes2 : List HCNode} {par : Option Nat} {t : PTree}
    (h : Repr nodes par t) (hsame : ∀ q ∈ t.ptrs, nodes2[q]? = nodes[q]?) :
    Repr nodes2 par t := by
  induction t generalizing par with
  | leaf ptr c s =>
    simp only [Repr] at h ⊢
    rw [hsame ptr (by simp [PTree.ptrs])]; exact h
  | node ptr c l r ihl ihr =>
    simp only [Repr] at h ⊢
    refine ⟨?_, ihl h.2.1 ?_, ihr h.2.2 ?_⟩
    · rw [hsame ptr (by simp [PTree.ptrs])]; exact h.1
    · intro q hq; exact hsame q (by simp [PTree.ptrs, hq])
    · intro q hq; exact hsame q (by simp [PTree.ptrs, hq])

theorem Repr.lt_length {nodes : List HCNode} {par : Option Nat} {t : PTree}
    (h : Repr nodes par t) : ∀ q ∈ t.ptrs, q < nodes.length := by
  induction t generalizing par with
  | leaf ptr c s =>
    intro q hq
    simp only [PTree.ptrs, List.mem_singleton] at hq
    subst hq
    simp only [Repr] at h
    by_contra hc
    rw [List.getElem?_eq_none (by omega)] at h
    cases h
  | node ptr c l r ihl ihr =>
    intro q hq
    simp only [PTree.ptrs, List.mem_cons, List.mem_append] at hq
    simp only [Repr] at h
    rcases hq with rfl | hq | hq
    · by_contra hc
      rw [List.getElem?_eq_none (by omega)] at h
      cases h.1
    · exact ihl h.2.1 q hq
    · exact ihr h.2.2 q hq

/-- Changing the parent pointer of the root of a tree whose addresses are distinct. -/
theorem Repr.reparent {nodes nodes2 : List HCNode} {par par2 : Option Nat} {t : PTree}
    (h : Repr nodes par t) (hnd : t.ptrs.Nodup)
    (hroot : nodes2[t.ptr]? = some (t.cell par2))
    (hsame : ∀ q ∈ t.ptrs, q ≠ t.ptr → nodes2[q]? = nodes[q]?) :
    Repr nodes2 par2 t := by
  cases t with
  | leaf ptr c s => exact hroot
  | node ptr c l r =>
    simp only [Repr] at h ⊢
    simp only [PTree.ptrs, List.nodup_cons, List.mem_append, not_or] at hnd
    refine ⟨hroot, h.2.1.frame ?_, h.2.2.frame ?_⟩
    · intro q hq
      apply hsame q (by simp [PTree.ptrs, hq])
      rintro rfl; exact hnd.1.1 hq
    · intro q hq
      apply hsame q (by simp [PTree.ptrs, hq])
      rintro rfl; exact hnd.1.2 hq

@[simp] theorem PTree.entry_ptr (t : PTree) : t.entry.ptr = t.ptr := rfl

@[simp] theorem PTree.ptr_leaf (q : Nat) (c : Int) (s : Nat) : (PTree.leaf q c s).ptr = q := rfl

@[simp] theorem PTree.ptr_node (q : Nat) (c : Int) (l r : PTree) :
    (PTree.node q c l r).ptr = q := rfl

@[simp] theorem PTree.cell_count (par : Option Nat) (t : PTree) : (t.cell par).count = t.count := by
  cases t <;> rfl

@[simp] theorem PTree.entry_count (t : PTree) : t.entry.node.count = t.count := by
  cases t <;> rfl

theorem forestPtrs_cons (t : PTree) (ts : List PTree) :
    forestPtrs (t :: ts) = t.ptrs ++ forestPtrs ts := by
  simp [forestPtrs]

theorem forestPtrs_perm {ts us : List PTree} (h : ts.Perm us) :
    (forestPtrs ts).Perm (forestPtrs us) :=
  List.Perm.flatMap_right _ h

theorem forestLeaves_cons (t : PTree) (ts : List PTree) :
    forestLeaves (t :: ts) = t.leafList ++ forestLeaves ts := by
  simp [forestLeaves]

theorem forestLeaves_perm {ts us : List PTree} (h : ts.Perm us) :
    (forestLeaves ts).Perm (forestLeaves us) :=
  List.Perm.flatMap_right _ h

/-- Taking the top of a lawful queue that holds the roots of a forest. -/
theorem pop_spec {P : PriorityQueue} (hP : P.Lawful) (q : P.Q) (ts : List PTree)
    (h : (P.content q).Perm (ts.map PTree.entry)) (hne : ts ≠ []) :
    ∃ t rest, P.top q = some t.entry ∧ ts.Perm (t :: rest) ∧
      (P.content (P.pop q)).Perm (rest.map PTree.entry) ∧
      ∀ u ∈ rest, HCNodePtrComp t.entry u.entry = false := by
  have hc : P.content q ≠ [] := by
    intro hc
    rw [hc] at h
    cases ts with
    | nil => exact hne rfl
    | cons a l => simpa using h.length_eq
  obtain ⟨e, htop, hperm, hmax⟩ := hP.top_pop q hc
  have hmem : e ∈ ts.map PTree.entry := h.subset (hperm.symm.subset (List.mem_cons_self _ _))
  obtain ⟨t, ht, rfl⟩ := List.mem_map.1 hmem
  have hts : ts.Perm (t :: ts.erase t) := List.perm_cons_erase ht
  have hrest : (P.content (P.pop q)).Perm ((ts.erase t).map PTree.entry) := by
    have h1 : (t.entry :: P.content (P.pop q)).Perm (t.entry :: (ts.erase t).map PTree.entry) :=
      hperm.symm.trans (h.trans (by simpa using hts.map PTree.entry))
    exact h1.cons_inv
  refine ⟨t, ts.erase t, htop, hts, hrest, ?_⟩
  intro u hu
  exact hmax _ (hrest.symm.subset (List.mem_map_of_mem _ hu))

/-- One round of the merge loop preserves the invariant. -/
theorem merge_round {P : PriorityQueue} (hP : P.Lawful) (st : BuildState P)
    (t1 t2 : PTree) (rest : List PTree) (pq2 : P.Q)
    (hinv : Inv P st (t1 :: t2 :: rest))
    (hq : (P.content pq2).Perm (rest.map PTree.entry)) :
    Inv P
      { st with
        nodes := setParent (setParent (st.nodes ++
          [⟨wrapInt (t1.count + t2.count), 0, some t1.ptr, some t2.ptr, none⟩])
          t2.ptr st.nodes.length) t1.ptr st.nodes.length
        pq := P.push pq2 ⟨st.nodes.length,
          ⟨wrapInt (t1.count + t2.count), 0, some t1.ptr, some t2.ptr, none⟩⟩ }
      (PTree.node st.nodes.length (wrapInt (t1.count + t2.count)) t1 t2 :: rest) := by
  obtain ⟨-, hrepr, hptrs⟩ := hinv
  set n := st.nodes.length with hn
  set newNode : HCNode := ⟨wrapInt (t1.count + t2.count), 0, some t1.ptr, some t2.ptr, none⟩
  have hnodup : (forestPtrs (t1 :: t2 :: rest)).Nodup := hptrs.nodup_iff.2 (List.nodup_range n)
  have hlt : ∀ q ∈ forestPtrs (t1 :: t2 :: rest), q < n := fun q hq =>
    List.mem_range.1 (hptrs.subset hq)
  simp only [forestPtrs_cons] at hnodup hlt
  rw [List.nodup_append] at hnodup
  obtain ⟨hnd1, hnd23, hdis1⟩ := hnodup
  rw [List.nodup_append] at hnd23
  obtain ⟨hnd2, hnd3, hdis2⟩ := hnd23
  have hr1 : t1.ptr ∈ t1.ptrs := by cases t1 <;> simp [PTree.ptrs, PTree.ptr]
  have hr2 : t2.ptr ∈ t2.ptrs := by cases t2 <;> simp [PTree.ptrs, PTree.ptr]
  have h12 : t1.ptr ≠ t2.ptr := fun hc =>
    hdis1 hr1 (by rw [hc]; exact List.mem_append_left _ hr2)
  have hget : ∀ i, (setParent (setParent (st.nodes ++ [newNode]) t2.ptr n) t1.ptr n)[i]? =
      if i = t1.ptr then (st.nodes[t1.ptr]?).map (fun nd => { nd with p := some n })
      else if i = t2.ptr then (st.nodes[t2.ptr]?).map (fun nd => { nd with p := some n })
      else (st.nodes ++ [newNode])[i]? := by
    intro i
    have l1 : t1.ptr < n := hlt _ (List.mem_append_left _ hr1)
    have l2 : t2.ptr < n := hlt _ (List.mem_append_right _ (List.mem_append_left _ hr2))
    rw [getElem?_setParent, getElem?_setParent, getElem?_setParent]
    by_cases hi1 : i = t1.ptr
    · simp only [hi1, if_true, if_neg h12]
      rw [List.getElem?_append_left (by omega)]
    · simp only [if_neg hi1]
      by_cases hi2 : i = t2.ptr
      · simp only [hi2, if_true]
        rw [List.getElem?_append_left (by omega)]
      · simp only [if_neg hi2]
  have hsame : ∀ q, q < n → q ≠ t1.ptr → q ≠ t2.ptr →
      (setParent (setParent (st.nodes ++ [newNode]) t2.ptr n) t1.ptr n)[q]? = st.nodes[q]? := by
    intro q hq h1 h2
    rw [hget, if_neg h1, if_neg h2, List.getElem?_append_left (by omega)]
  refine ⟨?_, ?_, ?_⟩
  · -- queue
    refine (hP.content_push _ _).trans ?_
    simp only [List.map_cons]
    exact List.Perm.cons _ hq
  · -- repr
    intro t ht
    rcases List.mem_cons.1 ht with rfl | ht
    · simp only [Repr]
      refine ⟨?_, ?_, ?_⟩
      · have l1 : t1.ptr < n := hlt _ (List.mem_append_left _ hr1)
        have l2 : t2.ptr < n := hlt _ (List.mem_append_right _ (List.mem_append_left _ hr2))
        rw [hget, if_neg (by omega), if_neg (by omega),
          List.getElem?_append_right (by omega)]
        simp [hn]
      · have hR := hrepr t1 (by simp)
        refine hR.reparent hnd1 ?_ ?_
        · rw [hget, if_pos rfl, hR.root_cell]
          cases t1 <;> rfl
        · intro q hq hne
          apply hsame q (hlt _ (List.mem_append_left _ hq)) hne
          rintro rfl
          exact hdis1 hq (List.mem_append_left _ hr2)
      · have hR := hrepr t2 (by simp)
        refine hR.reparent hnd2 ?_ ?_
        · rw [hget, if_neg (Ne.symm h12), if_pos rfl, hR.root_cell]
          cases t2 <;> rfl
        · intro q hq hne
          refine hsame q (hlt _ (List.mem_append_right _ (List.mem_append_left _ hq))) ?_ hne
          rintro rfl
          exact hdis1 hr1 (List.mem_append_left _ hq)
    · have hR := hrepr t (by simp [ht])
      refine hR.frame ?_
      intro q hq
      have hq3 : q ∈ forestPtrs rest := List.mem_flatMap.2 ⟨t, ht, hq⟩
      refine hsame q (hlt _ (List.mem_append_right _ (List.mem_append_right _ hq3))) ?_ ?_
      · rintro rfl
        exact hdis1 hr1 (List.mem_append_right _ hq3)
      · rintro rfl
        exact hdis2 hr2 hq3
  · -- addresses
    simp only [forestPtrs_cons, PTree.ptrs, length_setParent, List.length_append,
      List.length_singleton]
    rw [List.range_succ]
    refine List.Perm.trans ?_ (List.perm_append_singleton _ _).symm
    refine List.Perm.cons _ ?_
    simpa [forestPtrs_cons, List.append_assoc] using hptrs

/-- The merge loop, started with at least as much fuel as there are queued nodes, ends with
a single tree, obtained from the forest by `Huff`; it does not touch the leaf index. -/
theorem mergeLoop_spec {P : PriorityQueue} (hP : P.Lawful) :
    ∀ (fuel : Nat) (st : BuildState P) (ts : List PTree), Inv P st ts → ts ≠ [] →
      ts.length ≤ fuel + 1 →
      ∃ st2 t, mergeLoop P fuel st = some st2 ∧ Inv P st2 [t] ∧ Huff ts t ∧
        st2.leaves = st.leaves := by
  intro fuel
  induction fuel with
  | zero =>
    intro st ts hinv hne hlen
    have hsize : P.size st.pq = ts.length := by
      rw [hP.size_eq, hinv.queue.length_eq, List.length_map]
    have hone : ts.length = 1 := by
      have := List.length_pos.2 hne
      omega
    obtain ⟨t, rfl⟩ := List.length_eq_one.1 hone
    refine ⟨st, t, ?_, hinv, Huff.done t, rfl⟩
    simp [mergeLoop, hsize]
  | succ fuel ih =>
    intro st ts hinv hne hlen
    have hsize : P.size st.pq = ts.length := by
      rw [hP.size_eq, hinv.queue.length_eq, List.length_map]
    by_cases hbig : ts.length > 1
    · obtain ⟨t1, ts1, htop1, hperm1, hq1, hmax1⟩ := pop_spec hP st.pq ts hinv.queue hne
      have hlen1 : ts.length = ts1.length + 1 := by simpa using hperm1.length_eq
      have hne1 : ts1 ≠ [] := by
        intro hc; rw [hc] at hlen1; simp at hlen1; omega
      obtain ⟨t2, rest, htop2, hperm2, hq2, hmax2⟩ := pop_spec hP (P.pop st.pq) ts1 hq1 hne1
      have hlen2 : ts1.length = rest.length + 1 := by simpa using hperm2.length_eq
      have hperm : ts.Perm (t1 :: t2 :: rest) := hperm1.trans (List.Perm.cons _ hperm2)
      have hinv1 : Inv P st (t1 :: t2 :: rest) :=
        ⟨hinv.queue.trans (hperm.map _), fun t ht => hinv.repr t (hperm.symm.subset ht),
          (forestPtrs_perm hperm.symm).trans hinv.ptrs⟩
      have hstep := merge_round hP st t1 t2 rest (P.pop (P.pop st.pq)) hinv1 hq2
      obtain ⟨st2, t, hrun, hinv2, hhuff, hleaves⟩ :=
        ih _ _ hstep (by simp) (by simp; omega)
      have hn : st.nodes.length = (forestPtrs ts).length := by
        simpa using hinv.ptrs.length_eq.symm
      rw [hn] at hhuff
      have hc1 := (hinv1.repr t1 (by simp)).root_cell
      have hc2 := (hinv1.repr t2 (by simp)).root_cell
      refine ⟨st2, t, ?_, hinv2, ?_, hleaves⟩
      · rw [mergeLoop, if_pos (by omega), htop1]
        simp only [htop2, PTree.entry_ptr, hc1, hc2, PTree.cell_count]
        simpa using hrun
      · exact Huff.step ts t1 t2 rest t hperm
          (fun u hu => hmax1 u (hperm2.symm.subset hu)) hmax2 hhuff
    · have hone : ts.length = 1 := by
        have := List.length_pos.2 hne
        omega
      obtain ⟨t, rfl⟩ := List.length_eq_one.1 hone
      refine ⟨st, t, ?_, hinv, Huff.done t, rfl⟩
      simp [mergeLoop, hsize]

/-- The first loop of `build` adds the leaves of the table to the forest. -/
theorem buildLeaves_inv {P : PriorityQueue} (hP : P.Lawful) :
    ∀ (fs : List Int) (i : Nat) (st : BuildState P) (ts : List PTree), Inv P st ts →
      Inv P (buildLeaves P fs i st) (ts ++ leafForest fs i st.nodes.length) := by
  intro fs
  induction fs with
  | nil => intro i st ts hinv; simpa [buildLeaves, leafForest] using hinv
  | cons f fs ih =>
    intro i st ts hinv
    by_cases hf : f = 0
    · simp only [buildLeaves, leafForest, hf, ne_eq, not_true_eq_false, if_false]
      exact ih _ _ _ hinv
    · simp only [buildLeaves, leafForest, hf, ne_eq, not_false_eq_true, if_true]
      have hstep : Inv P
          { nodes := st.nodes ++ [⟨f, i % 256, none, none, none⟩]
            leaves := st.leaves.set st.index (some st.nodes.length)
            index := st.index + 1
            pq := P.push st.pq ⟨st.nodes.length, ⟨f, i % 256, none, none, none⟩⟩ }
          (ts ++ [PTree.leaf st.nodes.length f (i % 256)]) := by
        refine ⟨?_, ?_, ?_⟩
        · refine (hP.content_push _ _).trans ?_
          rw [List.map_append]
          refine List.Perm.trans ?_ (List.perm_append_singleton _ _).symm
          exact List.Perm.cons _ hinv.queue
        · intro t ht
          rcases List.mem_append.1 ht with ht | ht
          · refine (hinv.repr t ht).frame ?_
            intro q hq
            have : q < st.nodes.length := (hinv.repr t ht).lt_length q hq
            simp [List.getElem?_append_left this]
          · simp only [List.mem_singleton] at ht
            subst ht
            simp [Repr]
        · have h1 : forestPtrs (ts ++ [PTree.leaf st.nodes.length f (i % 256)]) =
              forestPtrs ts ++ [st.nodes.length] := by
            simp [forestPtrs, PTree.ptrs]
          rw [h1]
          simp only [List.length_append, List.length_singleton, List.range_succ]
          exact List.Perm.append_right _ hinv.ptrs
      have := ih (i + 1) _ _ hstep
      simpa [List.append_assoc] using this

theorem length_leafForest (fs : List Int) (i ptr : Nat) :
    (leafForest fs i ptr).length = liveCount fs := by
  induction fs generalizing i ptr with
  | nil => rfl
  | cons f fs ih =>
    by_cases hf : f = 0
    · simp [leafForest, liveCount, hf, ih]
    · simp [leafForest, liveCount, hf, ih]

/-- The first loop of `build` fills the free slots of the leaf index in order. -/
theorem buildLeaves_leaves (P : PriorityQueue) :
    ∀ (fs : List Int) (i : Nat) (st : BuildState P) (pre : List (Option Nat)) (k : Nat),
      st.leaves = pre ++ List.replicate k none → st.index = pre.length → liveCount fs ≤ k →
      (buildLeaves P fs i st).leaves =
        pre ++ (leafForest fs i st.nodes.length).map (fun u => some u.ptr) ++
          List.replicate (k - liveCount fs) none := by
  intro fs
  induction fs with
  | nil =>
    intro i st pre k h1 _ _
    simp [buildLeaves, leafForest, liveCount, h1]
  | cons f fs ih =>
    intro i st pre k h1 h2 h3
    by_cases hf : f = 0
    · subst hf
      have hl : liveCount (0 :: fs) = liveCount fs := by simp [liveCount]
      simp only [buildLeaves, leafForest, ne_eq, not_true_eq_false, if_false]
      rw [hl] at h3 ⊢
      exact ih i.succ st pre k h1 h2 h3
    · have hl : liveCount (f :: fs) = liveCount fs + 1 := by simp [liveCount, hf]
      simp only [buildLeaves, leafForest, hf, ne_eq, not_false_eq_true, if_true]
      rw [hl] at h3 ⊢
      obtain ⟨k, rfl⟩ : ∃ k2, k = k2 + 1 := ⟨k - 1, by omega⟩
      have hset : st.leaves.set st.index (some st.nodes.length) =
          (pre ++ [some st.nodes.length]) ++ List.replicate k none := by
        rw [h1, h2, List.set_append_right _ _ (le_refl _)]
        simp [List.replicate_succ]
      have := ih (i + 1)
        { nodes := st.nodes ++ [⟨f, i % 256, none, none, none⟩]
          leaves := st.leaves.set st.index (some st.nodes.length)
          index := st.index + 1
          pq := P.push st.pq ⟨st.nodes.length, ⟨f, i % 256, none, none, none⟩⟩ }
        (pre ++ [some st.nodes.length]) k hset (by simp [h2]) (by omega)
      rw [this]
      simp [PTree.ptr]

/-- The outcome of `build` on a table with between 1 and 256 nonzero entries: a store that
holds one tree, reached from the leaves of the table by the merge loop, whose root is the
root of the `HCTree` and whose leaves fill the leaf index in table order. -/
theorem build_spec {P : PriorityQueue} (hP : P.Lawful) (freqs : List Int)
    (hpos : 0 < liveCount freqs) (hle : liveCount freqs ≤ 256) :
    ∃ t T, build P freqs = some t ∧ t.root = some T.ptr ∧ Repr t.nodes none T ∧
      T.ptrs.Perm (List.range t.nodes.length) ∧ Huff (leafForest freqs 0 0) T ∧
      t.leaves = (leafForest freqs 0 0).map (fun u => some u.ptr) ++
        List.replicate (256 - liveCount freqs) none := by
  have hinv0 : Inv P (⟨[], HCTree.init.leaves, 0, P.empty⟩ : BuildState P) [] :=
    ⟨by simp [hP.content_empty], by simp, by simp [forestPtrs]⟩
  have hinv1 := buildLeaves_inv hP freqs 0 _ _ hinv0
  simp only [List.nil_append, List.length_nil] at hinv1
  have hlen : (leafForest freqs 0 0).length = liveCount freqs := length_leafForest _ _ _
  have hne : leafForest freqs 0 0 ≠ [] := by
    intro hc; rw [hc] at hlen; simp at hlen; omega
  have hsize : P.size (buildLeaves P freqs 0 ⟨[], HCTree.init.leaves, 0, P.empty⟩).pq =
      liveCount freqs := by
    rw [hP.size_eq, hinv1.queue.length_eq, List.length_map, hlen]
  obtain ⟨st2, T, hrun, hinv2, hhuff, hleaves⟩ :=
    mergeLoop_spec hP (liveCount freqs) _ _ hinv1 hne (by omega)
  obtain ⟨T2, rest, htop, hperm, -, -⟩ := pop_spec hP st2.pq [T] hinv2.queue (by simp)
  have hT : T2 = T := by
    have := List.singleton_perm.1 hperm
    simp only [List.cons.injEq] at this
    exact this.1.symm
  subst hT
  refine ⟨⟨st2.nodes, some T2.ptr, st2.leaves⟩, T2, ?_, rfl, hinv2.repr _ (by simp), ?_, hhuff, ?_⟩
  · simp only [build, hsize, hrun, htop]
    rfl
  · simpa [forestPtrs] using hinv2.ptrs
  · simp only [hleaves]
    have := buildLeaves_leaves P freqs 0 (⟨[], HCTree.init.leaves, 0, P.empty⟩ : BuildState P)
      [] 256 rfl rfl hle
    simpa using this

/-! ## The reference queue is lawful -/

theorem HCNode.lt_iff (a b : HCNode) :
    a.lt b = true ↔ b.count < a.count ∨ (a.count = b.count ∧ a.symbol < b.symbol) := by
  unfold HCNode.lt
  by_cases hc : a.count = b.count
  · simp [hc]
  · simp [hc]

theorem HCNode.lt_false_iff (a b : HCNode) :
    a.lt b = false ↔ a.count < b.count ∨ (a.count = b.count ∧ b.symbol ≤ a.symbol) := by
  rw [← Bool.not_eq_true, HCNode.lt_iff]
  constructor <;> intro h <;> omega

theorem HCNode.lt_irrefl (a : HCNode) : a.lt a = false := by
  rw [HCNode.lt_false_iff]; omega

theorem HCNode.lt_asymm {a b : HCNode} (h : a.lt b = true) : b.lt a = false := by
  rw [HCNode.lt_iff] at h
  rw [HCNode.lt_false_iff]; omega

theorem HCNode.lt_negtrans {a b c : HCNode} (hab : a.lt b = false) (hbc : b.lt c = false) :
    a.lt c = false := by
  rw [HCNode.lt_false_iff] at hab hbc ⊢
  omega

/-- An entry that `HCNodePtrComp` does not place below another one has a count that is
not larger. -/
theorem count_le_of_comp_false {a b : QEntry} (h : HCNodePtrComp a b = false) :
    a.node.count ≤ b.node.count := by
  unfold HCNodePtrComp at h
  rw [HCNode.lt_false_iff] at h
  omega

theorem maxEntry_spec : ∀ (q : List QEntry), q ≠ [] →
    ∃ e, maxEntry q = some e ∧ e ∈ q ∧ ∀ b ∈ q, HCNodePtrComp e b = false := by
  intro q
  induction q with
  | nil => intro h; exact absurd rfl h
  | cons e rest ih =>
    intro _
    by_cases hr : rest = []
    · subst hr
      refine ⟨e, by simp [maxEntry], by simp, ?_⟩
      intro b hb
      simp only [List.mem_singleton] at hb
      subst hb
      exact HCNode.lt_irrefl _
    · obtain ⟨m, hm, hmem, hmax⟩ := ih hr
      by_cases hc : HCNodePtrComp e m = true
      · refine ⟨m, by simp [maxEntry, hm, hc], List.mem_cons_of_mem _ hmem, ?_⟩
        intro b hb
        rcases List.mem_cons.1 hb with rfl | hb
        · exact HCNode.lt_asymm hc
        · exact hmax b hb
      · have hc2 : HCNodePtrComp e m = false := by simpa using hc
        refine ⟨e, by simp [maxEntry, hm, hc2], List.mem_cons_self _ _, ?_⟩
        intro b hb
        rcases List.mem_cons.1 hb with rfl | hb
        · exact HCNode.lt_irrefl _
        · exact HCNode.lt_negtrans hc2 (hmax b hb)

theorem listPQ_lawful : listPQ.Lawful where
  content_empty := rfl
  content_push := fun _ _ => List.Perm.refl _
  size_eq := fun _ => rfl
  top_empty := by
    intro (q : List QEntry) (hq : q = [])
    subst hq
    rfl
  top_pop := by
    intro (q : List QEntry) (hq : q ≠ [])
    obtain ⟨e, he, hmem, hmax⟩ := maxEntry_spec q hq
    refine ⟨e, he, ?_, ?_⟩
    · show q.Perm (e :: (match maxEntry q with | none => q | some m => q.erase m))
      rw [he]
      exact List.perm_cons_erase hmem
    · intro b hb
      have hb2 : b ∈ (match maxEntry q with | none => q | some m => q.erase m) := hb
      rw [he] at hb2
      exact hmax b (List.mem_of_mem_erase hb2)

/-! ## Walking in a tree held by the store -/

theorem PTree.ptr_mem_ptrs (t : PTree) : t.ptr ∈ t.ptrs := by
  cases t <;> simp [PTree.ptrs, PTree.ptr]

theorem PTree.sub_ptrs {t u : PTree} {bits : List Bool} (h : t.sub bits = some u) :
    ∀ q ∈ u.ptrs, q ∈ t.ptrs := by
  induction bits generalizing t with
  | nil =>
    simp only [PTree.sub, Option.some.injEq] at h
    subst h; exact fun q hq => hq
  | cons b bs ih =>
    cases t with
    | leaf ptr c s => simp [PTree.sub] at h
    | node ptr c l r =>
      intro q hq
      cases b with
      | false =>
        simp only [PTree.sub, if_true] at h
        simp [PTree.ptrs, ih h q hq]
      | true =>
        simp only [PTree.sub, Bool.true_eq_false, if_false] at h
        simp [PTree.ptrs, ih h q hq]

/-- A subtree strictly below the root does not have the address of the root. -/
theorem PTree.sub_ptr_ne {t u : PTree} {b : Bool} {bs : List Bool} (hnd : t.ptrs.Nodup)
    (h : t.sub (b :: bs) = some u) : u.ptr ≠ t.ptr := by
  cases t with
  | leaf ptr c s => simp [PTree.sub] at h
  | node ptr c l r =>
    simp only [PTree.ptrs, List.nodup_cons, List.mem_append, not_or] at hnd
    intro hc
    cases b with
    | false =>
      simp only [PTree.sub, if_true] at h
      have := PTree.sub_ptrs h u.ptr u.ptr_mem_ptrs
      rw [hc] at this
      exact hnd.1.1 this
    | true =>
      simp only [PTree.sub, Bool.true_eq_false, if_false] at h
      have := PTree.sub_ptrs h u.ptr u.ptr_mem_ptrs
      rw [hc] at this
      exact hnd.1.2 this

/-- In a tree with distinct addresses a node is reached by one path only. -/
theorem PTree.sub_unique {t u v : PTree} {bits bits2 : List Bool} (hnd : t.ptrs.Nodup)
    (h1 : t.sub bits = some u) (h2 : t.sub bits2 = some v) (hp : u.ptr = v.ptr) :
    bits = bits2 := by
  induction bits generalizing t bits2 with
  | nil =>
    cases bits2 with
    | nil => rfl
    | cons b bs =>
      simp only [PTree.sub, Option.some.injEq] at h1
      subst h1
      exact absurd hp.symm (PTree.sub_ptr_ne hnd h2)
  | cons b bs ih =>
    cases bits2 with
    | nil =>
      simp only [PTree.sub, Option.some.injEq] at h2
      subst h2
      exact absurd hp (PTree.sub_ptr_ne hnd h1)
    | cons b2 bs2 =>
      cases t with
      | leaf ptr c s => simp [PTree.sub] at h1
      | node ptr c l r =>
        simp only [PTree.ptrs, List.nodup_cons] at hnd
        obtain ⟨-, hnd2⟩ := hnd
        rw [List.nodup_append] at hnd2
        obtain ⟨hl, hr, hdis⟩ := hnd2
        cases b <;> cases b2 <;>
          simp only [PTree.sub, if_true, Bool.true_eq_false, if_false] at h1 h2
        · rw [ih hl h1 h2]
        · exfalso
          refine hdis (PTree.sub_ptrs h1 _ u.ptr_mem_ptrs) ?_
          rw [hp]; exact PTree.sub_ptrs h2 _ v.ptr_mem_ptrs
        · exfalso
          refine hdis (PTree.sub_ptrs h2 _ v.ptr_mem_ptrs) ?_
          rw [← hp]; exact PTree.sub_ptrs h1 _ u.ptr_mem_ptrs
        · rw [ih hr h1 h2]

/-- Every leaf of a tree is at the end of a path. -/
theorem PTree.exists_sub_of_mem_leafList {t : PTree} {q s : Nat} {c : Int}
    (h : (q, s, c) ∈ t.leafList) : ∃ bits, t.sub bits = some (.leaf q c s) := by
  induction t with
  | leaf ptr c2 s2 =>
    simp only [PTree.leafList, List.mem_singleton, Prod.mk.injEq] at h
    obtain ⟨rfl, rfl, rfl⟩ := h
    exact ⟨[], rfl⟩
  | node ptr c2 l r ihl ihr =>
    simp only [PTree.leafList, List.mem_append] at h
    rcases h with h | h
    · obtain ⟨bs, hbs⟩ := ihl h
      exact ⟨false :: bs, by simpa [PTree.sub] using hbs⟩
    · obtain ⟨bs, hbs⟩ := ihr h
      exact ⟨true :: bs, by simpa [PTree.sub] using hbs⟩

theorem PTree.mem_leafList_of_sub {t : PTree} {bits : List Bool} {q s : Nat} {c : Int}
    (h : t.sub bits = some (.leaf q c s)) : (q, s, c) ∈ t.leafList := by
  induction bits generalizing t with
  | nil =>
    simp only [PTree.sub, Option.some.injEq] at h
    subst h; simp [PTree.leafList]
  | cons b bs ih =>
    cases t with
    | leaf ptr c2 s2 => simp [PTree.sub] at h
    | node ptr c2 l r =>
      cases b <;> simp only [PTree.sub, if_true, Bool.true_eq_false, if_false] at h
      · simp [PTree.leafList, ih h]
      · simp [PTree.leafList, ih h]

theorem PTree.sub_length_lt {t u : PTree} {bits : List Bool} (h : t.sub bits = some u) :
    bits.length + u.ptrs.length ≤ t.ptrs.length := by
  induction bits generalizing t with
  | nil =>
    simp only [PTree.sub, Option.some.injEq] at h
    subst h; simp
  | cons b bs ih =>
    cases t with
    | leaf ptr c s => simp [PTree.sub] at h
    | node ptr c l r =>
      cases b <;> simp only [PTree.sub, if_true, Bool.true_eq_false, if_false] at h
      · have := ih h
        simp only [PTree.ptrs, List.length_cons, List.length_append]
        omega
      · have := ih h
        simp only [PTree.ptrs, List.length_cons, List.length_append]
        omega

theorem Repr.sub {nodes : List HCNode} {par : Option Nat} {t u : PTree} {b : Bool}
    {bs : List Bool} (h : Repr nodes par t) (hs : t.sub (b :: bs) = some u) :
    ∃ w, Repr nodes (some w) u := by
  induction bs generalizing t par b u with
  | nil =>
    cases t with
    | leaf ptr c s => simp [PTree.sub] at hs
    | node ptr c l r =>
      simp only [Repr] at h
      cases b <;> simp only [PTree.sub, if_true, Bool.true_eq_false, if_false,
        Option.some.injEq] at hs
      · subst hs; exact ⟨ptr, h.2.1⟩
      · subst hs; exact ⟨ptr, h.2.2⟩
  | cons b2 bs ih =>
    cases t with
    | leaf ptr c s => simp [PTree.sub] at hs
    | node ptr c l r =>
      simp only [Repr] at h
      cases b
      · have hs2 : l.sub (b2 :: bs) = some u := by simpa [PTree.sub] using hs
        exact ih h.2.1 hs2
      · have hs2 : r.sub (b2 :: bs) = some u := by simpa [PTree.sub] using hs
        exact ih h.2.2 hs2

/-- Following bits in the store follows them in the tree. -/
theorem descend_repr {nodes : List HCNode} {par : Option Nat} {t : PTree}
    (h : Repr nodes par t) (bits : List Bool) :
    descend nodes bits t.ptr = (t.sub bits).map PTree.ptr := by
  induction bits generalizing t par with
  | nil => simp [descend, PTree.sub]
  | cons b bs ih =>
    cases t with
    | leaf ptr c s =>
      simp only [Repr] at h
      simp [descend, PTree.sub, h]
    | node ptr c l r =>
      simp only [Repr] at h
      cases b
      · simp [descend, PTree.sub, h.1, ih h.2.1]
      · simp [descend, PTree.sub, h.1, ih h.2.2]

@[simp] theorem PTree.cell_p (par : Option Nat) (t : PTree) : (t.cell par).p = par := by
  cases t <;> rfl

/-- The upward walk of `encode` from a node of a tree to the root of the tree pushes the
bits of the path between them, so that the first bit of the path ends on top. -/
theorem climb_repr {nodes : List HCNode} {par : Option Nat} {t u : PTree} {bits : List Bool}
    (h : Repr nodes par t) (hnd : t.ptrs.Nodup) (hs : t.sub bits = some u)
    (fuel : Nat) (acc : List Bool) :
    climb nodes (bits.length + fuel) u.ptr acc = climb nodes fuel t.ptr (bits ++ acc) := by
  induction bits generalizing t par fuel with
  | nil =>
    simp only [PTree.sub, Option.some.injEq] at hs
    subst hs; simp
  | cons b bs ih =>
    cases t with
    | leaf ptr c s => simp [PTree.sub] at hs
    | node ptr c l r =>
      simp only [Repr] at h
      simp only [PTree.ptrs, List.nodup_cons] at hnd
      obtain ⟨-, hnd2⟩ := hnd
      rw [List.nodup_append] at hnd2
      obtain ⟨hl, hr, hdis⟩ := hnd2
      have hlen : (b :: bs).length + fuel = bs.length + (fuel + 1) := by
        simp only [List.length_cons]; omega
      rw [hlen]
      cases b with
      | false =>
        have hs2 : l.sub bs = some u := by simpa [PTree.sub] using hs
        rw [ih h.2.1 hl hs2 (fuel + 1)]
        simp [climb, h.2.1.root_cell, h.1]
      | true =>
        have hs2 : r.sub bs = some u := by simpa [PTree.sub] using hs
        have hne : r.ptr ≠ l.ptr := fun hc =>
          hdis (by rw [hc]; exact l.ptr_mem_ptrs) r.ptr_mem_ptrs
        rw [ih h.2.2 hr hs2 (fuel + 1)]
        simp [climb, h.2.2.root_cell, h.1, hne]

/-- At the root of the tree the upward walk stops. -/
theorem climb_root {nodes : List HCNode} {t : PTree} (h : Repr nodes none t) (fuel : Nat)
    (acc : List Bool) : climb nodes (fuel + 1) t.ptr acc = some acc := by
  simp [climb, h.root_cell]

theorem writeCode_eq (code out : List Bool) : writeCode code out = out ++ code := by
  induction code generalizing out with
  | nil => simp [writeCode]
  | cons b bs ih => simp [writeCode, ih]

/-- The loop of `decode` follows the path to a leaf and stops there. -/
theorem decodeLoop_repr {nodes : List HCNode} {par : Option Nat} {t : PTree}
    {bits : List Bool} {q s : Nat} {c : Int}
    (h : Repr nodes par t) (hs : t.sub bits = some (.leaf q c s)) (rest : List Bool) :
    decodeLoop nodes (bits ++ rest) t.ptr = some (s, rest) := by
  induction bits generalizing t par with
  | nil =>
    simp only [PTree.sub, Option.some.injEq] at hs
    subst hs
    simp only [Repr] at h
    cases rest <;> simp [decodeLoop, h]
  | cons b bs ih =>
    cases t with
    | leaf ptr c2 s2 => simp [PTree.sub] at hs
    | node ptr c2 l r =>
      simp only [Repr] at h
      cases b with
      | false =>
        have hs2 : l.sub bs = some (.leaf q c s) := by simpa [PTree.sub] using hs
        simp [decodeLoop, h.1, ih h.2.1 hs2]
      | true =>
        have hs2 : r.sub bs = some (.leaf q c s) := by simpa [PTree.sub] using hs
        simp [decodeLoop, h.1, ih h.2.2 hs2]

/-- Whenever the loop of `decode` returns, it has read the path to a leaf and nothing else. -/
theorem decodeLoop_inv {nodes : List HCNode} {par : Option Nat} {t : PTree}
    {input rest : List Bool} {s : Nat}
    (h : Repr nodes par t) (hd : decodeLoop nodes input t.ptr = some (s, rest)) :
    ∃ bits q c, input = bits ++ rest ∧ t.sub bits = some (.leaf q c s) := by
  induction input generalizing t par with
  | nil =>
    cases t with
    | leaf ptr c s2 =>
      simp only [Repr] at h
      simp only [decodeLoop, PTree.ptr_leaf, h, Option.isSome_none, Bool.or_self,
        Bool.false_eq_true, if_false, Option.some.injEq, Prod.mk.injEq] at hd
      obtain ⟨rfl, rfl⟩ := hd
      exact ⟨[], ptr, c, rfl, rfl⟩
    | node ptr c l r =>
      simp only [Repr] at h
      simp [decodeLoop, h.1] at hd
  | cons d ds ih =>
    cases t with
    | leaf ptr c s2 =>
      simp only [Repr] at h
      simp only [decodeLoop, PTree.ptr_leaf, h, Option.isSome_none, Bool.or_self,
        Bool.false_eq_true, if_false, Option.some.injEq, Prod.mk.injEq] at hd
      obtain ⟨rfl, rfl⟩ := hd
      exact ⟨[], ptr, c, rfl, rfl⟩
    | node ptr c l r =>
      simp only [Repr] at h
      cases d with
      | false =>
        have hd2 : decodeLoop nodes ds l.ptr = some (s, rest) := by
          simpa [decodeLoop, h.1] using hd
        obtain ⟨bits, q, c2, h1, h2⟩ := ih h.2.1 hd2
        exact ⟨false :: bits, q, c2, by simp [h1], by simpa [PTree.sub] using h2⟩
      | true =>
        have hd2 : decodeLoop nodes ds r.ptr = some (s, rest) := by
          simpa [decodeLoop, h.1] using hd
        obtain ⟨bits, q, c2, h1, h2⟩ := ih h.2.2 hd2
        exact ⟨true :: bits, q, c2, by simp [h1], by simpa [PTree.sub] using h2⟩

theorem PTree.height_lt (t : PTree) : t.height < t.ptrs.length := by
  induction t with
  | leaf ptr c s => simp [PTree.height, PTree.ptrs]
  | node ptr c l r ihl ihr =>
    simp only [PTree.height, PTree.ptrs, List.length_cons, List.length_append]
    omega

/-- The depth search in the store is the depth search in the tree. -/
theorem leafDepth_repr {nodes : List HCNode} {par : Option Nat} {t : PTree}
    (h : Repr nodes par t) (s fuel : Nat) (hf : t.height < fuel) :
    leafDepth nodes s fuel t.ptr = t.depthOf s := by
  induction t generalizing par fuel with
  | leaf ptr c s2 =>
    simp only [Repr] at h
    obtain ⟨fuel, rfl⟩ : ∃ k, fuel = k + 1 := ⟨fuel - 1, by omega⟩
    simp [leafDepth, PTree.depthOf, h]
  | node ptr c l r ihl ihr =>
    simp only [Repr] at h
    obtain ⟨fuel, rfl⟩ : ∃ k, fuel = k + 1 := ⟨fuel - 1, by omega⟩
    simp only [PTree.height] at hf
    simp only [leafDepth, PTree.ptr_node, h.1, PTree.depthOf]
    rw [ihl h.2.1 fuel (by omega), ihr h.2.2 fuel (by omega)]

theorem PTree.depthOf_eq_none {t : PTree} {s : Nat}
    (h : s ∉ t.leafList.map (fun x => x.2.1)) : t.depthOf s = none := by
  induction t with
  | leaf ptr c s2 =>
    simp only [PTree.leafList, List.map_cons, List.map_nil, List.mem_singleton] at h
    simp [PTree.depthOf, Ne.symm h]
  | node ptr c l r ihl ihr =>
    simp only [PTree.leafList, List.map_append, List.mem_append, not_or] at h
    simp [PTree.depthOf, ihl h.1, ihr h.2]

/-- When the leaves carry distinct symbols, the depth of a symbol is the length of the path
to its leaf. -/
theorem PTree.depthOf_of_sub {t : PTree} {bits : List Bool} {q s : Nat} {c : Int}
    (hnd : (t.leafList.map (fun x => x.2.1)).Nodup) (hs : t.sub bits = some (.leaf q c s)) :
    t.depthOf s = some bits.length := by
  induction bits generalizing t with
  | nil =>
    simp only [PTree.sub, Option.some.injEq] at hs
    subst hs; simp [PTree.depthOf]
  | cons b bs ih =>
    cases t with
    | leaf ptr c2 s2 => simp [PTree.sub] at hs
    | node ptr c2 l r =>
      simp only [PTree.leafList, List.map_append] at hnd
      rw [List.nodup_append] at hnd
      obtain ⟨hl, hr, hdis⟩ := hnd
      cases b with
      | false =>
        have hs2 : l.sub bs = some (.leaf q c s) := by simpa [PTree.sub] using hs
        simp [PTree.depthOf, ih hl hs2]
      | true =>
        have hs2 : r.sub bs = some (.leaf q c s) := by simpa [PTree.sub] using hs
        have hmem : s ∈ r.leafList.map (fun x => x.2.1) :=
          List.mem_map.2 ⟨_, PTree.mem_leafList_of_sub hs2, rfl⟩
        have hnot : s ∉ l.leafList.map (fun x => x.2.1) := fun hc => hdis hc hmem
        simp [PTree.depthOf, PTree.depthOf_eq_none hnot, ih hr hs2]

/-! ## The leaves of the table and of the tree -/

theorem forestLeaves_leafForest (fs : List Int) (i ptr : Nat) :
    forestLeaves (leafForest fs i ptr) = leafTriples fs i ptr := by
  induction fs generalizing i ptr with
  | nil => rfl
  | cons f fs ih =>
    by_cases hf : f = 0
    · simp [leafForest, leafTriples, hf, ih]
    · simp [leafForest, leafTriples, hf, forestLeaves_cons, PTree.leafList, ih]

theorem map_ptr_leafForest (fs : List Int) (i ptr : Nat) :
    (leafForest fs i ptr).map (fun u => some u.ptr) =
      (leafTriples fs i ptr).map (fun x => some x.1) := by
  induction fs generalizing i ptr with
  | nil => rfl
  | cons f fs ih =>
    by_cases hf : f = 0
    · simp [leafForest, leafTriples, hf, ih]
    · simp [leafForest, leafTriples, hf, ih]

/-- The merge loop keeps the leaves. -/
theorem Huff.leafList_perm {ts : List PTree} {t : PTree} (h : Huff ts t) :
    t.leafList.Perm (forestLeaves ts) := by
  induction h with
  | done t => simp [forestLeaves]
  | step ts t1 t2 rest t hperm _ _ _ ih =>
    refine ih.trans ?_
    refine List.Perm.trans ?_ (forestLeaves_perm hperm.symm)
    simp [forestLeaves_cons, PTree.leafList]

/-- Symbols of `leafTriples` increase along the list and start at `i`. -/
theorem leafTriples_sorted (fs : List Int) (i ptr : Nat) (hi : i + fs.length ≤ 256) :
    (leafTriples fs i ptr).Pairwise (fun x y => x.2.1 < y.2.1) ∧
      ∀ x ∈ leafTriples fs i ptr, i ≤ x.2.1 := by
  induction fs generalizing i ptr with
  | nil => simp [leafTriples]
  | cons f fs ih =>
    simp only [List.length_cons] at hi
    obtain ⟨h1, h2⟩ := ih (i + 1) ptr (by omega)
    obtain ⟨h3, h4⟩ := ih (i + 1) (ptr + 1) (by omega)
    by_cases hf : f = 0
    · simp only [leafTriples, hf, ne_eq, not_true_eq_false, if_false]
      exact ⟨h1, fun x hx => by have := h2 x hx; omega⟩
    · simp only [leafTriples, hf, ne_eq, not_false_eq_true, if_true, List.pairwise_cons,
        List.mem_cons]
      have hmod : i % 256 = i := Nat.mod_eq_of_lt (by omega)
      refine ⟨⟨?_, h3⟩, ?_⟩
      · intro x hx
        have := h4 x hx
        simp only [hmod]; omega
      · rintro x (rfl | hx)
        · simp [hmod]
        · have := h4 x hx; omega

theorem leafTriples_nodup (fs : List Int) (i ptr : Nat) (hi : i + fs.length ≤ 256) :
    ((leafTriples fs i ptr).map (fun x => x.2.1)).Nodup := by
  have h := (leafTriples_sorted fs i ptr hi).1
  rw [List.Nodup, List.pairwise_map]
  exact h.imp (fun hlt => Nat.ne_of_lt hlt)

/-- The leaves of the table are its nonzero entries. -/
theorem mem_leafTriples (fs : List Int) (i ptr : Nat) (hi : i + fs.length ≤ 256) (s : Nat)
    (c : Int) :
    (∃ q, (q, s, c) ∈ leafTriples fs i ptr) ↔ ∃ k, s = i + k ∧ fs[k]? = some c ∧ c ≠ 0 := by
  induction fs generalizing i ptr with
  | nil => simp [leafTriples]
  | cons f fs ih =>
    simp only [List.length_cons] at hi
    have hmod : i % 256 = i := Nat.mod_eq_of_lt (by omega)
    have key : (∃ k, s = i + k ∧ (f :: fs)[k]? = some c ∧ c ≠ 0) ↔
        (s = i ∧ f = c ∧ c ≠ 0) ∨ ∃ k, s = i + 1 + k ∧ fs[k]? = some c ∧ c ≠ 0 := by
      constructor
      · rintro ⟨k, h1, h2, h3⟩
        cases k with
        | zero => left; exact ⟨by omega, by simpa using h2, h3⟩
        | succ k => right; exact ⟨k, by omega, by simpa using h2, h3⟩
      · rintro (⟨h1, h2, h3⟩ | ⟨k, h1, h2, h3⟩)
        · exact ⟨0, by omega, by simp [h2], h3⟩
        · exact ⟨k + 1, by omega, by simpa using h2, h3⟩
    rw [key]
    by_cases hf : f = 0
    · simp only [leafTriples, hf, ne_eq, not_true_eq_false, if_false]
      rw [ih (i + 1) ptr (by omega)]
      constructor
      · intro h; exact Or.inr h
      · rintro (⟨-, h2, h3⟩ | h)
        · exact absurd h2.symm h3
        · exact h
    · simp only [leafTriples, hf, ne_eq, not_false_eq_true, if_true, List.mem_cons,
        Prod.mk.injEq, hmod]
      constructor
      · rintro ⟨q, (⟨-, h1, h2⟩ | h)⟩
        · left; exact ⟨h1, h2.symm, by rw [h2]; exact hf⟩
        · right; exact (ih (i + 1) (ptr + 1) (by omega)).1 ⟨q, h⟩
      · rintro (⟨h1, h2, -⟩ | h)
        · exact ⟨ptr, Or.inl ⟨rfl, h1, h2.symm⟩⟩
        · obtain ⟨q, hq⟩ := (ih (i + 1) (ptr + 1) (by omega)).2 h
          exact ⟨q, Or.inr hq⟩

theorem liveCount_le_length (fs : List Int) : liveCount fs ≤ fs.length :=
  List.length_filter_le _ _

theorem liveCount_pos {fs : List Int} (h : ∃ f ∈ fs, f ≠ 0) : 0 < liveCount fs := by
  obtain ⟨f, hf, hne⟩ := h
  unfold liveCount
  apply List.length_pos_of_mem (a := f)
  simp [List.mem_filter, hf, hne]

/-- On a table of 256 entries with a nonzero one, `build` returns a tree, and the tree is
described by a tree value. -/
theorem build_built {P : PriorityQueue} (hP : P.Lawful) (freqs : List Int)
    (hlen : freqs.length = 256) (hlive : ∃ f ∈ freqs, f ≠ 0) :
    ∃ t T, build P freqs = some t ∧ Built freqs t T := by
  have hle : liveCount freqs ≤ 256 := hlen ▸ liveCount_le_length freqs
  obtain ⟨t, T, hb, hroot, hrepr, hptrs, hhuff, hidx⟩ :=
    build_spec hP freqs (liveCount_pos hlive) hle
  refine ⟨t, T, hb, hroot, hrepr, hptrs, hhuff, ?_, ?_⟩
  · rw [hidx, map_ptr_leafForest]
  · rw [← forestLeaves_leafForest]
    exact hhuff.leafList_perm

/-! ## `encode`, `decode` and `depth` on a built tree -/

theorem Repr.leaf_cell {nodes : List HCNode} {par : Option Nat} {t : PTree} {q s : Nat}
    {c : Int} (h : Repr nodes par t) (hm : (q, s, c) ∈ t.leafList) :
    ∃ w, nodes[q]? = some ⟨c, s, none, none, w⟩ := by
  induction t generalizing par with
  | leaf ptr c2 s2 =>
    simp only [PTree.leafList, List.mem_singleton, Prod.mk.injEq] at hm
    obtain ⟨rfl, rfl, rfl⟩ := hm
    exact ⟨par, h⟩
  | node ptr c2 l r ihl ihr =>
    simp only [Repr] at h
    simp only [PTree.leafList, List.mem_append] at hm
    rcases hm with hm | hm
    · exact ihl h.2.1 hm
    · exact ihr h.2.2 hm

/-- The leaf search of `encode` finds the slot of a symbol that the index holds. -/
theorem findLeaf_of_mem (nodes : List HCNode) (s : Nat) (rest : List (Option Nat)) :
    ∀ (triples : List (Nat × Nat × Int)),
      (triples.map (fun x => x.2.1)).Nodup →
      (∀ x ∈ triples, ∃ nd, nodes[x.1]? = some nd ∧ nd.symbol = x.2.1) →
      ∀ q c, (q, s, c) ∈ triples →
      findLeaf nodes s (triples.map (fun x => some x.1) ++ rest) = some q := by
  intro triples
  induction triples with
  | nil => intro _ _ q c hm; simp at hm
  | cons x tl ih =>
    intro hnd hcells q c hm
    obtain ⟨nd, hnd1, hnd2⟩ := hcells x (List.mem_cons_self _ _)
    simp only [List.map_cons, List.nodup_cons] at hnd
    by_cases hx : x.2.1 = s
    · have hxe : x = (q, s, c) := by
        rcases List.mem_cons.1 hm with h | h
        · exact h.symm
        · exfalso
          apply hnd.1
          rw [hx]
          exact List.mem_map.2 ⟨_, h, rfl⟩
      subst hxe
      simp [findLeaf, hnd1, hnd2]
    · have hm2 : (q, s, c) ∈ tl := by
        rcases List.mem_cons.1 hm with h | h
        · exfalso; apply hx; rw [← h]
        · exact h
      have hne : ¬ nd.symbol = s := by rw [hnd2]; exact hx
      simp only [List.map_cons, List.cons_append, findLeaf, hnd1, hne, if_false]
      exact ih hnd.2 (fun y hy => hcells y (List.mem_cons_of_mem _ hy)) q c hm2

/-- The leaf search of `encode` fails on a symbol that the index does not hold. -/
theorem findLeaf_of_not_mem (nodes : List HCNode) (s k : Nat) :
    ∀ (triples : List (Nat × Nat × Int)),
      (∀ x ∈ triples, ∃ nd, nodes[x.1]? = some nd ∧ nd.symbol = x.2.1) →
      s ∉ triples.map (fun x => x.2.1) →
      findLeaf nodes s (triples.map (fun x => some x.1) ++ List.replicate k none) = none := by
  intro triples
  induction triples with
  | nil =>
    intro _ _
    cases k <;> simp [findLeaf, List.replicate_succ]
  | cons x tl ih =>
    intro hcells hs
    obtain ⟨nd, hnd1, hnd2⟩ := hcells x (List.mem_cons_self _ _)
    simp only [List.map_cons, List.mem_cons, not_or] at hs
    have hne : ¬ nd.symbol = s := by rw [hnd2]; exact fun h => hs.1 h.symm
    simp only [List.map_cons, List.cons_append, findLeaf, hnd1, hne, if_false]
    exact ih (fun y hy => hcells y (List.mem_cons_of_mem _ hy)) hs.2

theorem Built.sym_nodup {freqs : List Int} {t : HCTree} {T : PTree} (h : Built freqs t T)
    (hlen : freqs.length = 256) : (T.leafList.map (fun x => x.2.1)).Nodup :=
  ((h.leaves.map _).nodup_iff).2 (leafTriples_nodup freqs 0 0 (by omega))

theorem Built.ptrs_nodup {freqs : List Int} {t : HCTree} {T : PTree} (h : Built freqs t T) :
    T.ptrs.Nodup :=
  h.ptrs.nodup_iff.2 (List.nodup_range _)

theorem Built.length_eq {freqs : List Int} {t : HCTree} {T : PTree} (h : Built freqs t T) :
    t.nodes.length = T.ptrs.length := by
  simpa using h.ptrs.length_eq.symm

/-- The leaves of a built tree are the nonzero entries of the table. -/
theorem Built.mem_leafList {freqs : List Int} {t : HCTree} {T : PTree} (h : Built freqs t T)
    (hlen : freqs.length = 256) (s : Nat) (c : Int) :
    (∃ q, (q, s, c) ∈ T.leafList) ↔ freqs[s]? = some c ∧ c ≠ 0 := by
  have h1 : (∃ q, (q, s, c) ∈ T.leafList) ↔ ∃ q, (q, s, c) ∈ leafTriples freqs 0 0 :=
    ⟨fun ⟨q, hq⟩ => ⟨q, h.leaves.subset hq⟩, fun ⟨q, hq⟩ => ⟨q, h.leaves.symm.subset hq⟩⟩
  rw [h1, mem_leafTriples freqs 0 0 (by omega)]
  constructor
  · rintro ⟨k, hk, h2, h3⟩
    have : s = k := by omega
    subst this
    exact ⟨h2, h3⟩
  · rintro ⟨h2, h3⟩
    exact ⟨s, by omega, h2, h3⟩

/-- A symbol with a nonzero frequency has a leaf, at the end of a path. -/
theorem Built.exists_path {freqs : List Int} {t : HCTree} {T : PTree} (h : Built freqs t T)
    (hlen : freqs.length = 256) (s : Nat) (hs : freqs.getD s 0 ≠ 0) :
    ∃ bits q, T.sub bits = some (.leaf q (freqs.getD s 0) s) := by
  have hget : freqs[s]? = some (freqs.getD s 0) := by
    rw [List.getD_eq_getElem?_getD] at hs ⊢
    cases hc : freqs[s]? with
    | none => rw [hc] at hs; simp at hs
    | some c => simp
  obtain ⟨q, hq⟩ := (h.mem_leafList hlen s _).2 ⟨hget, hs⟩
  obtain ⟨bits, hb⟩ := PTree.exists_sub_of_mem_leafList hq
  exact ⟨bits, q, hb⟩

/-- `encode` appends the path of the leaf of the symbol to the stream. -/
theorem Built.encode_eq {freqs : List Int} {t : HCTree} {T : PTree} (h : Built freqs t T)
    (hlen : freqs.length = 256) {bits : List Bool} {q s : Nat} {c : Int}
    (hs : T.sub bits = some (.leaf q c s)) (out : List Bool) :
    encode t s out = some (out ++ bits) := by
  have hm : (q, s, c) ∈ T.leafList := PTree.mem_leafList_of_sub hs
  have hcells : ∀ x ∈ leafTriples freqs 0 0,
      ∃ nd, t.nodes[x.1]? = some nd ∧ nd.symbol = x.2.1 := by
    rintro ⟨q2, s2, c2⟩ hx
    obtain ⟨w, hw⟩ := h.repr.leaf_cell (h.leaves.symm.subset hx)
    exact ⟨_, hw, rfl⟩
  have hfind : findLeaf t.nodes s t.leaves = some q := by
    rw [h.index]
    exact findLeaf_of_mem t.nodes s _ _ (leafTriples_nodup freqs 0 0 (by omega)) hcells q c
      (h.leaves.subset hm)
  have hlt := PTree.sub_length_lt hs
  simp only [PTree.ptrs, List.length_singleton] at hlt
  obtain ⟨k, hk⟩ : ∃ k, t.nodes.length = bits.length + (k + 1) :=
    ⟨t.nodes.length - bits.length - 1, by rw [h.length_eq]; omega⟩
  have hclimb : climb t.nodes t.nodes.length q [] = some bits := by
    rw [hk]
    have := climb_repr h.repr h.ptrs_nodup hs (k + 1) []
    simp only [PTree.ptr_leaf, List.append_nil] at this
    rw [this, climb_root h.repr]
  simp [encode, hfind, hclimb, writeCode_eq]

/-- `decode` reads the path of a leaf and returns its symbol. -/
theorem Built.decode_eq {freqs : List Int} {t : HCTree} {T : PTree} (h : Built freqs t T)
    {bits : List Bool} {q s : Nat} {c : Int}
    (hs : T.sub bits = some (.leaf q c s)) (rest : List Bool) :
    decode t (bits ++ rest) = some (s, rest) := by
  simp only [decode, h.root]
  exact decodeLoop_repr h.repr hs rest

theorem Built.depth_eq {freqs : List Int} {t : HCTree} {T : PTree} (h : Built freqs t T)
    (s : Nat) : t.depth s = T.depthOf s := by
  simp only [HCTree.depth, h.root]
  exact leafDepth_repr h.repr s _ (by rw [h.length_eq]; exact T.height_lt)

theorem Built.depth_of_sub {freqs : List Int} {t : HCTree} {T : PTree} (h : Built freqs t T)
    (hlen : freqs.length = 256) {bits : List Bool} {q s : Nat} {c : Int}
    (hs : T.sub bits = some (.leaf q c s)) : t.depth s = some bits.length := by
  rw [h.depth_eq, PTree.depthOf_of_sub (h.sym_nodup hlen) hs]

theorem PTree.sub_append (t : PTree) (xs ys : List Bool) :
    t.sub (xs ++ ys) = (t.sub xs).bind (fun u => u.sub ys) := by
  induction xs generalizing t with
  | nil => simp [PTree.sub]
  | cons b bs ih =>
    cases t with
    | leaf ptr c s => cases ys <;> simp [PTree.sub]
    | node ptr c l r =>
      cases b <;> simp [PTree.sub, ih]

/-! ## The counting loop of `compress` -/

theorem wrapInt_of_isInt32 {x : Int} (h : IsInt32 x) : wrapInt x = x := by
  unfold IsInt32 at h
  unfold wrapInt
  omega

theorem isInt32_wrapInt (x : Int) : IsInt32 (wrapInt x) := by
  unfold IsInt32 wrapInt
  omega

theorem wrapInt_wrapInt_add (x y : Int) : wrapInt (wrapInt x + y) = wrapInt (x + y) := by
  unfold wrapInt
  omega

theorem length_countBytes (seq : List Nat) (counts : List Int) :
    (countBytes seq counts).length = counts.length := by
  induction seq generalizing counts with
  | nil => rfl
  | cons b bs ih => simp [countBytes, ih]

/-- After the counting loop every counter holds its old value plus the number of
occurrences of its byte, reduced to 32 bits. -/
theorem getD_countBytes (seq : List Nat) (counts : List Int)
    (hb : ∀ b ∈ seq, b < counts.length) (hc : ∀ s, IsInt32 (counts.getD s 0)) (s : Nat) :
    (countBytes seq counts).getD s 0 = wrapInt (counts.getD s 0 + seq.count s) := by
  induction seq generalizing counts with
  | nil =>
    simp only [countBytes, List.count_nil, Nat.cast_zero, add_zero]
    exact (wrapInt_of_isInt32 (hc s)).symm
  | cons b bs ih =>
    have hb1 : b < counts.length := hb b (List.mem_cons_self _ _)
    have hget : ∀ u, (counts.set b (wrapInt (counts.getD b 0 + 1))).getD u 0 =
        if u = b then wrapInt (counts.getD b 0 + 1) else counts.getD u 0 := by
      intro u
      simp only [List.getD_eq_getElem?_getD]
      by_cases hu : u = b
      · subst hu; simp [List.getElem?_set_eq_of_lt, hb1]
      · simp [hu, List.getElem?_set_ne (Ne.symm hu)]
    simp only [countBytes]
    rw [ih _ (by intro x hx; simpa using hb x (List.mem_cons_of_mem _ hx))
      (by intro u; rw [hget]; split_ifs
          · exact isInt32_wrapInt _
          · exact hc u), hget]
    by_cases hs : s = b
    · subst hs
      simp only [if_true, List.count_cons_self, wrapInt_wrapInt_add]
      congr 1
      push_cast
      ring
    · have : List.count s (b :: bs) = List.count s bs := by
        rw [List.count_cons_of_ne hs]
      simp [hs, this]

theorem length_frequencies (seq : List Nat) : (frequencies seq).length = 256 := by
  unfold frequencies
  rw [length_countBytes, List.length_replicate]

theorem getD_frequencies (seq : List Nat) (hb : ∀ b ∈ seq, b < 256) (s : Nat) :
    (frequencies seq).getD s 0 = wrapInt (seq.count s) := by
  have hz : ∀ u, (List.replicate 256 (0 : Int)).getD u 0 = 0 := by
    intro u
    simp only [List.getD_eq_getElem?_getD, List.getElem?_replicate]
    split_ifs <;> rfl
  unfold frequencies
  rw [getD_countBytes seq _ (by intro b hb2; rw [List.length_replicate]; exact hb b hb2)]
  · rw [hz, zero_add]
  · intro u
    rw [hz]
    simp [IsInt32]

/-! ## The two driver loops -/

/-- When every byte of `seq` has a code that `encode` appends and `decode` reads back, the
encoding loop emits the codes in order and the decoding loop recovers `seq`. -/
theorem loops_roundtrip (t : HCTree) (code : Nat → List Bool) (seq : List Nat)
    (henc : ∀ b ∈ seq, ∀ out, encode t b out = some (out ++ code b))
    (hdec : ∀ b ∈ seq, ∀ rest, decode t (code b ++ rest) = some (b, rest)) :
    (∀ out, encodeAll t seq out = some (out ++ seq.flatMap code)) ∧
      ∀ pad, decodeAll t seq.length (seq.flatMap code ++ pad) = some (seq, pad) := by
  induction seq with
  | nil => simp [encodeAll, decodeAll]
  | cons b bs ih =>
    obtain ⟨ih1, ih2⟩ := ih (fun x hx => henc x (List.mem_cons_of_mem _ hx))
      (fun x hx => hdec x (List.mem_cons_of_mem _ hx))
    constructor
    · intro out
      simp [encodeAll, henc b (List.mem_cons_self _ _) out, ih1]
    · intro pad
      simp [decodeAll, List.append_assoc, hdec b (List.mem_cons_self _ _), ih2]

theorem exists_live_of_getD {freqs : List Int} {s : Nat} (hs : freqs.getD s 0 ≠ 0) :
    ∃ f ∈ freqs, f ≠ 0 := by
  rw [List.getD_eq_getElem?_getD] at hs
  cases hc : freqs[s]? with
  | none => rw [hc] at hs; simp at hs
  | some c =>
    rw [hc] at hs
    exact ⟨c, List.getElem?_mem hc, by simpa using hs⟩

/-- `encode` fails on a symbol whose frequency is zero: the leaf search runs into an empty
slot of the index, or off its end. -/
theorem Built.encode_none {freqs : List Int} {t : HCTree} {T : PTree} (h : Built freqs t T)
    (hlen : freqs.length = 256) {s : Nat} (hs : freqs.getD s 0 = 0) (out : List Bool) :
    encode t s out = none := by
  have hcells : ∀ x ∈ leafTriples freqs 0 0,
      ∃ nd, t.nodes[x.1]? = some nd ∧ nd.symbol = x.2.1 := by
    rintro ⟨q2, s2, c2⟩ hx
    obtain ⟨w, hw⟩ := h.repr.leaf_cell (h.leaves.symm.subset hx)
    exact ⟨_, hw, rfl⟩
  have hnot : s ∉ (leafTriples freqs 0 0).map (fun x => x.2.1) := by
    intro hc
    obtain ⟨⟨q, s2, c⟩, hx, hx2⟩ := List.mem_map.1 hc
    simp only at hx2
    subst hx2
    obtain ⟨k, hk, h2, h3⟩ := (mem_leafTriples freqs 0 0 (by omega) s2 c).1 ⟨q, hx⟩
    have : s2 = k := by omega
    subst this
    rw [List.getD_eq_getElem?_getD, h2] at hs
    exact h3 hs
  have hfind : findLeaf t.nodes s t.leaves = none := by
    rw [h.index]
    exact findLeaf_of_not_mem t.nodes s _ _ hcells hnot
  simp [encode, hfind]

theorem count_replicate_append_singleton (n s a b : Nat) :
    (List.replicate n a ++ [b]).count s =
      (if a = s then n else 0) + (if b = s then 1 else 0) := by
  rw [List.count_append, List.count_replicate, List.count_singleton]
  simp only [beq_iff_eq]

/-! ## The symbols of the leaves -/

theorem leafSymbols_repr {nodes : List HCNode} {par : Option Nat} {t : PTree}
    (h : Repr nodes par t) (fuel : Nat) (hf : t.height < fuel) :
    leafSymbols nodes fuel t.ptr = t.leafList.map (fun x => x.2.1) := by
  induction t generalizing par fuel with
  | leaf ptr c s =>
    simp only [Repr] at h
    obtain ⟨fuel, rfl⟩ : ∃ k, fuel = k + 1 := ⟨fuel - 1, by omega⟩
    simp [leafSymbols, h, HCNode.isLeaf, PTree.leafList]
  | node ptr c l r ihl ihr =>
    simp only [Repr] at h
    obtain ⟨fuel, rfl⟩ : ∃ k, fuel = k + 1 := ⟨fuel - 1, by omega⟩
    simp only [PTree.height] at hf
    simp [leafSymbols, h.1, HCNode.isLeaf, PTree.leafList, ihl h.2.1 fuel (by omega),
      ihr h.2.2 fuel (by omega)]

/-- The symbols of the leaves of the table are the symbols with a nonzero frequency. -/
theorem map_sym_leafTriples (freqs : List Int) (hlen : freqs.length = 256) :
    (leafTriples freqs 0 0).map (fun x => x.2.1) = liveSymbols freqs := by
  have hs1 : ((leafTriples freqs 0 0).map (fun x => x.2.1)).Sorted (· < ·) := by
    rw [List.Sorted, List.pairwise_map]
    exact (leafTriples_sorted freqs 0 0 (by omega)).1
  have hs2 : (liveSymbols freqs).Sorted (· < ·) :=
    (List.pairwise_lt_range 256).filter _
  refine List.eq_of_perm_of_sorted ?_ hs1 hs2
  rw [List.perm_ext_iff_of_nodup hs1.nodup hs2.nodup]
  intro s
  constructor
  · intro hm
    obtain ⟨⟨q, s2, c⟩, hx, hx2⟩ := List.mem_map.1 hm
    simp only at hx2
    subst hx2
    obtain ⟨k, hk, h2, h3⟩ := (mem_leafTriples freqs 0 0 (by omega) s2 c).1 ⟨q, hx⟩
    have hks : s2 = k := by omega
    subst hks
    have hlt : s2 < 256 := by
      by_contra hc
      rw [List.getElem?_eq_none (by omega)] at h2
      cases h2
    simp only [liveSymbols, List.mem_filter, List.mem_range, hlt, true_and,
      decide_eq_true_eq]
    rw [List.getD_eq_getElem?_getD, h2]
    exact h3
  · intro hm
    simp only [liveSymbols, List.mem_filter, List.mem_range, decide_eq_true_eq] at hm
    obtain ⟨hlt, hne⟩ := hm
    have hget : freqs[s]? = some (freqs.getD s 0) := by
      rw [List.getD_eq_getElem?_getD, List.getElem?_eq_getElem (by omega)]
      rfl
    obtain ⟨q, hq⟩ := (mem_leafTriples freqs 0 0 (by omega) s _).2 ⟨s, by omega, hget, hne⟩
    exact List.mem_map.2 ⟨_, hq, rfl⟩

theorem filterMap_index (nodes : List HCNode) (k : Nat) :
    ∀ (triples : List (Nat × Nat × Int)),
      (∀ x ∈ triples, ∃ nd, nodes[x.1]? = some nd ∧ nd.symbol = x.2.1) →
      List.filterMap (fun (slot : Option Nat) =>
          slot.bind (fun q => (nodes[q]?).map HCNode.symbol))
        (triples.map (fun x => some x.1) ++ List.replicate k none) =
        triples.map (fun x => x.2.1) := by
  intro triples
  induction triples with
  | nil =>
    intro _
    induction k with
    | zero => rfl
    | succ k ih => simp [List.replicate_succ]
  | cons x tl ih =>
    intro hcells
    obtain ⟨nd, h1, h2⟩ := hcells x (List.mem_cons_self _ _)
    have := ih (fun y hy => hcells y (List.mem_cons_of_mem _ hy))
    simp only [List.map_cons, List.cons_append]
    rw [List.filterMap_cons_some (b := x.2.1) (by simp [h1, h2]), this]

/-! ## Counts -/

theorem PTree.exists_sub_of_mem_ptrs {t : PTree} {q : Nat} (h : q ∈ t.ptrs) :
    ∃ bits u, t.sub bits = some u ∧ u.ptr = q := by
  induction t with
  | leaf ptr c s =>
    simp only [PTree.ptrs, List.mem_singleton] at h
    exact ⟨[], _, rfl, h.symm⟩
  | node ptr c l r ihl ihr =>
    simp only [PTree.ptrs, List.mem_cons, List.mem_append] at h
    rcases h with h | h | h
    · exact ⟨[], _, rfl, h.symm⟩
    · obtain ⟨bs, u, h1, h2⟩ := ihl h
      exact ⟨false :: bs, u, by simpa [PTree.sub] using h1, h2⟩
    · obtain ⟨bs, u, h1, h2⟩ := ihr h
      exact ⟨true :: bs, u, by simpa [PTree.sub] using h1, h2⟩

theorem PTree.Summed.subtree {t u : PTree} {bits : List Bool} (h : t.Summed)
    (hs : t.sub bits = some u) : u.Summed := by
  induction bits generalizing t with
  | nil =>
    simp only [PTree.sub, Option.some.injEq] at hs
    subst hs; exact h
  | cons b bs ih =>
    cases t with
    | leaf ptr c s => simp [PTree.sub] at hs
    | node ptr c l r =>
      simp only [PTree.Summed] at h
      cases b <;> simp only [PTree.sub, if_true, Bool.true_eq_false, if_false] at hs
      · exact ih h.2.1 hs
      · exact ih h.2.2 hs

/-- The merge loop forms 32-bit sums. -/
theorem Huff.summed {ts : List PTree} {t : PTree} (h : Huff ts t)
    (hts : ∀ u ∈ ts, u.Summed) : t.Summed := by
  induction h with
  | done t => exact hts t (by simp)
  | step ts t1 t2 rest t hperm _ _ _ ih =>
    apply ih
    intro u hu
    rcases List.mem_cons.1 hu with rfl | hu
    · exact ⟨rfl, hts t1 (hperm.symm.subset (by simp)),
        hts t2 (hperm.symm.subset (by simp))⟩
    · exact hts u (hperm.symm.subset (by simp [hu]))

theorem leafForest_summed (fs : List Int) (i ptr : Nat) :
    ∀ u ∈ leafForest fs i ptr, u.Summed := by
  induction fs generalizing i ptr with
  | nil => simp [leafForest]
  | cons f fs ih =>
    intro u hu
    by_cases hf : f = 0
    · simp only [leafForest, hf, ne_eq, not_true_eq_false, if_false] at hu
      exact ih _ _ u hu
    · simp only [leafForest, hf, ne_eq, not_false_eq_true, if_true, List.mem_cons] at hu
      rcases hu with rfl | hu
      · trivial
      · exact ih _ _ u hu

theorem PTree.weight_node (q : Nat) (c : Int) (l r : PTree) :
    (PTree.node q c l r).weight = l.weight + r.weight := by
  simp [PTree.weight, PTree.leafList]

theorem PTree.weight_nonneg {t : PTree} (h : ∀ x ∈ t.leafList, 0 ≤ x.2.2) : 0 ≤ t.weight := by
  unfold PTree.weight
  apply List.sum_nonneg
  intro c hc
  obtain ⟨x, hx, rfl⟩ := List.mem_map.1 hc
  exact h x hx

/-- Without overflow the count of a node is the sum of the counts of the leaves below. -/
theorem PTree.count_eq_weight {t : PTree} (hs : t.Summed)
    (hnn : ∀ x ∈ t.leafList, 0 ≤ x.2.2) (hlt : t.weight < 2147483648) :
    t.count = t.weight := by
  induction t with
  | leaf ptr c s => simp [PTree.count, PTree.weight, PTree.leafList]
  | node ptr c l r ihl ihr =>
    simp only [PTree.Summed] at hs
    have hl : ∀ x ∈ l.leafList, 0 ≤ x.2.2 := fun x hx => hnn x (by simp [PTree.leafList, hx])
    have hr : ∀ x ∈ r.leafList, 0 ≤ x.2.2 := fun x hx => hnn x (by simp [PTree.leafList, hx])
    have h0l := PTree.weight_nonneg hl
    have h0r := PTree.weight_nonneg hr
    rw [PTree.weight_node] at hlt ⊢
    have e1 := ihl hs.2.1 hl (by omega)
    have e2 := ihr hs.2.2 hr (by omega)
    show c = l.weight + r.weight
    rw [hs.1, e1, e2]
    exact wrapInt_of_isInt32 ⟨by omega, hlt⟩

theorem PTree.sub_weight {t u : PTree} {bits : List Bool} (hs : t.sub bits = some u)
    (hnn : ∀ x ∈ t.leafList, 0 ≤ x.2.2) :
    (∀ x ∈ u.leafList, 0 ≤ x.2.2) ∧ u.weight ≤ t.weight := by
  induction bits generalizing t with
  | nil =>
    simp only [PTree.sub, Option.some.injEq] at hs
    subst hs; exact ⟨hnn, le_refl _⟩
  | cons b bs ih =>
    cases t with
    | leaf ptr c s => simp [PTree.sub] at hs
    | node ptr c l r =>
      have hl : ∀ x ∈ l.leafList, 0 ≤ x.2.2 := fun x hx => hnn x (by simp [PTree.leafList, hx])
      have hr : ∀ x ∈ r.leafList, 0 ≤ x.2.2 := fun x hx => hnn x (by simp [PTree.leafList, hx])
      have h0l := PTree.weight_nonneg hl
      have h0r := PTree.weight_nonneg hr
      rw [PTree.weight_node]
      cases b <;> simp only [PTree.sub, if_true, Bool.true_eq_false, if_false] at hs
      · obtain ⟨h1, h2⟩ := ih hs hl
        exact ⟨h1, by omega⟩
      · obtain ⟨h1, h2⟩ := ih hs hr
        exact ⟨h1, by omega⟩

theorem sum_leafTriples (fs : List Int) (i ptr : Nat) :
    ((leafTriples fs i ptr).map (fun x => x.2.2)).sum = fs.sum := by
  induction fs generalizing i ptr with
  | nil => rfl
  | cons f fs ih =>
    by_cases hf : f = 0
    · simp [leafTriples, hf, ih]
    · simp [leafTriples, hf, ih]

theorem mem_leafTriples_count (fs : List Int) (i ptr : Nat) :
    ∀ x ∈ leafTriples fs i ptr, x.2.2 ∈ fs := by
  induction fs generalizing i ptr with
  | nil => simp [leafTriples]
  | cons f fs ih =>
    intro x hx
    by_cases hf : f = 0
    · simp only [leafTriples, hf, ne_eq, not_true_eq_false, if_false] at hx
      exact List.mem_cons_of_mem _ (ih _ _ x hx)
    · simp only [leafTriples, hf, ne_eq, not_false_eq_true, if_true, List.mem_cons] at hx
      rcases hx with rfl | hx
      · simp
      · exact List.mem_cons_of_mem _ (ih _ _ x hx)

theorem Built.tree_summed {freqs : List Int} {t : HCTree} {T : PTree} (h : Built freqs t T) :
    T.Summed :=
  h.huff.summed (leafForest_summed freqs 0 0)

theorem Built.weight_eq {freqs : List Int} {t : HCTree} {T : PTree} (h : Built freqs t T) :
    T.weight = freqs.sum := by
  unfold PTree.weight
  rw [(h.leaves.map _).sum_eq, sum_leafTriples]

theorem Built.leaf_nonneg {freqs : List Int} {t : HCTree} {T : PTree} (h : Built freqs t T)
    (hnn : ∀ f ∈ freqs, 0 ≤ f) : ∀ x ∈ T.leafList, 0 ≤ x.2.2 :=
  fun x hx => hnn _ (mem_leafTriples_count freqs 0 0 x (h.leaves.subset hx))

theorem Repr.of_sub {nodes : List HCNode} {par : Option Nat} {t u : PTree} {bits : List Bool}
    (h : Repr nodes par t) (hs : t.sub bits = some u) : ∃ w, Repr nodes w u := by
  cases bits with
  | nil =>
    simp only [PTree.sub, Option.some.injEq] at hs
    subst hs; exact ⟨par, h⟩
  | cons b bs =>
    obtain ⟨w, hw⟩ := h.sub hs
    exact ⟨some w, hw⟩

/-! ## Depth multisets and the exchange step -/

theorem Full.merge {D : Multiset Nat} (h : Full D) (h2 : 2 ≤ Multiset.card D) :
    ∃ m D2, D = (m + 1) ::ₘ (m + 1) ::ₘ D2 ∧ (∀ d ∈ D, d ≤ m + 1) ∧ Full (m ::ₘ D2) := by
  induction h with
  | one => simp at h2
  | split d D0 hfull ih =>
    by_cases hD0 : D0 = 0
    · subst hD0
      refine ⟨d, 0, rfl, ?_, hfull⟩
      intro x hx
      simp only [Multiset.cons_zero, Multiset.mem_cons, Multiset.mem_singleton, or_self] at hx
      omega
    · have hc : 2 ≤ Multiset.card (d ::ₘ D0) := by
        have := Multiset.card_pos.2 hD0
        simp only [Multiset.card_cons]
        omega
      obtain ⟨m0, E, heq, hle, hF⟩ := ih hc
      by_cases hd : d = m0 + 1
      · refine ⟨d, D0, rfl, ?_, hfull⟩
        intro x hx
        simp only [Multiset.mem_cons] at hx
        rcases hx with rfl | rfl | hx
        · exact le_refl _
        · exact le_refl _
        · have := hle x (Multiset.mem_cons_of_mem hx)
          omega
      · have hdm : d ∈ E := by
          have : d ∈ d ::ₘ D0 := Multiset.mem_cons_self _ _
          rw [heq] at this
          simp only [Multiset.mem_cons] at this
          rcases this with h | h | h
          · exact absurd h hd
          · exact absurd h hd
          · exact h
        obtain ⟨E2, rfl⟩ := Multiset.exists_cons_of_mem hdm
        have hD0eq : D0 = (m0 + 1) ::ₘ (m0 + 1) ::ₘ E2 := by
          have : d ::ₘ D0 = d ::ₘ (m0 + 1) ::ₘ (m0 + 1) ::ₘ E2 := by
            rw [heq]
            simp only [← Multiset.singleton_add]
            abel
          exact (Multiset.cons_inj_right d).1 this
        subst hD0eq
        refine ⟨m0, (d + 1) ::ₘ (d + 1) ::ₘ E2, ?_, ?_, ?_⟩
        · simp only [← Multiset.singleton_add]
          abel
        · intro x hx
          simp only [Multiset.mem_cons] at hx
          have hdle := hle d (Multiset.mem_cons_self _ _)
          rcases hx with rfl | rfl | rfl | rfl | hx
          · omega
          · omega
          · omega
          · omega
          · exact hle x (by simp [hx])
        · have h1 : Full (d ::ₘ m0 ::ₘ E2) := by
            rw [Multiset.cons_swap]; exact hF
          have h2 := Full.split d _ h1
          have e : (d + 1) ::ₘ (d + 1) ::ₘ m0 ::ₘ E2 = m0 ::ₘ (d + 1) ::ₘ (d + 1) ::ₘ E2 := by
            simp only [← Multiset.singleton_add]
            abel
          rw [← e]; exact h2

theorem pairCost_cons (p : Int × Nat) (C : Multiset (Int × Nat)) :
    pairCost (p ::ₘ C) = p.1 * (p.2 : Int) + pairCost C := by
  simp [pairCost]

theorem map_snd_eq_cons {C : Multiset (Int × Nat)} {d : Nat} {cs : Multiset Nat}
    (h : C.map Prod.snd = d ::ₘ cs) : ∃ x C3, C = (x, d) ::ₘ C3 ∧ C3.map Prod.snd = cs := by
  have hd : d ∈ C.map Prod.snd := by rw [h]; exact Multiset.mem_cons_self _ _
  obtain ⟨p, hp, hpd⟩ := Multiset.mem_map.1 hd
  obtain ⟨C3, rfl⟩ := Multiset.exists_cons_of_mem hp
  obtain ⟨x, d2⟩ := p
  simp only at hpd
  subst hpd
  refine ⟨x, C3, rfl, ?_⟩
  rw [Multiset.map_cons] at h
  exact (Multiset.cons_inj_right _).1 h

theorem map_fst_eq_cons {C : Multiset (Int × Nat)} {w : Int} {ws : Multiset Int}
    (h : C.map Prod.fst = w ::ₘ ws) : ∃ d C3, C = (w, d) ::ₘ C3 ∧ C3.map Prod.fst = ws := by
  have hd : w ∈ C.map Prod.fst := by rw [h]; exact Multiset.mem_cons_self _ _
  obtain ⟨p, hp, hpd⟩ := Multiset.mem_map.1 hd
  obtain ⟨C3, rfl⟩ := Multiset.exists_cons_of_mem hp
  obtain ⟨w2, d⟩ := p
  simp only at hpd
  subst hpd
  refine ⟨d, C3, rfl, ?_⟩
  rw [Multiset.map_cons] at h
  exact (Multiset.cons_inj_right _).1 h

/-- The exchange step of the optimality argument: in any assignment of the depths of a full
binary tree to weights of which `a` and `b` are two smallest, the two weights can be replaced
by one weight `a + b`, at a saving of at least `a + b`. -/
theorem exchange (C : Multiset (Int × Nat)) (a b : Int) (W : Multiset Int)
    (hW : C.map Prod.fst = a ::ₘ b ::ₘ W) (hab : a ≤ b) (hb : ∀ x ∈ W, b ≤ x)
    (hF : Full (C.map Prod.snd)) :
    ∃ C2, C2.map Prod.fst = (a + b) ::ₘ W ∧ Full (C2.map Prod.snd) ∧
      pairCost C2 + a + b ≤ pairCost C := by
  obtain ⟨da, C1, rfl, hW1⟩ := map_fst_eq_cons hW
  obtain ⟨db, C0, rfl, hW0⟩ := map_fst_eq_cons hW1
  subst hW0
  have hcard : 2 ≤ Multiset.card (Multiset.map Prod.snd ((a, da) ::ₘ (b, db) ::ₘ C0)) := by
    simp
  obtain ⟨m, D, hD, hle, hFm⟩ := hF.merge hcard
  simp only [Multiset.map_cons] at hD hle
  have hda : da ≤ m + 1 := hle da (by simp)
  have hdb : db ≤ m + 1 := hle db (by simp)
  have hda2 : (0 : Int) ≤ (m : Int) + 1 - da := by omega
  have hdb2 : (0 : Int) ≤ (m : Int) + 1 - db := by omega
  rcases Multiset.cons_eq_cons.1 hD with ⟨h1, h2⟩ | ⟨h1, cs, h2, h3⟩
  · -- `a` is at the largest depth
    rcases Multiset.cons_eq_cons.1 h2 with ⟨h4, h5⟩ | ⟨h4, cs, h5, h6⟩
    · -- and so is `b`
      refine ⟨(a + b, m) ::ₘ C0, by simp, by simpa [h5] using hFm, ?_⟩
      simp only [pairCost_cons, h1, h4]
      push_cast
      linarith
    · obtain ⟨x, C3, rfl, h7⟩ := map_snd_eq_cons h5
      have hx : b ≤ x := hb x (by simp)
      refine ⟨(a + b, m) ::ₘ (x, db) ::ₘ C3, by simp, ?_, ?_⟩
      · simpa [h7, h6] using hFm
      · simp only [pairCost_cons, h1]
        push_cast
        nlinarith [mul_nonneg (sub_nonneg.2 hx) hdb2]
  · rcases Multiset.cons_eq_cons.1 h2 with ⟨h4, h5⟩ | ⟨h4, cs2, h5, h6⟩
    · -- `b` is at the largest depth, `a` is not
      subst h5
      rcases Multiset.cons_eq_cons.1 h3 with ⟨h7, -⟩ | ⟨-, cs3, h8, h9⟩
      · exact absurd h7.symm h1
      · obtain ⟨x, C3, rfl, h10⟩ := map_snd_eq_cons h9
        have hx : b ≤ x := hb x (by simp)
        refine ⟨(a + b, m) ::ₘ (x, da) ::ₘ C3, by simp, ?_, ?_⟩
        · simpa [h10, h8] using hFm
        · simp only [pairCost_cons, h4]
          push_cast
          nlinarith [mul_nonneg (sub_nonneg.2 (le_trans hab hx)) hda2]
    · -- neither is at the largest depth
      subst h6
      rcases Multiset.cons_eq_cons.1 h3 with ⟨h7, -⟩ | ⟨-, cs3, h8, h9⟩
      · exact absurd h7.symm h1
      · rcases Multiset.cons_eq_cons.1 h9 with ⟨h10, -⟩ | ⟨-, cs4, h11, h12⟩
        · exact absurd h10 h4
        · subst h11
          obtain ⟨x, C3, rfl, h13⟩ := map_snd_eq_cons h5
          obtain ⟨y, C4, rfl, h14⟩ := map_snd_eq_cons h13
          have hx : b ≤ x := hb x (by simp)
          have hy : b ≤ y := hb y (by simp)
          refine ⟨(a + b, m) ::ₘ (x, da) ::ₘ (y, db) ::ₘ C4, ?_, ?_, ?_⟩
          · simp
          · have e : m ::ₘ D = m ::ₘ da ::ₘ db ::ₘ cs4 := by rw [h8, h12]
            simpa [h14, e] using hFm
          · simp only [pairCost_cons]
            push_cast
            nlinarith [mul_nonneg (sub_nonneg.2 (le_trans hab hx)) hda2,
              mul_nonneg (sub_nonneg.2 hy) hdb2]

/-! ## Weighted path length of a code tree -/

theorem CodeTree.map_fst_symDepths (U : CodeTree) (k : Nat) :
    (U.symDepths k).map Prod.fst = U.symbols := by
  induction U generalizing k with
  | leaf s => rfl
  | node l r ihl ihr => simp [CodeTree.symDepths, CodeTree.symbols, ihl, ihr]

theorem CodeTree.depthOf_none_of_not_mem {U : CodeTree} {s : Nat} (h : s ∉ U.symbols) :
    U.depthOf s = none := by
  induction U with
  | leaf s2 =>
    simp only [CodeTree.symbols, List.mem_singleton] at h
    simp [CodeTree.depthOf, Ne.symm h]
  | node l r ihl ihr =>
    simp only [CodeTree.symbols, List.mem_append, not_or] at h
    simp [CodeTree.depthOf, ihl h.1, ihr h.2]

theorem CodeTree.depthOf_of_mem {U : CodeTree} {s d k : Nat} (hnd : U.symbols.Nodup)
    (h : (s, d) ∈ U.symDepths k) : ∃ e, U.depthOf s = some e ∧ d = k + e := by
  induction U generalizing k with
  | leaf s2 =>
    simp only [CodeTree.symDepths, List.mem_singleton, Prod.mk.injEq] at h
    obtain ⟨rfl, rfl⟩ := h
    exact ⟨0, by simp [CodeTree.depthOf], rfl⟩
  | node l r ihl ihr =>
    simp only [CodeTree.symbols] at hnd
    rw [List.nodup_append] at hnd
    obtain ⟨hl, hr, hdis⟩ := hnd
    simp only [CodeTree.symDepths, List.mem_append] at h
    rcases h with h | h
    · obtain ⟨e, h1, h2⟩ := ihl hl h
      exact ⟨e + 1, by simp [CodeTree.depthOf, h1], by omega⟩
    · obtain ⟨e, h1, h2⟩ := ihr hr h
      have hmem : s ∈ r.symbols := by
        rw [← CodeTree.map_fst_symDepths r (k + 1)]
        exact List.mem_map.2 ⟨_, h, rfl⟩
      have hnot : s ∉ l.symbols := fun hc => hdis hc hmem
      exact ⟨e + 1, by simp [CodeTree.depthOf, CodeTree.depthOf_none_of_not_mem hnot, h1], by omega⟩

/-- The depths of the leaves of a code tree form a `Full` multiset. -/
theorem CodeTree.full_depths (U : CodeTree) (k : Nat) (D : Multiset Nat)
    (h : Full (k ::ₘ D)) :
    Full (((U.symDepths k).map Prod.snd : List Nat) + D) := by
  induction U generalizing k D with
  | leaf s =>
    simpa [CodeTree.symDepths] using h
  | node l r ihl ihr =>
    have h1 := Full.split k D h
    have h2 := ihl (k + 1) ((k + 1) ::ₘ D) h1
    have e2 : (((l.symDepths (k + 1)).map Prod.snd : List Nat) : Multiset Nat) +
        (k + 1) ::ₘ D = (k + 1) ::ₘ ((((l.symDepths (k + 1)).map Prod.snd : List Nat) :
          Multiset Nat) + D) := by
      simp only [← Multiset.singleton_add]
      abel
    rw [e2] at h2
    have h3 := ihr (k + 1) _ h2
    have e3 : (((((node l r).symDepths k).map Prod.snd : List Nat)) : Multiset Nat) + D =
        (((r.symDepths (k + 1)).map Prod.snd : List Nat) : Multiset Nat) +
          ((((l.symDepths (k + 1)).map Prod.snd : List Nat) : Multiset Nat) + D) := by
      simp only [CodeTree.symDepths, List.map_append, ← Multiset.coe_add]
      abel
    rw [e3]; exact h3

theorem CodeTree.sum_symDepths (g : Nat → Int) (U : CodeTree) (k : Nat) :
    ((U.symDepths k).map (fun p => g p.1 * (p.2 : Int))).sum =
      U.cost g + (k : Int) * U.weight g := by
  induction U generalizing k with
  | leaf s => simp [CodeTree.symDepths, CodeTree.cost, CodeTree.weight, CodeTree.symbols, mul_comm]
  | node l r ihl ihr =>
    simp only [CodeTree.symDepths, List.map_append, List.sum_append, ihl, ihr, CodeTree.cost,
      CodeTree.weight, CodeTree.symbols]
    push_cast
    ring

theorem sum_map_filter_of_zero {α : Type} (l : List α) (p : α → Bool) (h : α → Int)
    (hz : ∀ x ∈ l, p x = false → h x = 0) :
    (l.map h).sum = ((l.filter p).map h).sum := by
  induction l with
  | nil => rfl
  | cons x xs ih =>
    have ih2 := ih (fun y hy => hz y (List.mem_cons_of_mem _ hy))
    by_cases hp : p x = true
    · simp [List.filter_cons, hp, ih2]
    · have hp2 : p x = false := by simpa using hp
      simp [List.filter_cons, hp2, ih2, hz x (List.mem_cons_self _ _) hp2]

/-- The weighted path length of a code tree over the live symbols, as a sum over its inner
nodes. -/
theorem CodeTree.wpl_eq_cost (U : CodeTree) (freqs : List Int)
    (hperm : U.symbols.Perm (liveSymbols freqs)) :
    U.wpl freqs = U.cost (fun s => freqs.getD s 0) := by
  have hnd : U.symbols.Nodup := hperm.nodup_iff.2 ((List.nodup_range 256).filter _)
  unfold CodeTree.wpl
  rw [sum_map_filter_of_zero (List.range 256) (fun s => decide (freqs.getD s 0 ≠ 0))]
  · have h1 : ((liveSymbols freqs).map
        (fun s => freqs.getD s 0 * (((U.depthOf s).getD 0 : Nat) : Int))).sum =
        (U.symbols.map
          (fun s => freqs.getD s 0 * (((U.depthOf s).getD 0 : Nat) : Int))).sum :=
      ((hperm.map _).sum_eq).symm
    have h2 : U.symbols.map
        (fun s => freqs.getD s 0 * (((U.depthOf s).getD 0 : Nat) : Int)) =
        (U.symDepths 0).map (fun p => freqs.getD p.1 0 * (p.2 : Int)) := by
      rw [← CodeTree.map_fst_symDepths U 0, List.map_map]
      apply List.map_congr_left
      rintro ⟨s, d⟩ hp
      obtain ⟨e, he1, he2⟩ := CodeTree.depthOf_of_mem hnd hp
      simp only [Function.comp, he1, Option.getD_some]
      rw [he2]; simp
    have h3 := CodeTree.sum_symDepths (fun s => freqs.getD s 0) U 0
    simp only [Nat.cast_zero, zero_mul, add_zero] at h3
    show ((liveSymbols freqs).map _).sum = _
    rw [h1, h2, h3]
  · intro s _ hs
    have : freqs.getD s 0 = 0 := by
      by_contra hc
      rw [decide_eq_false_iff_not] at hs
      exact hs hc
    show freqs.getD s 0 * _ = 0
    rw [this, zero_mul]

theorem PTree.shape_symbols (T : PTree) : T.shape.symbols = T.leafList.map (fun x => x.2.1) := by
  induction T with
  | leaf q c s => rfl
  | node q c l r ihl ihr => simp [PTree.shape, CodeTree.symbols, PTree.leafList, ihl, ihr]

theorem PTree.shape_depthOf (T : PTree) (s : Nat) : T.shape.depthOf s = T.depthOf s := by
  induction T with
  | leaf q c s2 => rfl
  | node q c l r ihl ihr => simp [PTree.shape, CodeTree.depthOf, PTree.depthOf, ihl, ihr]

theorem PTree.shape_weight_cost (g : Nat → Int) (T : PTree)
    (hleaf : ∀ x ∈ T.leafList, x.2.2 = g x.2.1) :
    T.shape.weight g = T.weight ∧ T.shape.cost g = T.cost := by
  induction T with
  | leaf q c s =>
    have := hleaf (q, s, c) (by simp [PTree.leafList])
    simp only at this
    simp [PTree.shape, CodeTree.weight, CodeTree.symbols, CodeTree.cost, PTree.weight,
      PTree.leafList, PTree.cost, this]
  | node q c l r ihl ihr =>
    obtain ⟨h1, h2⟩ := ihl (fun x hx => hleaf x (by simp [PTree.leafList, hx]))
    obtain ⟨h3, h4⟩ := ihr (fun x hx => hleaf x (by simp [PTree.leafList, hx]))
    have hw : (PTree.node q c l r).shape.weight g = l.shape.weight g + r.shape.weight g := by
      simp [PTree.shape, CodeTree.weight, CodeTree.symbols]
    refine ⟨by rw [hw, h1, h3, PTree.weight_node], ?_⟩
    simp only [PTree.shape, CodeTree.cost, PTree.cost, h1, h2, h3, h4]

/-! ## The merge loop minimises the weighted path length -/

theorem pairCost_nonneg (C : Multiset (Int × Nat)) (h : ∀ w ∈ C.map Prod.fst, 0 ≤ w) :
    0 ≤ pairCost C := by
  unfold pairCost
  apply Multiset.sum_nonneg
  intro x hx
  obtain ⟨p, hp, rfl⟩ := Multiset.mem_map.1 hx
  exact mul_nonneg (h _ (Multiset.mem_map.2 ⟨p, hp, rfl⟩)) (by positivity)

/-- The tree that the merge loop makes of a forest costs no more than the trees of the
forest plus any assignment of the depths of a full binary tree to their weights, as long as
no sum of counts overflows. -/
theorem Huff.cost_le {ts : List PTree} {T : PTree} (h : Huff ts T) :
    (∀ t ∈ ts, t.Summed) → (∀ t ∈ ts, ∀ x ∈ t.leafList, 0 ≤ x.2.2) →
    (ts.map PTree.weight).sum < 2147483648 →
    ∀ C : Multiset (Int × Nat), C.map Prod.fst = ((ts.map PTree.weight : List Int)) →
      Full (C.map Prod.snd) → T.cost ≤ (ts.map PTree.cost).sum + pairCost C := by
  induction h with
  | done t =>
    intro _ hnn _ C hW _
    have h0 : 0 ≤ pairCost C := by
      apply pairCost_nonneg
      intro w hw
      rw [hW] at hw
      simp only [List.map_cons, List.map_nil, Multiset.coe_singleton,
        Multiset.mem_singleton] at hw
      rw [hw]
      exact PTree.weight_nonneg (hnn t (by simp))
    simp only [List.map_cons, List.map_nil, List.sum_cons, List.sum_nil, add_zero]
    omega
  | step ts t1 t2 rest T hperm hmax1 hmax2 _ ih =>
    intro hS hnn hsum C hW hF
    have hmemts : ∀ u ∈ t1 :: t2 :: rest, u ∈ ts := fun u hu => hperm.symm.subset hu
    have hw0 : ∀ u ∈ t1 :: t2 :: rest, 0 ≤ u.weight := fun u hu =>
      PTree.weight_nonneg (hnn u (hmemts u hu))
    have hsum2 : ((t1 :: t2 :: rest).map PTree.weight).sum < 2147483648 := by
      rw [← (hperm.map PTree.weight).sum_eq]; exact hsum
    have hcw : ∀ u ∈ t1 :: t2 :: rest, u.count = u.weight := by
      intro u hu
      apply PTree.count_eq_weight (hS u (hmemts u hu)) (hnn u (hmemts u hu))
      have hle : u.weight ≤ ((t1 :: t2 :: rest).map PTree.weight).sum := by
        apply List.single_le_sum
        · intro x hx
          obtain ⟨v, hv, rfl⟩ := List.mem_map.1 hx
          exact hw0 v hv
        · exact List.mem_map_of_mem _ hu
      omega
    have hrest0 : 0 ≤ (rest.map PTree.weight).sum := by
      apply List.sum_nonneg
      intro x hx
      obtain ⟨v, hv, rfl⟩ := List.mem_map.1 hx
      exact hw0 v (by simp [hv])
    have h1 := hw0 t1 (by simp)
    have h2 := hw0 t2 (by simp)
    simp only [List.map_cons, List.sum_cons] at hsum2
    have hle12 : t1.weight ≤ t2.weight := by
      have := count_le_of_comp_false (hmax1 t2 (by simp))
      simp only [PTree.entry_count] at this
      rw [hcw t1 (by simp), hcw t2 (by simp)] at this
      exact this
    have hle2 : ∀ x ∈ ((rest.map PTree.weight : List Int) : Multiset Int), t2.weight ≤ x := by
      intro x hx
      simp only [Multiset.mem_coe] at hx
      obtain ⟨v, hv, rfl⟩ := List.mem_map.1 hx
      have := count_le_of_comp_false (hmax2 v hv)
      simp only [PTree.entry_count] at this
      rw [hcw t2 (by simp), hcw v (by simp [hv])] at this
      exact this
    have hW2 : C.map Prod.fst =
        t1.weight ::ₘ t2.weight ::ₘ ((rest.map PTree.weight : List Int) : Multiset Int) := by
      rw [hW, Multiset.cons_coe, Multiset.cons_coe]
      exact Multiset.coe_eq_coe.2 (hperm.map _)
    obtain ⟨C2, hC2w, hC2f, hC2c⟩ := exchange C _ _ _ hW2 hle12 hle2 hF
    have hNw : (PTree.node (forestPtrs ts).length (wrapInt (t1.count + t2.count)) t1 t2).weight =
        t1.weight + t2.weight := PTree.weight_node _ _ _ _
    have key := ih
      (by
        intro u hu
        rcases List.mem_cons.1 hu with rfl | hu
        · exact ⟨rfl, hS t1 (hmemts t1 (by simp)), hS t2 (hmemts t2 (by simp))⟩
        · exact hS u (hmemts u (by simp [hu])))
      (by
        intro u hu x hx
        rcases List.mem_cons.1 hu with rfl | hu
        · simp only [PTree.leafList, List.mem_append] at hx
          rcases hx with hx | hx
          · exact hnn t1 (hmemts t1 (by simp)) x hx
          · exact hnn t2 (hmemts t2 (by simp)) x hx
        · exact hnn u (hmemts u (by simp [hu])) x hx)
      (by
        simp only [List.map_cons, List.sum_cons, hNw]
        omega)
      C2
      (by
        rw [hC2w]
        simp only [List.map_cons, hNw, Multiset.cons_coe])
      hC2f
    have hcost : (ts.map PTree.cost).sum = t1.cost + t2.cost + (rest.map PTree.cost).sum := by
      rw [(hperm.map PTree.cost).sum_eq]
      simp only [List.map_cons, List.sum_cons]
      ring
    simp only [List.map_cons, List.sum_cons, PTree.cost] at key
    rw [hcost]
    omega

theorem map_weight_leafForest (fs : List Int) (i ptr : Nat) :
    (leafForest fs i ptr).map PTree.weight = (leafTriples fs i ptr).map (fun x => x.2.2) := by
  induction fs generalizing i ptr with
  | nil => rfl
  | cons f fs ih =>
    by_cases hf : f = 0
    · simp [leafForest, leafTriples, hf, ih]
    · simp [leafForest, leafTriples, hf, ih, PTree.weight, PTree.leafList]

theorem sum_cost_leafForest (fs : List Int) (i ptr : Nat) :
    ((leafForest fs i ptr).map PTree.cost).sum = 0 := by
  induction fs generalizing i ptr with
  | nil => rfl
  | cons f fs ih =>
    by_cases hf : f = 0
    · simp [leafForest, hf, ih]
    · simp [leafForest, hf, ih, PTree.cost]

theorem leafForest_leaf_mem (fs : List Int) (i ptr : Nat) :
    ∀ t ∈ leafForest fs i ptr, ∀ x ∈ t.leafList, x.2.2 ∈ fs := by
  induction fs generalizing i ptr with
  | nil => simp [leafForest]
  | cons f fs ih =>
    intro t ht x hx
    by_cases hf : f = 0
    · simp only [leafForest, hf, ne_eq, not_true_eq_false, if_false] at ht
      exact List.mem_cons_of_mem _ (ih _ _ t ht x hx)
    · simp only [leafForest, hf, ne_eq, not_false_eq_true, if_true, List.mem_cons] at ht
      rcases ht with rfl | ht
      · simp only [PTree.leafList, List.mem_singleton] at hx
        subst hx
        simp
      · exact List.mem_cons_of_mem _ (ih _ _ t ht x hx)

/-- The leaves of the table carry the frequencies of their symbols. -/
theorem leafTriples_count (freqs : List Int) (hlen : freqs.length = 256) :
    ∀ x ∈ leafTriples freqs 0 0, x.2.2 = freqs.getD x.2.1 0 := by
  rintro ⟨q, s, c⟩ hx
  obtain ⟨k, hk, h2, -⟩ := (mem_leafTriples freqs 0 0 (by omega) s c).1 ⟨q, hx⟩
  have : s = k := by omega
  subst this
  simp only
  rw [List.getD_eq_getElem?_getD, h2]
  rfl

/-! ## Trees with single-child nodes -/

theorem BinTree.contract_symbols (T : BinTree) : T.contract.symbols = T.symbols := by
  induction T with
  | leaf s => rfl
  | one c ih => simpa [BinTree.contract, BinTree.symbols] using ih
  | node l r ihl ihr => simp [BinTree.contract, BinTree.symbols, CodeTree.symbols, ihl, ihr]

/-- Contracting the single-child nodes does not move any leaf down. -/
theorem BinTree.contract_depthOf (T : BinTree) (s : Nat) :
    (T.depthOf s = none ∧ T.contract.depthOf s = none) ∨
      ∃ d e, T.depthOf s = some d ∧ T.contract.depthOf s = some e ∧ e ≤ d := by
  induction T with
  | leaf s2 =>
    by_cases h : s2 = s
    · right; exact ⟨0, 0, by simp [BinTree.depthOf, h], by simp [BinTree.contract,
        CodeTree.depthOf, h], le_refl _⟩
    · left; exact ⟨by simp [BinTree.depthOf, h], by simp [BinTree.contract,
        CodeTree.depthOf, h]⟩
  | one c ih =>
    rcases ih with ⟨h1, h2⟩ | ⟨d, e, h1, h2, h3⟩
    · left; exact ⟨by simp [BinTree.depthOf, h1], by simpa [BinTree.contract] using h2⟩
    · right
      exact ⟨d + 1, e, by simp [BinTree.depthOf, h1], by simpa [BinTree.contract] using h2,
        by omega⟩
  | node l r ihl ihr =>
    rcases ihl with ⟨h1, h2⟩ | ⟨d, e, h1, h2, h3⟩
    · rcases ihr with ⟨h4, h5⟩ | ⟨d, e, h4, h5, h6⟩
      · left
        exact ⟨by simp [BinTree.depthOf, h1, h4],
          by simp [BinTree.contract, CodeTree.depthOf, h2, h5]⟩
      · right
        exact ⟨d + 1, e + 1, by simp [BinTree.depthOf, h1, h4],
          by simp [BinTree.contract, CodeTree.depthOf, h2, h5], by omega⟩
    · right
      exact ⟨d + 1, e + 1, by simp [BinTree.depthOf, h1],
        by simp [BinTree.contract, CodeTree.depthOf, h2], by omega⟩

theorem getD_nonneg {freqs : List Int} (h : ∀ f ∈ freqs, 0 ≤ f) (s : Nat) :
    0 ≤ freqs.getD s 0 := by
  rw [List.getD_eq_getElem?_getD]
  cases hc : freqs[s]? with
  | none => simp
  | some c => simpa using h c (List.getElem?_mem hc)

/-- For non-negative frequencies, contracting the single-child nodes does not increase the
weighted path length. -/
theorem BinTree.contract_wpl_le (T : BinTree) (freqs : List Int) (h : ∀ f ∈ freqs, 0 ≤ f) :
    T.contract.wpl freqs ≤ T.wpl freqs := by
  unfold CodeTree.wpl BinTree.wpl
  apply List.sum_le_sum
  intro s _
  apply mul_le_mul_of_nonneg_left _ (getD_nonneg h s)
  rcases BinTree.contract_depthOf T s with ⟨h1, h2⟩ | ⟨d, e, h1, h2, h3⟩
  · simp [h1, h2]
  · simp [h1, h2, h3]

/-! ## Small forests -/

theorem leafForest_eq_map (fs : List Int) (i ptr : Nat) :
    leafForest fs i ptr = (leafTriples fs i ptr).map (fun x => PTree.leaf x.1 x.2.2 x.2.1) := by
  induction fs generalizing i ptr with
  | nil => rfl
  | cons f fs ih =>
    by_cases hf : f = 0
    · simp [leafForest, leafTriples, hf, ih]
    · simp [leafForest, leafTriples, hf, ih]

theorem leafTriples_head_ptr (fs : List Int) (i ptr : Nat) (x : Nat × Nat × Int)
    (rest : List (Nat × Nat × Int)) (h : leafTriples fs i ptr = x :: rest) : x.1 = ptr := by
  induction fs generalizing i ptr with
  | nil => simp [leafTriples] at h
  | cons f fs ih =>
    by_cases hf : f = 0
    · simp only [leafTriples, hf, ne_eq, not_true_eq_false, if_false] at h
      exact ih _ _ h
    · simp only [leafTriples, hf, ne_eq, not_false_eq_true, if_true, List.cons.injEq] at h
      rw [← h.1]

theorem Huff.of_singleton {x t : PTree} (h : Huff [x] t) : t = x := by
  cases h with
  | done => rfl
  | step _ t1 t2 rest _ hperm _ _ _ =>
    have := hperm.length_eq
    simp at this

/-- With two trees queued, the one that the comparator ranks above the other is removed
first and becomes the first child. -/
theorem Huff.of_pair {x y t : PTree} (h : Huff [x, y] t)
    (hxy : HCNodePtrComp x.entry y.entry = true) :
    t = PTree.node (forestPtrs [x, y]).length (wrapInt (y.count + x.count)) y x := by
  cases h with
  | step _ t1 t2 rest _ hperm hmax1 _ hrest =>
    have hl := hperm.length_eq
    simp only [List.length_cons, List.length_nil] at hl
    have hr : rest = [] := List.eq_nil_of_length_eq_zero (by omega)
    subst hr
    have h1 := (List.cons_perm_iff_perm_erase.1 hperm)
    obtain ⟨hmem, hp2⟩ := h1
    have hcase : (t1 = x ∧ t2 = y) ∨ (t1 = y ∧ t2 = x) := by
      simp only [List.mem_cons, List.mem_singleton, List.not_mem_nil, or_false] at hmem
      rcases hmem with rfl | rfl
      · left
        simp only [List.erase_cons_head] at hp2
        exact ⟨rfl, (List.singleton_perm.1 hp2.symm |> fun h => by simpa using h)⟩
      · by_cases hxt : t1 = x
        · subst hxt
          left
          simp only [List.erase_cons_head] at hp2
          exact ⟨rfl, (List.singleton_perm.1 hp2.symm |> fun h => by simpa using h)⟩
        · right
          have he : [t1, x].erase x = [t1] := by
            simp [List.erase_cons, hxt]
          rw [he] at hp2
          exact ⟨(List.singleton_perm.1 hp2.symm |> fun h => by simpa using h), rfl⟩
    rcases hcase with ⟨rfl, rfl⟩ | ⟨rfl, rfl⟩
    · have := hmax1 t2 (by simp)
      rw [hxy] at this
      cases this
    · exact hrest.of_singleton

/-- A store that holds a tree of two leaves at addresses 0 and 1 under a root at address 2,
and nothing else. -/
theorem store_of_pair {nodes : List HCNode} {c c0 c1 : Int} {s0 s1 : Nat}
    (h : Repr nodes none (.node 2 c (.leaf 1 c1 s1) (.leaf 0 c0 s0)))
    (hlen : nodes.length = 3) :
    nodes = [⟨c0, s0, none, none, some 2⟩, ⟨c1, s1, none, none, some 2⟩,
      ⟨c, 0, some 1, some 0, none⟩] := by
  simp only [Repr, PTree.ptr_leaf] at h
  obtain ⟨h2, h1, h0⟩ := h
  apply List.ext_getElem?
  intro i
  match i with
  | 0 => simpa using h0
  | 1 => simpa using h1
  | 2 => simpa using h2
  | k + 3 =>
    rw [List.getElem?_eq_none (by omega)]
    simp

set_option maxRecDepth 100000

theorem tableAAB_length : tableAAB.length = 256 := by decide

/-! ## The claims -/

/-- C4: for a table of 256 entries and a symbol `s` with nonzero frequency, `encode` adds to
the sink exactly the bits of the path from the root of the built tree to the leaf of `s`
(0 for a step to `c0`, 1 for a step to `c1`) and nothing else; that path is the only one to
the leaf, and its length is the depth of the leaf. -/
theorem encode_emits_root_to_leaf_path (P : PriorityQueue) (hP : P.Lawful)
    (freqs : List Int) (hlen : freqs.length = 256) (s : Nat) (hs : freqs.getD s 0 ≠ 0)
    (out : List Bool) :
    ∃ t root leaf nd bits, build P freqs = some t ∧ t.root = some root ∧
      encode t s out = some (out ++ bits) ∧
      descend t.nodes bits root = some leaf ∧
      t.nodes[leaf]? = some nd ∧ nd.isLeaf = true ∧ nd.symbol = s ∧
      (∀ bits2, descend t.nodes bits2 root = some leaf → bits2 = bits) ∧
      t.depth s = some bits.length := by
  obtain ⟨t, T, hb, hB⟩ := build_built hP freqs hlen (exists_live_of_getD hs)
  obtain ⟨bits, q, hsub⟩ := hB.exists_path hlen s hs
  obtain ⟨w, hw⟩ := hB.repr.leaf_cell (PTree.mem_leafList_of_sub hsub)
  refine ⟨t, T.ptr, q, _, bits, hb, hB.root, hB.encode_eq hlen hsub out, ?_, hw, rfl, rfl,
    ?_, hB.depth_of_sub hlen hsub⟩
  · rw [descend_repr hB.repr, hsub]; rfl
  · intro bits2 h2
    rw [descend_repr hB.repr] at h2
    cases hv : T.sub bits2 with
    | none => rw [hv] at h2; cases h2
    | some v =>
      rw [hv] at h2
      simp only [Option.map_some', Option.some.injEq] at h2
      exact PTree.sub_unique hB.ptrs_nodup hv hsub (by simpa using h2)

theorem encode_emits_root_to_leaf_path_witness :
    listPQ.Lawful ∧ tableAAB.length = 256 ∧ tableAAB.getD 97 0 ≠ 0 ∧
    ∃ t root leaf nd bits, build listPQ tableAAB = some t ∧ t.root = some root ∧
      encode t 97 [] = some ([] ++ bits) ∧
      descend t.nodes bits root = some leaf ∧
      t.nodes[leaf]? = some nd ∧ nd.isLeaf = true ∧ nd.symbol = 97 ∧
      (∀ bits2, descend t.nodes bits2 root = some leaf → bits2 = bits) ∧
      t.depth 97 = some bits.length :=
  ⟨listPQ_lawful, tableAAB_length, by decide,
    encode_emits_root_to_leaf_path listPQ listPQ_lawful tableAAB tableAAB_length 97
      (by decide) []⟩

/-- C5: in the tree built from a table of 256 entries with a nonzero one, whenever `decode`
returns a symbol `s`, the bits it consumed are a prefix of the input, they are the path from
the root to the leaf of `s` (0 for `c0`, 1 for `c1`), there are depth-of-the-leaf many of
them, and the rest of the input is left in the stream. -/
theorem decode_consumes_one_code (P : PriorityQueue) (hP : P.Lawful)
    (freqs : List Int) (hlen : freqs.length = 256) (hlive : ∃ f ∈ freqs, f ≠ 0) :
    ∃ t root, build P freqs = some t ∧ t.root = some root ∧
      ∀ input s rest, decode t input = some (s, rest) →
        ∃ bits leaf nd, input = bits ++ rest ∧
          descend t.nodes bits root = some leaf ∧
          t.nodes[leaf]? = some nd ∧ nd.isLeaf = true ∧ nd.symbol = s ∧
          t.depth s = some bits.length := by
  obtain ⟨t, T, hb, hB⟩ := build_built hP freqs hlen hlive
  refine ⟨t, T.ptr, hb, hB.root, ?_⟩
  intro input s rest hd
  simp only [decode, hB.root] at hd
  obtain ⟨bits, q, c, hin, hsub⟩ := decodeLoop_inv hB.repr hd
  obtain ⟨w, hw⟩ := hB.repr.leaf_cell (PTree.mem_leafList_of_sub hsub)
  refine ⟨bits, q, _, hin, ?_, hw, rfl, rfl, hB.depth_of_sub hlen hsub⟩
  rw [descend_repr hB.repr, hsub]; rfl

theorem decode_consumes_one_code_witness :
    listPQ.Lawful ∧ tableAAB.length = 256 ∧ (∃ f ∈ tableAAB, f ≠ 0) ∧
    ∃ t root, build listPQ tableAAB = some t ∧ t.root = some root ∧
      ∀ input s rest, decode t input = some (s, rest) →
        ∃ bits leaf nd, input = bits ++ rest ∧
          descend t.nodes bits root = some leaf ∧
          t.nodes[leaf]? = some nd ∧ nd.isLeaf = true ∧ nd.symbol = s ∧
          t.depth s = some bits.length :=
  ⟨listPQ_lawful, tableAAB_length, ⟨2, by decide, by decide⟩,
    decode_consumes_one_code listPQ listPQ_lawful tableAAB tableAAB_length
      ⟨2, by decide, by decide⟩⟩

/-- C2: for a table of 256 entries and two distinct symbols with nonzero frequency, the
bits `encode` emits for the first are not a prefix of the bits it emits for the second. -/
theorem codes_are_prefix_free (P : PriorityQueue) (hP : P.Lawful)
    (freqs : List Int) (hlen : freqs.length = 256) (a b : Nat)
    (ha : freqs.getD a 0 ≠ 0) (hb : freqs.getD b 0 ≠ 0) (hab : a ≠ b) :
    ∃ t ca cb, build P freqs = some t ∧ encode t a [] = some ca ∧ encode t b [] = some cb ∧
      ¬ ca <+: cb := by
  obtain ⟨t, T, hbuild, hB⟩ := build_built hP freqs hlen (exists_live_of_getD ha)
  obtain ⟨pa, qa, hpa⟩ := hB.exists_path hlen a ha
  obtain ⟨pb, qb, hpb⟩ := hB.exists_path hlen b hb
  refine ⟨t, pa, pb, hbuild, by simpa using hB.encode_eq hlen hpa [],
    by simpa using hB.encode_eq hlen hpb [], ?_⟩
  rintro ⟨r, rfl⟩
  rw [PTree.sub_append, hpa] at hpb
  cases r with
  | nil =>
    simp only [Option.some_bind, PTree.sub, Option.some.injEq, PTree.leaf.injEq] at hpb
    exact hab hpb.2.2
  | cons x xs => simp [PTree.sub] at hpb

theorem codes_are_prefix_free_witness :
    listPQ.Lawful ∧ tableAAB.length = 256 ∧ tableAAB.getD 97 0 ≠ 0 ∧
    tableAAB.getD 98 0 ≠ 0 ∧ (97 : Nat) ≠ 98 ∧
    ∃ t ca cb, build listPQ tableAAB = some t ∧ encode t 97 [] = some ca ∧
      encode t 98 [] = some cb ∧ ¬ ca <+: cb :=
  ⟨listPQ_lawful, tableAAB_length, by decide, by decide, by decide,
    codes_are_prefix_free listPQ listPQ_lawful tableAAB tableAAB_length 97 98
      (by decide) (by decide) (by decide)⟩

/-- C1 (amended): for every non-empty sequence of fewer than 2^31 bytes, build the tree from
the table that `compress` counts, encode the bytes in order and append any padding; then
`|seq|` calls of `decode` on that bit stream return the bytes of the sequence in order (and
leave the padding). -/
theorem roundtrip_below_int_max (P : PriorityQueue) (hP : P.Lawful) (seq : List Nat)
    (hne : seq ≠ []) (hbytes : ∀ b ∈ seq, b < 256) (hshort : seq.length < 2147483648)
    (pad : List Bool) :
    ∃ t bits, build P (frequencies seq) = some t ∧ encodeAll t seq [] = some bits ∧
      decodeAll t seq.length (bits ++ pad) = some (seq, pad) := by
  have hlen := length_frequencies seq
  have hfreq : ∀ b ∈ seq, (frequencies seq).getD b 0 ≠ 0 := by
    intro b hb
    rw [getD_frequencies seq hbytes b]
    have h1 : 0 < seq.count b := List.count_pos_iff.2 hb
    have h2 : seq.count b ≤ seq.length := List.count_le_length _ _
    rw [wrapInt_of_isInt32 (by unfold IsInt32; omega)]
    omega
  obtain ⟨b0, hb0⟩ := List.exists_mem_of_ne_nil seq hne
  obtain ⟨t, T, hbuild, hB⟩ := build_built hP _ hlen (exists_live_of_getD (hfreq b0 hb0))
  have hcode : ∀ b, ∃ bits : List Bool, b ∈ seq →
      ∃ q, T.sub bits = some (.leaf q ((frequencies seq).getD b 0) b) := by
    intro b
    by_cases hb : b ∈ seq
    · obtain ⟨bits, q, hq⟩ := hB.exists_path hlen b (hfreq b hb)
      exact ⟨bits, fun _ => ⟨q, hq⟩⟩
    · exact ⟨[], fun h => absurd h hb⟩
  choose code hcode2 using hcode
  obtain ⟨h1, h2⟩ := loops_roundtrip t code seq
    (fun b hb out => by
      obtain ⟨q, hq⟩ := hcode2 b hb
      exact hB.encode_eq hlen hq out)
    (fun b hb rest => by
      obtain ⟨q, hq⟩ := hcode2 b hb
      exact hB.decode_eq hq rest)
  exact ⟨t, _, hbuild, by simpa using h1 [], h2 pad⟩

theorem roundtrip_below_int_max_witness :
    listPQ.Lawful ∧ [97, 97, 98] ≠ ([] : List Nat) ∧ (∀ b ∈ [97, 97, 98], b < 256) ∧
    [97, 97, 98].length < 2147483648 ∧
    ∃ t bits, build listPQ (frequencies [97, 97, 98]) = some t ∧
      encodeAll t [97, 97, 98] [] = some bits ∧
      decodeAll t [97, 97, 98].length (bits ++ [false, false, false, false, false]) =
        some ([97, 97, 98], [false, false, false, false, false]) :=
  ⟨listPQ_lawful, by decide, by decide, by decide,
    roundtrip_below_int_max listPQ listPQ_lawful [97, 97, 98] (by decide) (by decide)
      (by decide) [false, false, false, false, false]⟩

/-- C1, as stated, fails on `seqWrap`: the counter of byte 0 wraps to 0, so `build` makes no
leaf for byte 0 and the first call of `encode` in the encoding loop has no result. -/
theorem roundtrip_fails_when_a_count_wraps :
    seqWrap ≠ [] ∧ (∀ b ∈ seqWrap, b < 256) ∧
    (frequencies seqWrap).getD 0 0 = 0 ∧
    (∃ t, build listPQ (frequencies seqWrap) = some t) ∧
    ∀ t, build listPQ (frequencies seqWrap) = some t → encodeAll t seqWrap [] = none := by
  have hbytes : ∀ b ∈ seqWrap, b < 256 := by
    intro b hb
    unfold seqWrap at hb
    rcases List.mem_append.1 hb with h | h
    · rw [(List.mem_replicate.1 h).2]; decide
    · rw [List.mem_singleton.1 h]; decide
  have h0 : (frequencies seqWrap).getD 0 0 = 0 := by
    rw [getD_frequencies seqWrap hbytes 0]
    unfold seqWrap
    rw [count_replicate_append_singleton]
    decide
  have h1 : (frequencies seqWrap).getD 1 0 ≠ 0 := by
    rw [getD_frequencies seqWrap hbytes 1]
    unfold seqWrap
    rw [count_replicate_append_singleton]
    decide
  obtain ⟨t, T, hbuild, hB⟩ :=
    build_built listPQ_lawful _ (length_frequencies seqWrap) (exists_live_of_getD h1)
  refine ⟨?_, hbytes, h0, ⟨t, hbuild⟩, ?_⟩
  · unfold seqWrap
    exact List.append_ne_nil_of_right_ne_nil _ (by decide)
  · intro t2 ht2
    rw [hbuild] at ht2
    cases ht2
    have hcons : seqWrap = 0 :: (List.replicate 4294967295 0 ++ [1]) := by
      unfold seqWrap
      rw [show (4294967296 : Nat) = 4294967295 + 1 from rfl, List.replicate_succ]
      rfl
    rw [hcons]
    simp only [encodeAll, hB.encode_none (length_frequencies seqWrap) h0]

/-- On a table with exactly two nonzero entries, at symbols `s0` (first leaf, address 0) and
`s1` (second leaf, address 1), where the comparator ranks the first leaf below the second,
every lawful queue makes `build` return the same tree: the second leaf is `c0`. -/
theorem build_of_pair {P : PriorityQueue} (hP : P.Lawful) (freqs : List Int)
    (hlen : freqs.length = 256) (c0 c1 : Int) (s0 s1 : Nat)
    (htr : leafTriples freqs 0 0 = [(0, s0, c0), (1, s1, c1)])
    (hcmp : HCNode.lt ⟨c0, s0, none, none, none⟩ ⟨c1, s1, none, none, none⟩ = true)
    (hlive : liveCount freqs = 2) :
    build P freqs = some
      ⟨[⟨c0, s0, none, none, some 2⟩, ⟨c1, s1, none, none, some 2⟩,
        ⟨wrapInt (c1 + c0), 0, some 1, some 0, none⟩],
        some 2, [some 0, some 1] ++ List.replicate 254 none⟩ := by
  have hpos : ∃ f ∈ freqs, f ≠ 0 := by
    by_contra hc
    push_neg at hc
    have : liveCount freqs = 0 := by
      unfold liveCount
      rw [List.length_eq_zero, List.filter_eq_nil_iff]
      intro f hf
      simp [hc f hf]
    omega
  obtain ⟨t, T, hbuild, hB⟩ := build_built hP freqs hlen hpos
  have hforest : leafForest freqs 0 0 = [.leaf 0 c0 s0, .leaf 1 c1 s1] := by
    rw [leafForest_eq_map, htr]; rfl
  have hT := hB.huff
  rw [hforest] at hT
  have hT2 := hT.of_pair hcmp
  simp only [forestPtrs, List.flatMap_cons, PTree.ptrs, List.flatMap_nil, List.append_nil,
    List.singleton_append, List.length_cons, List.length_nil, PTree.count] at hT2
  subst hT2
  have hl : t.nodes.length = 3 := by rw [hB.length_eq]; rfl
  have hnodes := store_of_pair hB.repr hl
  have hidx := hB.index
  rw [htr, hlive] at hidx
  rw [hbuild]
  cases t with
  | mk nodes root leaves =>
    simp only at hnodes hidx
    have hroot : root = some 2 := hB.root
    rw [hnodes, hidx, hroot]
    rfl

/-- C10: for the table of "aab" (`a`:2, `b`:1), with every lawful queue, the root of the
built tree (address 2) has the leaf of `b` as child `c0` and the leaf of `a` as child `c1`;
`a` is encoded as the bit 1 and `b` as the bit 0; encoding "aab" gives the stream 1,1,0 and
decoding three symbols from it gives "aab" back. -/
theorem scenario_aab (P : PriorityQueue) (hP : P.Lawful) :
    frequencies [97, 97, 98] = tableAAB ∧
    build P tableAAB = some treeAAB ∧
    treeAAB.root = some 2 ∧
    treeAAB.nodes[2]? = some ⟨3, 0, some 1, some 0, none⟩ ∧
    treeAAB.nodes[1]? = some ⟨1, 98, none, none, some 2⟩ ∧
    treeAAB.nodes[0]? = some ⟨2, 97, none, none, some 2⟩ ∧
    encode treeAAB 97 [] = some [true] ∧
    encode treeAAB 98 [] = some [false] ∧
    encodeAll treeAAB [97, 97, 98] [] = some [true, true, false] ∧
    decodeAll treeAAB 3 [true, true, false] = some ([97, 97, 98], []) := by
  refine ⟨by decide, ?_, by decide, by decide, by decide, by decide, by decide, by decide,
    by decide, by decide⟩
  exact build_of_pair hP tableAAB tableAAB_length 2 1 97 98 (by decide) (by decide) (by decide)

theorem scenario_aab_witness :
    listPQ.Lawful ∧
    (frequencies [97, 97, 98] = tableAAB ∧
    build listPQ tableAAB = some treeAAB ∧
    treeAAB.root = some 2 ∧
    treeAAB.nodes[2]? = some ⟨3, 0, some 1, some 0, none⟩ ∧
    treeAAB.nodes[1]? = some ⟨1, 98, none, none, some 2⟩ ∧
    treeAAB.nodes[0]? = some ⟨2, 97, none, none, some 2⟩ ∧
    encode treeAAB 97 [] = some [true] ∧
    encode treeAAB 98 [] = some [false] ∧
    encodeAll treeAAB [97, 97, 98] [] = some [true, true, false] ∧
    decodeAll treeAAB 3 [true, true, false] = some ([97, 97, 98], [])) :=
  ⟨listPQ_lawful, scenario_aab listPQ listPQ_lawful⟩

/-- C8 (what the code does): on the table whose only nonzero entries are `a` = 97 and
`b` = 98 with frequency 1 each, `operator<` ranks the leaf of `a` below the leaf of `b`, and
with every lawful queue the first node removed by the merge step is the leaf of `b` (the
symbol with the larger value), which becomes child `c0` of the root; `a` becomes `c1`. -/
theorem tie_break_removes_larger_symbol_first (P : PriorityQueue) (hP : P.Lawful) :
    HCNode.lt ⟨1, 97, none, none, none⟩ ⟨1, 98, none, none, none⟩ = true ∧
    build P tableTie = some treeTie ∧
    treeTie.root = some 2 ∧
    treeTie.nodes[2]? = some ⟨2, 0, some 1, some 0, none⟩ ∧
    treeTie.nodes[1]? = some ⟨1, 98, none, none, some 2⟩ ∧
    treeTie.nodes[0]? = some ⟨1, 97, none, none, some 2⟩ := by
  refine ⟨by decide, ?_, by decide, by decide, by decide, by decide⟩
  exact build_of_pair hP tableTie (by decide) 1 1 97 98 (by decide) (by decide) (by decide)

theorem tie_break_removes_larger_symbol_first_witness :
    listPQ.Lawful ∧
    (HCNode.lt ⟨1, 97, none, none, none⟩ ⟨1, 98, none, none, none⟩ = true ∧
    build listPQ tableTie = some treeTie ∧
    treeTie.root = some 2 ∧
    treeTie.nodes[2]? = some ⟨2, 0, some 1, some 0, none⟩ ∧
    treeTie.nodes[1]? = some ⟨1, 98, none, none, some 2⟩ ∧
    treeTie.nodes[0]? = some ⟨1, 97, none, none, some 2⟩) :=
  ⟨listPQ_lawful, tie_break_removes_larger_symbol_first listPQ listPQ_lawful⟩

theorem decodeAll_of_decode (t : HCTree) (s : Nat)
    (h : ∀ input, decode t input = some (s, input)) (n : Nat) (input : List Bool) :
    decodeAll t n input = some (List.replicate n s, input) := by
  induction n with
  | zero => rfl
  | succ n ih => simp [decodeAll, h, ih, List.replicate_succ]

/-- C9: for a table of 256 entries whose only nonzero entry is at symbol `s`, `build`
returns a tree whose store is the single leaf of `s`, which is the root; `encode` of `s`
succeeds and writes no bit; `decode` returns `s` and consumes no bit; and `n` calls of
`decode` return `n` copies of `s`. -/
theorem single_symbol_table (P : PriorityQueue) (hP : P.Lawful) (freqs : List Int)
    (hlen : freqs.length = 256) (s : Nat) (hs : freqs.getD s 0 ≠ 0)
    (hone : ∀ u, u ≠ s → freqs.getD u 0 = 0) :
    ∃ t, build P freqs = some t ∧ t.root = some 0 ∧
      t.nodes = [⟨freqs.getD s 0, s, none, none, none⟩] ∧
      (∀ out, encode t s out = some out) ∧
      (∀ input, decode t input = some (s, input)) ∧
      ∀ n input, decodeAll t n input = some (List.replicate n s, input) := by
  obtain ⟨t, T, hbuild, hB⟩ := build_built hP freqs hlen (exists_live_of_getD hs)
  -- the table has one leaf
  have hall : ∀ x ∈ leafTriples freqs 0 0, x.2.1 = s ∧ x.2.2 = freqs.getD s 0 := by
    rintro ⟨q, u, c⟩ hx
    obtain ⟨k, hk, h2, h3⟩ := (mem_leafTriples freqs 0 0 (by omega) u c).1 ⟨q, hx⟩
    have hku : u = k := by omega
    subst hku
    have hget : freqs.getD u 0 = c := by rw [List.getD_eq_getElem?_getD, h2]; rfl
    have hus : u = s := by
      by_contra hne
      rw [hone u hne] at hget
      exact h3 hget.symm
    subst hus
    exact ⟨rfl, hget.symm⟩
  have hnd := leafTriples_nodup freqs 0 0 (by omega)
  obtain ⟨bits, q, hq⟩ := hB.exists_path hlen s hs
  have hmem : (q, s, freqs.getD s 0) ∈ leafTriples freqs 0 0 :=
    hB.leaves.subset (PTree.mem_leafList_of_sub hq)
  have htr : leafTriples freqs 0 0 = [(0, s, freqs.getD s 0)] := by
    cases hL : leafTriples freqs 0 0 with
    | nil => rw [hL] at hmem; cases hmem
    | cons x rest =>
      have hx0 : x.1 = 0 := leafTriples_head_ptr freqs 0 0 x rest hL
      rw [hL] at hall hnd
      have hx := hall x (List.mem_cons_self _ _)
      cases rest with
      | nil =>
        obtain ⟨a, b, c⟩ := x
        simp only at hx0 hx
        rw [hx0, hx.1, hx.2]
      | cons y rest2 =>
        exfalso
        have hy := hall y (by simp)
        simp only [List.map_cons, List.nodup_cons, List.mem_cons, not_or] at hnd
        exact hnd.1.1 (by rw [hx.1, hy.1])
  have hforest : leafForest freqs 0 0 = [.leaf 0 (freqs.getD s 0) s] := by
    rw [leafForest_eq_map, htr]; rfl
  have hT := hB.huff
  rw [hforest] at hT
  have hT2 := hT.of_singleton
  subst hT2
  have hsub : (PTree.leaf 0 (freqs.getD s 0) s).sub [] = some (.leaf 0 (freqs.getD s 0) s) := rfl
  have hdec : ∀ input, decode t input = some (s, input) := fun input => by
    simpa using hB.decode_eq hsub input
  refine ⟨t, hbuild, hB.root, ?_, ?_, hdec, decodeAll_of_decode t s hdec⟩
  · have hl : t.nodes.length = 1 := by rw [hB.length_eq]; rfl
    have hr := hB.repr
    simp only [Repr] at hr
    apply List.ext_getElem?
    intro i
    match i with
    | 0 => simpa using hr
    | k + 1 =>
      rw [List.getElem?_eq_none (by omega)]
      simp
  · intro out
    simpa using hB.encode_eq hlen hsub out

theorem single_symbol_table_witness :
    listPQ.Lawful ∧ tableA.length = 256 ∧ tableA.getD 97 0 ≠ 0 ∧
    (∀ u, u ≠ 97 → tableA.getD u 0 = 0) ∧
    ∃ t, build listPQ tableA = some t ∧ t.root = some 0 ∧
      t.nodes = [⟨tableA.getD 97 0, 97, none, none, none⟩] ∧
      (∀ out, encode t 97 out = some out) ∧
      (∀ input, decode t input = some (97, input)) ∧
      ∀ n input, decodeAll t n input = some (List.replicate n 97, input) :=
  have hone : ∀ u, u ≠ 97 → tableA.getD u 0 = 0 := by
    intro u hu
    by_cases h : u < 256
    · revert hu
      revert u
      decide
    · rw [List.getD_eq_getElem?_getD, List.getElem?_eq_none (by
        have : tableA.length = 256 := by decide
        omega)]
      rfl
  ⟨listPQ_lawful, by decide, by decide, hone,
    single_symbol_table listPQ listPQ_lawful tableA (by decide) 97 (by decide) hone⟩

/-- C7: for a table of 256 entries with a nonzero one, the symbols carried by the leaves of
the built tree are, up to order, the symbols with a nonzero frequency, each once; and the
filled slots of the leaf index point to childless nodes that carry exactly these symbols,
each once (in increasing order). -/
theorem leaves_are_the_live_symbols (P : PriorityQueue) (hP : P.Lawful) (freqs : List Int)
    (hlen : freqs.length = 256) (hlive : ∃ f ∈ freqs, f ≠ 0) :
    ∃ t, build P freqs = some t ∧
      t.leafSymbols.Perm (liveSymbols freqs) ∧
      t.indexSymbols = liveSymbols freqs ∧
      (∀ q, some q ∈ t.leaves → ∃ nd, t.nodes[q]? = some nd ∧ nd.isLeaf = true) ∧
      (liveSymbols freqs).Nodup ∧
      ∀ s, s ∈ liveSymbols freqs ↔ s < 256 ∧ freqs.getD s 0 ≠ 0 := by
  obtain ⟨t, T, hbuild, hB⟩ := build_built hP freqs hlen hlive
  have hcells : ∀ x ∈ leafTriples freqs 0 0,
      ∃ nd, t.nodes[x.1]? = some nd ∧ nd.symbol = x.2.1 := by
    rintro ⟨q2, s2, c2⟩ hx
    obtain ⟨w, hw⟩ := hB.repr.leaf_cell (hB.leaves.symm.subset hx)
    exact ⟨_, hw, rfl⟩
  have hslots : ∀ q, some q ∈ t.leaves → ∃ nd, t.nodes[q]? = some nd ∧ nd.isLeaf = true := by
    intro q hq
    rw [hB.index] at hq
    rcases List.mem_append.1 hq with h | h
    · obtain ⟨⟨q2, s2, c2⟩, hx, hx2⟩ := List.mem_map.1 h
      simp only [Option.some.injEq] at hx2
      subst hx2
      obtain ⟨w, hw⟩ := hB.repr.leaf_cell (hB.leaves.symm.subset hx)
      exact ⟨_, hw, rfl⟩
    · cases (List.mem_replicate.1 h).2
  refine ⟨t, hbuild, ?_, ?_, hslots, (List.nodup_range 256).filter _, ?_⟩
  · simp only [HCTree.leafSymbols, hB.root]
    rw [leafSymbols_repr hB.repr _ (by rw [hB.length_eq]; exact T.height_lt),
      ← map_sym_leafTriples freqs hlen]
    exact hB.leaves.map _
  · simp only [HCTree.indexSymbols]
    rw [hB.index, filterMap_index t.nodes _ _ hcells, map_sym_leafTriples freqs hlen]
  · intro s
    simp [liveSymbols, List.mem_filter]

theorem leaves_are_the_live_symbols_witness :
    listPQ.Lawful ∧ tableAAB.length = 256 ∧ (∃ f ∈ tableAAB, f ≠ 0) ∧
    ∃ t, build listPQ tableAAB = some t ∧
      t.leafSymbols.Perm (liveSymbols tableAAB) ∧
      t.indexSymbols = liveSymbols tableAAB ∧
      (∀ q, some q ∈ t.leaves → ∃ nd, t.nodes[q]? = some nd ∧ nd.isLeaf = true) ∧
      (liveSymbols tableAAB).Nodup ∧
      ∀ s, s ∈ liveSymbols tableAAB ↔ s < 256 ∧ tableAAB.getD s 0 ≠ 0 :=
  ⟨listPQ_lawful, tableAAB_length, ⟨2, by decide, by decide⟩,
    leaves_are_the_live_symbols listPQ listPQ_lawful tableAAB tableAAB_length
      ⟨2, by decide, by decide⟩⟩

/-- C6 (amended): in the tree built from a table of 256 entries with a nonzero one, every
cell of the store is a node of the tree, and it either has no children and the frequency of
its symbol as count, or has both children and, as count, the 32-bit sum of the counts of the
two children, which is their exact sum when the entries of the table are non-negative and
add up to less than 2^31.  No node has exactly one child. -/
theorem node_structure (P : PriorityQueue) (hP : P.Lawful) (freqs : List Int)
    (hlen : freqs.length = 256) (hlive : ∃ f ∈ freqs, f ≠ 0) :
    ∃ t r, build P freqs = some t ∧ t.root = some r ∧
      ∀ q nd, t.nodes[q]? = some nd →
        (∃ bits, descend t.nodes bits r = some q) ∧
        ((nd.c0 = none ∧ nd.c1 = none ∧ nd.count = freqs.getD nd.symbol 0) ∨
          ∃ a b na nb, nd.c0 = some a ∧ nd.c1 = some b ∧
            t.nodes[a]? = some na ∧ t.nodes[b]? = some nb ∧
            nd.count = wrapInt (na.count + nb.count) ∧
            (NoOverflow freqs → nd.count = na.count + nb.count)) := by
  obtain ⟨t, T, hbuild, hB⟩ := build_built hP freqs hlen hlive
  refine ⟨t, T.ptr, hbuild, hB.root, ?_⟩
  intro q nd hq
  have hlt : q < t.nodes.length := by
    by_contra hc
    rw [List.getElem?_eq_none (by omega)] at hq
    cases hq
  have hmem : q ∈ T.ptrs := hB.ptrs.symm.subset (List.mem_range.2 hlt)
  obtain ⟨bits, u, hsub, hu⟩ := PTree.exists_sub_of_mem_ptrs hmem
  obtain ⟨w, hw⟩ := hB.repr.of_sub hsub
  have hcell := hw.root_cell
  rw [hu, hq] at hcell
  simp only [Option.some.injEq] at hcell
  subst hcell
  refine ⟨⟨bits, by rw [descend_repr hB.repr, hsub]; simp [hu]⟩, ?_⟩
  cases u with
  | leaf ptr c s =>
    left
    simp only [PTree.ptr_leaf] at hu
    subst hu
    have h1 := (hB.mem_leafList hlen s c).1 ⟨_, PTree.mem_leafList_of_sub hsub⟩
    refine ⟨rfl, rfl, ?_⟩
    simp only [PTree.cell]
    rw [List.getD_eq_getElem?_getD, h1.1]
    rfl
  | node ptr c l r =>
    right
    simp only [Repr] at hw
    have hS := hB.tree_summed.subtree hsub
    simp only [PTree.Summed] at hS
    refine ⟨l.ptr, r.ptr, _, _, rfl, rfl, hw.2.1.root_cell, hw.2.2.root_cell, ?_, ?_⟩
    · simp only [PTree.cell_count]
      exact hS.1
    · rintro ⟨hnn, hsum⟩
      have hleaf := hB.leaf_nonneg hnn
      obtain ⟨hun, huw⟩ := PTree.sub_weight hsub hleaf
      rw [hB.weight_eq, PTree.weight_node] at huw
      have hl : ∀ x ∈ l.leafList, 0 ≤ x.2.2 := fun x hx => hun x (by simp [PTree.leafList, hx])
      have hr : ∀ x ∈ r.leafList, 0 ≤ x.2.2 := fun x hx => hun x (by simp [PTree.leafList, hx])
      have h0l := PTree.weight_nonneg hl
      have h0r := PTree.weight_nonneg hr
      have e1 := PTree.count_eq_weight hS.2.1 hl (by omega)
      have e2 := PTree.count_eq_weight hS.2.2 hr (by omega)
      simp only [PTree.cell_count]
      show c = l.count + r.count
      rw [hS.1]
      apply wrapInt_of_isInt32
      rw [e1, e2]
      exact ⟨by omega, by omega⟩

theorem node_structure_witness :
    listPQ.Lawful ∧ tableAAB.length = 256 ∧ (∃ f ∈ tableAAB, f ≠ 0) ∧
    ∃ t r, build listPQ tableAAB = some t ∧ t.root = some r ∧
      ∀ q nd, t.nodes[q]? = some nd →
        (∃ bits, descend t.nodes bits r = some q) ∧
        ((nd.c0 = none ∧ nd.c1 = none ∧ nd.count = tableAAB.getD nd.symbol 0) ∨
          ∃ a b na nb, nd.c0 = some a ∧ nd.c1 = some b ∧
            t.nodes[a]? = some na ∧ t.nodes[b]? = some nb ∧
            nd.count = wrapInt (na.count + nb.count) ∧
            (NoOverflow tableAAB → nd.count = na.count + nb.count)) :=
  ⟨listPQ_lawful, tableAAB_length, ⟨2, by decide, by decide⟩,
    node_structure listPQ listPQ_lawful tableAAB tableAAB_length ⟨2, by decide, by decide⟩⟩

/-- C6, as stated, fails on `tableOver2` (two entries of 2^30): the root cell has two
children of count 2^30 each, and its own count is -2^31, not their sum 2^31. -/
theorem root_count_is_not_the_sum :
    tableOver2.length = 256 ∧ (∀ f ∈ tableOver2, 0 ≤ f ∧ f < 2147483648) ∧
    (build listPQ tableOver2).map (fun t => (t.root, t.nodes)) =
      some (some 2,
        [⟨1073741824, 0, none, none, some 2⟩, ⟨1073741824, 1, none, none, some 2⟩,
          ⟨-2147483648, 0, some 1, some 0, none⟩]) ∧
    (-2147483648 : Int) ≠ 1073741824 + 1073741824 := by
  refine ⟨by decide, by decide, by decide, by decide⟩

theorem tableAAB_noOverflow : NoOverflow tableAAB := by
  constructor
  · decide
  · decide

/-- C3 (amended): for a table of 256 non-negative entries with a nonzero one whose sum is
below 2^31, the built tree minimises the weighted path length: for every binary tree (inner
nodes with one or two children) whose leaves are exactly the symbols with a nonzero
frequency, each once, the sum over the symbols of frequency times depth is at least the sum
for the built tree. -/
theorem build_minimises_weighted_path_length (P : PriorityQueue) (hP : P.Lawful)
    (freqs : List Int) (hlen : freqs.length = 256) (hlive : ∃ f ∈ freqs, f ≠ 0)
    (hno : NoOverflow freqs) (T3 : BinTree) (hT3 : T3.symbols.Perm (liveSymbols freqs)) :
    ∃ t, build P freqs = some t ∧ t.wpl freqs ≤ T3.wpl freqs := by
  obtain ⟨t, T, hbuild, hB⟩ := build_built hP freqs hlen hlive
  refine ⟨t, hbuild, le_trans ?_ (BinTree.contract_wpl_le T3 freqs hno.1)⟩
  have hT2 : T3.contract.symbols.Perm (liveSymbols freqs) := by
    rw [BinTree.contract_symbols]; exact hT3
  generalize T3.contract = T2 at hT2 ⊢
  -- the weighted path length of the built tree
  have hleaf : ∀ x ∈ T.leafList, x.2.2 = freqs.getD x.2.1 0 := fun x hx =>
    leafTriples_count freqs hlen x (hB.leaves.subset hx)
  have hsym : T.shape.symbols.Perm (liveSymbols freqs) := by
    rw [PTree.shape_symbols, ← map_sym_leafTriples freqs hlen]
    exact hB.leaves.map _
  have h1 : t.wpl freqs = T.cost := by
    have e : t.wpl freqs = T.shape.wpl freqs := by
      unfold HCTree.wpl CodeTree.wpl
      congr 1
      apply List.map_congr_left
      intro s _
      rw [hB.depth_eq, PTree.shape_depthOf]
    rw [e, CodeTree.wpl_eq_cost _ _ hsym]
    exact (PTree.shape_weight_cost _ T hleaf).2
  -- the other tree as an assignment of depths to weights
  have h2 : T2.wpl freqs = pairCost
      (((T2.symDepths 0).map (fun p => (freqs.getD p.1 0, p.2)) : List (Int × Nat)) :
        Multiset (Int × Nat)) := by
    rw [CodeTree.wpl_eq_cost _ _ hT2]
    have := CodeTree.sum_symDepths (fun s => freqs.getD s 0) T2 0
    simp only [Nat.cast_zero, zero_mul, add_zero] at this
    rw [← this]
    simp only [pairCost, Multiset.map_coe, Multiset.sum_coe, List.map_map]
    rfl
  have hW : Multiset.map Prod.fst
      (((T2.symDepths 0).map (fun p => (freqs.getD p.1 0, p.2)) : List (Int × Nat)) :
        Multiset (Int × Nat)) =
      (((leafForest freqs 0 0).map PTree.weight : List Int) : Multiset Int) := by
    rw [map_weight_leafForest]
    simp only [Multiset.map_coe, List.map_map]
    apply Multiset.coe_eq_coe.2
    have e1 : (T2.symDepths 0).map (Prod.fst ∘ fun p => (freqs.getD p.1 0, p.2)) =
        T2.symbols.map (fun s => freqs.getD s 0) := by
      rw [← CodeTree.map_fst_symDepths T2 0, List.map_map]
      rfl
    have e2 : (leafTriples freqs 0 0).map (fun x => x.2.2) =
        (liveSymbols freqs).map (fun s => freqs.getD s 0) := by
      rw [← map_sym_leafTriples freqs hlen, List.map_map]
      apply List.map_congr_left
      intro x hx
      exact leafTriples_count freqs hlen x hx
    rw [e1, e2]
    exact hT2.map _
  have hF : Full (Multiset.map Prod.snd
      (((T2.symDepths 0).map (fun p => (freqs.getD p.1 0, p.2)) : List (Int × Nat)) :
        Multiset (Int × Nat))) := by
    have := CodeTree.full_depths T2 0 0 (by simpa using Full.one)
    simpa [List.map_map, Function.comp] using this
  have key := hB.huff.cost_le (leafForest_summed freqs 0 0)
    (fun u hu x hx => hno.1 _ (leafForest_leaf_mem freqs 0 0 u hu x hx))
    (by rw [map_weight_leafForest, sum_leafTriples]; exact hno.2)
    _ hW hF
  rw [sum_cost_leafForest, zero_add] at key
  rw [h1, h2]
  exact key

theorem build_minimises_weighted_path_length_witness :
    listPQ.Lawful ∧ tableAAB.length = 256 ∧ (∃ f ∈ tableAAB, f ≠ 0) ∧ NoOverflow tableAAB ∧
    (BinTree.node (.leaf 97) (.leaf 98)).symbols.Perm (liveSymbols tableAAB) ∧
    ∃ t, build listPQ tableAAB = some t ∧
      t.wpl tableAAB ≤ (BinTree.node (.leaf 97) (.leaf 98)).wpl tableAAB :=
  ⟨listPQ_lawful, tableAAB_length, ⟨2, by decide, by decide⟩, tableAAB_noOverflow, by decide,
    build_minimises_weighted_path_length listPQ listPQ_lawful tableAAB tableAAB_length
      ⟨2, by decide, by decide⟩ tableAAB_noOverflow (.node (.leaf 97) (.leaf 98)) (by decide)⟩

/-- C3, as stated, fails on `tableOver4` (four entries of 2^30): the first merge overflows,
the built tree gives the four symbols the depths 1, 2, 3, 3, and its weighted path length
9 * 2^30 exceeds the 8 * 2^30 of the balanced tree over the same four symbols. -/
theorem built_tree_not_optimal_after_overflow :
    tableOver4.length = 256 ∧ (∀ f ∈ tableOver4, 0 ≤ f ∧ f < 2147483648) ∧
    balanced4.symbols.Perm (liveSymbols tableOver4) ∧
    (build listPQ tableOver4).map (fun t => t.wpl tableOver4) = some 9663676416 ∧
    balanced4.wpl tableOver4 = 8589934592 ∧
    ¬ ∃ t, build listPQ tableOver4 = some t ∧ t.wpl tableOver4 ≤ balanced4.wpl tableOver4 := by
  have h1 : (build listPQ tableOver4).map (fun t => t.wpl tableOver4) = some 9663676416 := by
    decide
  have h2 : balanced4.wpl tableOver4 = 8589934592 := by decide
  refine ⟨by decide, by decide, by decide, h1, h2, ?_⟩
  rintro ⟨t, ht, hle⟩
  rw [ht] at h1
  simp only [Option.map_some', Option.some.injEq] at h1
  rw [h1, h2] at hle
  omega

/-- C14 (amended): `HCNode::operator<` is a strict weak order: it is irreflexive, asymmetric
and transitive, and being unordered is transitive.  Of two nodes that differ in count or in
symbol exactly one is below the other; two nodes with the same count and the same symbol
(two inner nodes of equal count, or an inner node and the leaf of the byte 0 of equal
count) are unordered. -/
theorem operator_lt_strict_weak_order :
    (∀ a : HCNode, a.lt a = false) ∧
    (∀ a b : HCNode, a.lt b = true → b.lt a = false) ∧
    (∀ a b c : HCNode, a.lt b = true → b.lt c = true → a.lt c = true) ∧
    (∀ a b c : HCNode, a.lt b = false → b.lt a = false → b.lt c = false → c.lt b = false →
      a.lt c = false ∧ c.lt a = false) ∧
    (∀ a b : HCNode, a.count ≠ b.count ∨ a.symbol ≠ b.symbol →
      (a.lt b = true ∧ b.lt a = false) ∨ (a.lt b = false ∧ b.lt a = true)) ∧
    (∀ a b : HCNode, (a.lt b = false ∧ b.lt a = false) ↔
      (a.count = b.count ∧ a.symbol = b.symbol)) := by
  refine ⟨HCNode.lt_irrefl, fun a b h => HCNode.lt_asymm h, ?_, ?_, ?_, ?_⟩
  · intro a b c hab hbc
    rw [HCNode.lt_iff] at hab hbc ⊢
    omega
  · intro a b c h1 h2 h3 h4
    exact ⟨HCNode.lt_negtrans h1 h3, HCNode.lt_negtrans h4 h2⟩
  · intro a b h
    by_cases hab : a.lt b = true
    · exact Or.inl ⟨hab, HCNode.lt_asymm hab⟩
    · have hab2 : a.lt b = false := by simpa using hab
      refine Or.inr ⟨hab2, ?_⟩
      rw [HCNode.lt_false_iff] at hab2
      rw [HCNode.lt_iff]
      omega
  · intro a b
    rw [HCNode.lt_false_iff, HCNode.lt_false_iff]
    constructor
    · intro h; omega
    · intro h; omega

theorem operator_lt_strict_weak_order_witness :
    HCNode.lt ⟨1, 97, none, none, none⟩ ⟨1, 98, none, none, none⟩ = true ∧
    HCNode.lt ⟨1, 98, none, none, none⟩ ⟨1, 97, none, none, none⟩ = false :=
  ⟨by decide,
    operator_lt_strict_weak_order.2.1 ⟨1, 97, none, none, none⟩ ⟨1, 98, none, none, none⟩
      (by decide)⟩

/-- C14, as stated, fails on `tableZeroTie` (byte 0 twice, bytes 1 and 2 once): after the
first round of the merge loop the queue holds the new inner node and the leaf of byte 0,
both with count 2 and symbol 0; neither is below the other, and the next round merges the
two. -/
theorem build_merges_two_unordered_nodes :
    tableZeroTie.length = 256 ∧
    (mergeStep listPQ (buildLeaves listPQ tableZeroTie 0
      (⟨[], HCTree.init.leaves, 0, listPQ.empty⟩ : BuildState listPQ))).map
        (fun st => (listPQ.content st.pq).map (fun e => (e.ptr, e.node))) =
      some [(3, ⟨2, 0, some 2, some 1, none⟩), (0, ⟨2, 0, none, none, none⟩)] ∧
    HCNode.lt ⟨2, 0, some 2, some 1, none⟩ ⟨2, 0, none, none, none⟩ = false ∧
    HCNode.lt ⟨2, 0, none, none, none⟩ ⟨2, 0, some 2, some 1, none⟩ = false ∧
    (build listPQ tableZeroTie).map (fun t => (t.root, t.nodes[4]?)) =
      some (some 4, some ⟨4, 0, some 3, some 0, none⟩) := by
  refine ⟨by decide, by decide, by decide, by decide, by decide⟩

/-- C16: in the tree built from a 256-entry table with a nonzero entry, every node with a
child carries the sentinel symbol 0, and no node `L` of the same count is below it in
`HCNode::operator<`: the ordering never places the inner node ahead of a leaf of equal
count. -/
theorem leaf_not_below_inner_node_on_tie (P : PriorityQueue) (hP : P.Lawful)
    (freqs : List Int) (hlen : freqs.length = 256) (hlive : ∃ f ∈ freqs, f ≠ 0) :
    ∃ t, build P freqs = some t ∧ ∀ I ∈ t.nodes, (I.c0 ≠ none ∨ I.c1 ≠ none) →
      I.symbol = 0 ∧ ∀ L : HCNode, L.count = I.count →
        L.lt I = false ∧ ∀ pL pI : Nat, HCNodePtrComp ⟨pL, L⟩ ⟨pI, I⟩ = false := by
  obtain ⟨t, T, hb, hB⟩ := build_built hP freqs hlen hlive
  refine ⟨t, hb, ?_⟩
  intro I hI hchild
  obtain ⟨q, hq, hqe⟩ := List.getElem_of_mem hI
  have hqm : q ∈ T.ptrs := hB.ptrs.symm.subset (List.mem_range.2 hq)
  obtain ⟨bits, u, hsub, hptr⟩ := PTree.exists_sub_of_mem_ptrs hqm
  obtain ⟨w, hw⟩ := hB.repr.of_sub hsub
  have hcell := hw.root_cell
  rw [hptr, List.getElem?_eq_getElem hq, hqe] at hcell
  have hsym : I.symbol = 0 := by
    cases u with
    | leaf q2 c s =>
      simp only [PTree.cell, Option.some.injEq] at hcell
      rw [hcell] at hchild
      simp at hchild
    | node q2 c l r =>
      simp only [PTree.cell, Option.some.injEq] at hcell
      rw [hcell]
  refine ⟨hsym, fun L hc => ?_⟩
  have hlt : L.lt I = false := by
    rw [HCNode.lt_false_iff]
    omega
  exact ⟨hlt, fun _ _ => hlt⟩

theorem leaf_not_below_inner_node_on_tie_witness :
    listPQ.Lawful ∧ tableAAB.length = 256 ∧ (∃ f ∈ tableAAB, f ≠ 0) ∧
    ∃ t, build listPQ tableAAB = some t ∧ ∀ I ∈ t.nodes, (I.c0 ≠ none ∨ I.c1 ≠ none) →
      I.symbol = 0 ∧ ∀ L : HCNode, L.count = I.count →
        L.lt I = false ∧ ∀ pL pI : Nat, HCNodePtrComp ⟨pL, L⟩ ⟨pI, I⟩ = false :=
  ⟨listPQ_lawful, tableAAB_length, ⟨2, by decide, by decide⟩,
    leaf_not_below_inner_node_on_tie listPQ listPQ_lawful tableAAB tableAAB_length
      ⟨2, by decide, by decide⟩⟩

/-- On a table of zeros the first loop of `build` does nothing. -/
theorem buildLeaves_of_all_zero (P : PriorityQueue) :
    ∀ (fs : List Int) (i : Nat) (st : BuildState P), (∀ f ∈ fs, f = 0) →
      buildLeaves P fs i st = st := by
  intro fs
  induction fs with
  | nil => intro i st _; rfl
  | cons f fs ih =>
    intro i st h
    have hf : f = 0 := h f (List.mem_cons_self _ _)
    subst hf
    simp only [buildLeaves, ne_eq, not_true_eq_false, if_false]
    exact ih _ _ (fun g hg => h g (List.mem_cons_of_mem _ hg))

/-- C13: `build` returns a tree with a root exactly when some entry of the 256-entry table
is nonzero.  On the table of zeros the leaf loop leaves the queue empty, the merge loop does
not run, the queue has no top when the root is taken, and `build` has no result. -/
theorem build_succeeds_iff_some_count_nonzero (P : PriorityQueue) (hP : P.Lawful)
    (freqs : List Int) (hlen : freqs.length = 256) :
    ((∃ t r, build P freqs = some t ∧ t.root = some r) ↔ ∃ f ∈ freqs, f ≠ 0) ∧
    ((∀ f ∈ freqs, f = 0) →
      let st1 := buildLeaves P freqs 0 (⟨[], HCTree.init.leaves, 0, P.empty⟩ : BuildState P)
      P.content st1.pq = [] ∧ mergeLoop P (P.size st1.pq) st1 = some st1 ∧
        P.top st1.pq = none ∧ build P freqs = none) := by
  have hzero : (∀ f ∈ freqs, f = 0) →
      let st1 := buildLeaves P freqs 0 (⟨[], HCTree.init.leaves, 0, P.empty⟩ : BuildState P)
      P.content st1.pq = [] ∧ mergeLoop P (P.size st1.pq) st1 = some st1 ∧
        P.top st1.pq = none ∧ build P freqs = none := by
    intro hz
    have hst := buildLeaves_of_all_zero P freqs 0
      (⟨[], HCTree.init.leaves, 0, P.empty⟩ : BuildState P) hz
    have hsize : P.size P.empty = 0 := by rw [hP.size_eq, hP.content_empty]; rfl
    have htop : P.top P.empty = none := hP.top_empty _ hP.content_empty
    simp only [build, hst, hsize, mergeLoop, htop, hP.content_empty]
    simp [htop]
  refine ⟨⟨?_, ?_⟩, hzero⟩
  · rintro ⟨t, r, hb, -⟩
    by_contra hno
    have hz : ∀ f ∈ freqs, f = 0 := by
      intro f hf
      by_contra hne
      exact hno ⟨f, hf, hne⟩
    rw [(hzero hz).2.2.2] at hb
    cases hb
  · intro hlive
    obtain ⟨t, T, hb, hB⟩ := build_built hP freqs hlen hlive
    exact ⟨t, T.ptr, hb, hB.root⟩

theorem build_succeeds_iff_some_count_nonzero_witness :
    listPQ.Lawful ∧ tableAAB.length = 256 ∧
    ((∃ t r, build listPQ tableAAB = some t ∧ t.root = some r) ↔ ∃ f ∈ tableAAB, f ≠ 0) ∧
    build listPQ (List.replicate 256 0) = none :=
  ⟨listPQ_lawful, tableAAB_length,
    (build_succeeds_iff_some_count_nonzero listPQ listPQ_lawful tableAAB tableAAB_length).1,
    ((build_succeeds_iff_some_count_nonzero listPQ listPQ_lawful (List.replicate 256 0)
      (List.length_replicate _ _)).2 (fun _ hf => (List.mem_replicate.1 hf).2)).2.2.2⟩

/-- A successful leaf search stops at the first slot whose node carries the symbol, after
filled slots with other symbols only. -/
theorem findLeaf_some_scan (nodes : List HCNode) (s : Nat) :
    ∀ (slots : List (Option Nat)) (q : Nat), findLeaf nodes s slots = some q →
      ∃ k : Nat, slots[k]? = some (some q) ∧ (∃ nd, nodes[q]? = some nd ∧ nd.symbol = s) ∧
        ∀ j, j < k → ∃ (q2 : Nat) (nd2 : HCNode), slots[j]? = some (some q2) ∧ nodes[q2]? = some nd2 ∧
          nd2.symbol ≠ s := by
  intro slots
  induction slots with
  | nil => intro q h; simp [findLeaf] at h
  | cons x rest ih =>
    intro q h
    cases x with
    | none => simp [findLeaf] at h
    | some l =>
      simp only [findLeaf] at h
      cases hl : nodes[l]? with
      | none => rw [hl] at h; simp at h
      | some nd =>
        rw [hl] at h
        simp only at h
        by_cases hsym : nd.symbol = s
        · rw [if_pos hsym] at h
          cases h
          exact ⟨0, by simp, ⟨nd, hl, hsym⟩, fun j hj => absurd hj (Nat.not_lt_zero j)⟩
        · rw [if_neg hsym] at h
          obtain ⟨k, hk, hq, hbefore⟩ := ih q h
          refine ⟨k + 1, by simpa using hk, hq, ?_⟩
          intro j hj
          cases j with
          | zero => exact ⟨l, nd, by simp, hl, hsym⟩
          | succ j =>
            obtain ⟨q2, nd2, h1, h2, h3⟩ := hbefore j (by omega)
            exact ⟨q2, nd2, by simpa using h1, h2, h3⟩

/-- The leaf search of `encode` on a built tree finds the leaf of a symbol that has one. -/
theorem Built.findLeaf_eq {freqs : List Int} {t : HCTree} {T : PTree} (h : Built freqs t T)
    (hlen : freqs.length = 256) {bits : List Bool} {q s : Nat} {c : Int}
    (hs : T.sub bits = some (.leaf q c s)) : findLeaf t.nodes s t.leaves = some q := by
  have hm : (q, s, c) ∈ T.leafList := PTree.mem_leafList_of_sub hs
  have hcells : ∀ x ∈ leafTriples freqs 0 0,
      ∃ nd, t.nodes[x.1]? = some nd ∧ nd.symbol = x.2.1 := by
    rintro ⟨q2, s2, c2⟩ hx
    obtain ⟨w, hw⟩ := h.repr.leaf_cell (h.leaves.symm.subset hx)
    exact ⟨_, hw, rfl⟩
  rw [h.index]
  exact findLeaf_of_mem t.nodes s _ _ (leafTriples_nodup freqs 0 0 (by omega)) hcells q c
    (h.leaves.subset hm)

/-- C12: on the tree built from a 256-entry table with a nonzero entry, `encode` of a symbol
has no result (writes nothing) exactly when the frequency of the symbol is zero, and exactly
then the leaf search finds no leaf.  For a symbol with a nonzero frequency the search stops
at a slot `k` of the leaf index that holds the leaf of the symbol, and every slot before `k`
is filled, with a node of another symbol. -/
theorem encode_fails_exactly_on_unknown_symbols (P : PriorityQueue) (hP : P.Lawful)
    (freqs : List Int) (hlen : freqs.length = 256) (hlive : ∃ f ∈ freqs, f ≠ 0) :
    ∃ t, build P freqs = some t ∧ ∀ s : Nat,
      ((∀ out, encode t s out = none) ↔ freqs.getD s 0 = 0) ∧
      ((∃ out, encode t s out = none) ↔ freqs.getD s 0 = 0) ∧
      (findLeaf t.nodes s t.leaves = none ↔ freqs.getD s 0 = 0) ∧
      (freqs.getD s 0 ≠ 0 → ∃ (k q : Nat) (w : Option Nat),
        findLeaf t.nodes s t.leaves = some q ∧ t.leaves[k]? = some (some q) ∧
        t.nodes[q]? = some ⟨freqs.getD s 0, s, none, none, w⟩ ∧
        ∀ j, j < k → ∃ (q2 : Nat) (nd2 : HCNode), t.leaves[j]? = some (some q2) ∧ t.nodes[q2]? = some nd2 ∧
          nd2.symbol ≠ s) := by
  obtain ⟨t, T, hb, hB⟩ := build_built hP freqs hlen hlive
  refine ⟨t, hb, fun s => ?_⟩
  have hlive_s : freqs.getD s 0 ≠ 0 → ∃ bits q,
      T.sub bits = some (.leaf q (freqs.getD s 0) s) ∧
      findLeaf t.nodes s t.leaves = some q ∧ ∀ out, encode t s out = some (out ++ bits) := by
    intro hs
    obtain ⟨bits, q, hq⟩ := hB.exists_path hlen s hs
    exact ⟨bits, q, hq, hB.findLeaf_eq hlen hq, fun out => hB.encode_eq hlen hq out⟩
  have hdead : freqs.getD s 0 = 0 → findLeaf t.nodes s t.leaves = none := by
    intro hs
    cases hf : findLeaf t.nodes s t.leaves with
    | none => rfl
    | some q =>
      exfalso
      obtain ⟨k, hk, ⟨nd, hnd, hsym⟩, -⟩ := findLeaf_some_scan _ _ _ _ hf
      have hmem : some q ∈ t.leaves := List.getElem?_mem hk
      rw [hB.index] at hmem
      rcases List.mem_append.1 hmem with h1 | h1
      · obtain ⟨⟨q2, s2, c2⟩, hx, hx2⟩ := List.mem_map.1 h1
        simp only [Option.some.injEq] at hx2
        subst hx2
        obtain ⟨w, hw⟩ := hB.repr.leaf_cell (hB.leaves.symm.subset hx)
        rw [hw] at hnd
        cases hnd
        simp only at hsym
        subst hsym
        obtain ⟨i, hi, h2, h3⟩ := (mem_leafTriples freqs 0 0 (by omega) s2 c2).1 ⟨q2, hx⟩
        have : s2 = i := by omega
        subst this
        rw [List.getD_eq_getElem?_getD, h2] at hs
        exact h3 hs
      · exact absurd (List.mem_replicate.1 h1).2 (by simp)
  refine ⟨⟨?_, ?_⟩, ⟨?_, ?_⟩, ⟨?_, hdead⟩, ?_⟩
  · intro hnone
    by_contra hs
    obtain ⟨bits, q, -, -, henc⟩ := hlive_s hs
    have := hnone []
    rw [henc] at this
    cases this
  · intro hs out
    exact hB.encode_none hlen hs out
  · rintro ⟨out, hnone⟩
    by_contra hs
    obtain ⟨bits, q, -, -, henc⟩ := hlive_s hs
    rw [henc] at hnone
    cases hnone
  · intro hs
    exact ⟨[], hB.encode_none hlen hs []⟩
  · intro hnone
    by_contra hs
    obtain ⟨bits, q, -, hfind, -⟩ := hlive_s hs
    rw [hfind] at hnone
    cases hnone
  · intro hs
    obtain ⟨bits, q, hq, hfind, -⟩ := hlive_s hs
    obtain ⟨k, hk, -, hbefore⟩ := findLeaf_some_scan _ _ _ _ hfind
    obtain ⟨w, hw⟩ := hB.repr.leaf_cell (PTree.mem_leafList_of_sub hq)
    exact ⟨k, q, w, hfind, hk, hw, hbefore⟩

theorem encode_fails_exactly_on_unknown_symbols_witness :
    listPQ.Lawful ∧ tableAAB.length = 256 ∧ (∃ f ∈ tableAAB, f ≠ 0) ∧
    ∃ t, build listPQ tableAAB = some t ∧ ∀ s : Nat,
      ((∀ out, encode t s out = none) ↔ tableAAB.getD s 0 = 0) ∧
      ((∃ out, encode t s out = none) ↔ tableAAB.getD s 0 = 0) ∧
      (findLeaf t.nodes s t.leaves = none ↔ tableAAB.getD s 0 = 0) ∧
      (tableAAB.getD s 0 ≠ 0 → ∃ (k q : Nat) (w : Option Nat),
        findLeaf t.nodes s t.leaves = some q ∧ t.leaves[k]? = some (some q) ∧
        t.nodes[q]? = some ⟨tableAAB.getD s 0, s, none, none, w⟩ ∧
        ∀ j, j < k → ∃ (q2 : Nat) (nd2 : HCNode), t.leaves[j]? = some (some q2) ∧ t.nodes[q2]? = some nd2 ∧
          nd2.symbol ≠ s) :=
  ⟨listPQ_lawful, tableAAB_length, ⟨2, by decide, by decide⟩,
    encode_fails_exactly_on_unknown_symbols listPQ listPQ_lawful tableAAB tableAAB_length
      ⟨2, by decide, by decide⟩⟩

/-- A sequence of bits either starts with the path to a leaf or is the path to an inner
node. -/
theorem PTree.sub_dichotomy (t : PTree) (bits : List Bool) :
    (∃ pre rest q c s, bits = pre ++ rest ∧ t.sub pre = some (.leaf q c s)) ∨
    (∃ q c l r, t.sub bits = some (.node q c l r)) := by
  induction bits generalizing t with
  | nil =>
    cases t with
    | leaf q c s => exact Or.inl ⟨[], [], q, c, s, rfl, rfl⟩
    | node q c l r => exact Or.inr ⟨q, c, l, r, rfl⟩
  | cons b bs ih =>
    cases t with
    | leaf q c s => exact Or.inl ⟨[], b :: bs, q, c, s, rfl, rfl⟩
    | node q c l r =>
      cases b with
      | false =>
        rcases ih l with ⟨pre, rest, q2, c2, s2, h1, h2⟩ | ⟨q2, c2, l2, r2, h2⟩
        · exact Or.inl ⟨false :: pre, rest, q2, c2, s2, by simp [h1], by simpa [PTree.sub] using h2⟩
        · exact Or.inr ⟨q2, c2, l2, r2, by simpa [PTree.sub] using h2⟩
      | true =>
        rcases ih r with ⟨pre, rest, q2, c2, s2, h1, h2⟩ | ⟨q2, c2, l2, r2, h2⟩
        · exact Or.inl ⟨true :: pre, rest, q2, c2, s2, by simp [h1], by simpa [PTree.sub] using h2⟩
        · exact Or.inr ⟨q2, c2, l2, r2, by simpa [PTree.sub] using h2⟩

/-- The loop of `decode` has no result when the input ends at an inner node. -/
theorem decodeLoop_none_of_sub {nodes : List HCNode} {par : Option Nat} {t : PTree}
    {bits : List Bool} {q : Nat} {c : Int} {l r : PTree}
    (h : Repr nodes par t) (hs : t.sub bits = some (.node q c l r)) :
    decodeLoop nodes bits t.ptr = none := by
  induction bits generalizing t par with
  | nil =>
    simp only [PTree.sub, Option.some.injEq] at hs
    subst hs
    simp only [Repr] at h
    simp [decodeLoop, h.1]
  | cons b bs ih =>
    cases t with
    | leaf ptr c2 s2 => simp [PTree.sub] at hs
    | node ptr c2 l2 r2 =>
      simp only [Repr] at h
      cases b with
      | false =>
        have hs2 : l2.sub bs = some (.node q c l r) := by simpa [PTree.sub] using hs
        simp [decodeLoop, h.1, ih h.2.1 hs2]
      | true =>
        have hs2 : r2.sub bs = some (.node q c l r) := by simpa [PTree.sub] using hs
        simp [decodeLoop, h.1, ih h.2.2 hs2]

/-- C17: on the tree built from a 256-entry table with a nonzero entry, every node that a
sequence of bits leads to from the root is a leaf (no children) or has two children, both
in the store; `decode` has a result unless the input ends at an inner node (so no missing
child is ever followed); and a symbol that `decode` returns has a nonzero frequency. -/
theorem decode_never_walks_off_the_tree (P : PriorityQueue) (hP : P.Lawful)
    (freqs : List Int) (hlen : freqs.length = 256) (hlive : ∃ f ∈ freqs, f ≠ 0) :
    ∃ t r, build P freqs = some t ∧ t.root = some r ∧
      (∀ (bits : List Bool) (q : Nat), descend t.nodes bits r = some q →
        ∃ nd, t.nodes[q]? = some nd ∧
          ((nd.c0 = none ∧ nd.c1 = none) ∨
            ∃ a b na nb, nd.c0 = some a ∧ nd.c1 = some b ∧
              t.nodes[a]? = some na ∧ t.nodes[b]? = some nb)) ∧
      (∀ input : List Bool,
        (∃ s rest, decode t input = some (s, rest)) ∨
        (decode t input = none ∧ ∃ q nd, descend t.nodes input r = some q ∧
          t.nodes[q]? = some nd ∧ nd.c0.isSome = true ∧ nd.c1.isSome = true)) ∧
      (∀ (input rest : List Bool) (s : Nat), decode t input = some (s, rest) →
        freqs.getD s 0 ≠ 0) := by
  obtain ⟨t, T, hb, hB⟩ := build_built hP freqs hlen hlive
  have hcell : ∀ (u : PTree) (w : Option Nat), Repr t.nodes w u →
      ∃ nd, t.nodes[u.ptr]? = some nd := by
    intro u w hu
    exact ⟨_, hu.root_cell⟩
  refine ⟨t, T.ptr, hb, hB.root, ?_, ?_, ?_⟩
  · intro bits q hd
    rw [descend_repr hB.repr] at hd
    cases hsub : T.sub bits with
    | none => rw [hsub] at hd; cases hd
    | some u =>
      rw [hsub] at hd
      simp only [Option.map_some', Option.some.injEq] at hd
      subst hd
      obtain ⟨w, hw⟩ := hB.repr.of_sub hsub
      cases u with
      | leaf q c s =>
        simp only [Repr] at hw
        exact ⟨_, hw, Or.inl ⟨rfl, rfl⟩⟩
      | node q c l r =>
        simp only [Repr] at hw
        obtain ⟨na, hna⟩ := hcell l _ hw.2.1
        obtain ⟨nb, hnb⟩ := hcell r _ hw.2.2
        exact ⟨_, hw.1, Or.inr ⟨l.ptr, r.ptr, na, nb, rfl, rfl, hna, hnb⟩⟩
  · intro input
    rcases T.sub_dichotomy input with ⟨pre, rest, q, c, s, h1, h2⟩ | ⟨q, c, l, r, h2⟩
    · exact Or.inl ⟨s, rest, by rw [h1]; exact hB.decode_eq h2 rest⟩
    · obtain ⟨w, hw⟩ := hB.repr.of_sub h2
      simp only [Repr] at hw
      refine Or.inr ⟨?_, q, ⟨c, 0, some l.ptr, some r.ptr, w⟩, ?_, hw.1, rfl, rfl⟩
      · simp only [decode, hB.root]
        exact decodeLoop_none_of_sub hB.repr h2
      · rw [descend_repr hB.repr, h2]; rfl
  · intro input rest s hd
    simp only [decode, hB.root] at hd
    obtain ⟨bits, q, c, -, hsub⟩ := decodeLoop_inv hB.repr hd
    have hm := (hB.mem_leafList hlen s c).1 ⟨q, PTree.mem_leafList_of_sub hsub⟩
    rw [List.getD_eq_getElem?_getD, hm.1]
    exact hm.2

theorem decode_never_walks_off_the_tree_witness :
    listPQ.Lawful ∧ tableAAB.length = 256 ∧ (∃ f ∈ tableAAB, f ≠ 0) ∧
    ∃ t r, build listPQ tableAAB = some t ∧ t.root = some r ∧
      (∀ (bits : List Bool) (q : Nat), descend t.nodes bits r = some q →
        ∃ nd, t.nodes[q]? = some nd ∧
          ((nd.c0 = none ∧ nd.c1 = none) ∨
            ∃ a b na nb, nd.c0 = some a ∧ nd.c1 = some b ∧
              t.nodes[a]? = some na ∧ t.nodes[b]? = some nb)) ∧
      (∀ input : List Bool,
        (∃ s rest, decode t input = some (s, rest)) ∨
        (decode t input = none ∧ ∃ q nd, descend t.nodes input r = some q ∧
          t.nodes[q]? = some nd ∧ nd.c0.isSome = true ∧ nd.c1.isSome = true)) ∧
      (∀ (input rest : List Bool) (s : Nat), decode t input = some (s, rest) →
        tableAAB.getD s 0 ≠ 0) :=
  ⟨listPQ_lawful, tableAAB_length, ⟨2, by decide, by decide⟩,
    decode_never_walks_off_the_tree listPQ listPQ_lawful tableAAB tableAAB_length
      ⟨2, by decide, by decide⟩⟩

/-! ## Rounds of the merge loop and the order of the children -/

/-- The merge loop is the repetition of `mergeStep` while more than one node is queued. -/
theorem mergeLoop_succ (P : PriorityQueue) (fuel : Nat) (st : BuildState P) :
    mergeLoop P (fuel + 1) st =
      if P.size st.pq > 1 then (mergeStep P st).bind (mergeLoop P fuel) else some st := by
  rw [mergeLoop]
  by_cases h : P.size st.pq > 1
  · rw [if_pos h, if_pos h]
    unfold mergeStep
    cases h1 : P.top st.pq with
    | none => rfl
    | some node1 =>
      dsimp only
      cases h2 : P.top (P.pop st.pq) with
      | none => rfl
      | some node2 =>
        dsimp only
        cases h3 : st.nodes[node1.ptr]? with
        | none => rfl
        | some cell1 =>
          cases h4 : st.nodes[node2.ptr]? with
          | none => rfl
          | some cell2 => rfl
  · rw [if_neg h, if_neg h]

/-- The merge loop of `build` only passes through loop states, and ends in one. -/
theorem LoopState.mergeLoop_state {P : PriorityQueue} {freqs : List Int} :
    ∀ (fuel : Nat) (st st2 : BuildState P), LoopState P freqs st →
      mergeLoop P fuel st = some st2 → LoopState P freqs st2 := by
  intro fuel
  induction fuel with
  | zero =>
    intro st st2 hst h
    by_cases hs : P.size st.pq > 1
    · simp [mergeLoop, hs] at h
    · simp only [mergeLoop, hs, if_false, Option.some.injEq] at h
      subst h; exact hst
  | succ fuel ih =>
    intro st st2 hst h
    rw [mergeLoop_succ] at h
    by_cases hs : P.size st.pq > 1
    · rw [if_pos hs] at h
      cases hm : mergeStep P st with
      | none => rw [hm] at h; cases h
      | some st1 =>
        rw [hm] at h
        exact ih st1 st2 (LoopState.round st st1 hst hs hm) h
    · rw [if_neg hs] at h
      cases h; exact hst

/-- What one round of the merge loop does in a state that satisfies the invariant of
`build` and has more than one queued node. -/
theorem mergeStep_spec {P : PriorityQueue} (hP : P.Lawful) (st : BuildState P)
    (ts : List PTree) (hinv : Inv P st ts) (hsize : P.size st.pq > 1) :
    ∃ t1 t2 rest st2, ts.Perm (t1 :: t2 :: rest) ∧
      P.top st.pq = some t1.entry ∧ P.top (P.pop st.pq) = some t2.entry ∧
      (P.content (P.pop st.pq)).Perm ((t2 :: rest).map PTree.entry) ∧
      (P.content (P.pop (P.pop st.pq))).Perm (rest.map PTree.entry) ∧
      (∀ u ∈ t2 :: rest, HCNodePtrComp t1.entry u.entry = false) ∧
      (∀ u ∈ rest, HCNodePtrComp t2.entry u.entry = false) ∧
      mergeStep P st = some st2 ∧
      st2.nodes = setParent (setParent (st.nodes ++
          [⟨wrapInt (t1.count + t2.count), 0, some t1.ptr, some t2.ptr, none⟩])
          t2.ptr st.nodes.length) t1.ptr st.nodes.length ∧
      Inv P st2 (PTree.node st.nodes.length (wrapInt (t1.count + t2.count)) t1 t2 :: rest) := by
  have hlen : P.size st.pq = ts.length := by
    rw [hP.size_eq, hinv.queue.length_eq, List.length_map]
  have hne : ts ≠ [] := by
    intro hc; rw [hc] at hlen; simp at hlen; omega
  obtain ⟨t1, ts1, htop1, hperm1, hq1, hmax1⟩ := pop_spec hP st.pq ts hinv.queue hne
  have hlen1 : ts.length = ts1.length + 1 := by simpa using hperm1.length_eq
  have hne1 : ts1 ≠ [] := by
    intro hc; rw [hc] at hlen1; simp at hlen1; omega
  obtain ⟨t2, rest, htop2, hperm2, hq2, hmax2⟩ := pop_spec hP (P.pop st.pq) ts1 hq1 hne1
  have hperm : ts.Perm (t1 :: t2 :: rest) := hperm1.trans (List.Perm.cons _ hperm2)
  have hinv1 : Inv P st (t1 :: t2 :: rest) :=
    ⟨hinv.queue.trans (hperm.map _), fun t ht => hinv.repr t (hperm.symm.subset ht),
      (forestPtrs_perm hperm.symm).trans hinv.ptrs⟩
  have hstep := merge_round hP st t1 t2 rest (P.pop (P.pop st.pq)) hinv1 hq2
  have hc1 := (hinv1.repr t1 (by simp)).root_cell
  have hc2 := (hinv1.repr t2 (by simp)).root_cell
  refine ⟨t1, t2, rest, _, hperm, htop1, htop2, hq1.trans (hperm2.map _), hq2,
    fun u hu => hmax1 u (hperm2.symm.subset hu), hmax2, ?_, rfl, hstep⟩
  unfold mergeStep
  rw [htop1]
  simp only [htop2, PTree.entry_ptr, hc1, hc2, PTree.cell_count]

/-- Every loop state of `build` satisfies the invariant, for some forest. -/
theorem LoopState.inv {P : PriorityQueue} (hP : P.Lawful) {freqs : List Int}
    {st : BuildState P} (h : LoopState P freqs st) : ∃ ts, Inv P st ts := by
  induction h with
  | start =>
    have hinv0 : Inv P (⟨[], HCTree.init.leaves, 0, P.empty⟩ : BuildState P) [] :=
      ⟨by simp [hP.content_empty], by simp, by simp [forestPtrs]⟩
    exact ⟨_, buildLeaves_inv hP freqs 0 _ _ hinv0⟩
  | round st st2 _ hsize hstep ih =>
    obtain ⟨ts, hinv⟩ := ih
    obtain ⟨t1, t2, rest, st3, -, -, -, -, -, -, -, hstep3, -, hinv3⟩ :=
      mergeStep_spec hP st ts hinv hsize
    rw [hstep] at hstep3
    cases hstep3
    exact ⟨_, hinv3⟩

theorem PTree.Ordered.ordered_sub {t u : PTree} {bits : List Bool} (h : t.Ordered)
    (hs : t.sub bits = some u) : u.Ordered := by
  induction bits generalizing t with
  | nil =>
    simp only [PTree.sub, Option.some.injEq] at hs
    subst hs; exact h
  | cons b bs ih =>
    cases t with
    | leaf ptr c s => simp [PTree.sub] at hs
    | node ptr c l r =>
      simp only [PTree.Ordered] at h
      cases b <;> simp only [PTree.sub, if_true, Bool.true_eq_false, if_false] at hs
      · exact ih h.2.1 hs
      · exact ih h.2.2 hs

/-- The merge loop makes the node removed first the first child. -/
theorem Huff.ordered {ts : List PTree} {t : PTree} (h : Huff ts t)
    (hts : ∀ u ∈ ts, u.Ordered) : t.Ordered := by
  induction h with
  | done t => exact hts t (by simp)
  | step ts t1 t2 rest t hperm h1 _ _ ih =>
    apply ih
    intro u hu
    rcases List.mem_cons.1 hu with rfl | hu
    · refine ⟨?_, hts t1 (hperm.symm.subset (by simp)), hts t2 (hperm.symm.subset (by simp))⟩
      have := count_le_of_comp_false (h1 t2 (by simp))
      simpa [PTree.entry] using this
    · exact hts u (hperm.symm.subset (by simp [hu]))

theorem leafForest_ordered (fs : List Int) (i ptr : Nat) :
    ∀ u ∈ leafForest fs i ptr, u.Ordered := by
  intro u hu
  rw [leafForest_eq_map] at hu
  obtain ⟨x, -, rfl⟩ := List.mem_map.1 hu
  trivial

/-- C15: in every state in which `build` enters a round of its merge loop, the node removed
first (`node1`) has a count that is at most the count of every other queued node, and the
node removed second (`node2`) has a count that is at most the count of every node that
stays queued; the round stores a new node with `c0 = node1` and `c1 = node2`.  Hence in the
built tree every node with children has `count(c0) ≤ count(c1)`. -/
theorem merge_takes_two_lowest_in_slot_order (P : PriorityQueue) (hP : P.Lawful)
    (freqs : List Int) (hlen : freqs.length = 256) (hlive : ∃ f ∈ freqs, f ≠ 0) :
    (∀ st : BuildState P, LoopState P freqs st → P.size st.pq > 1 →
      ∃ (node1 node2 : QEntry) (cell1 cell2 : HCNode) (st2 : BuildState P),
        P.top st.pq = some node1 ∧ P.top (P.pop st.pq) = some node2 ∧
        st.nodes[node1.ptr]? = some cell1 ∧ st.nodes[node2.ptr]? = some cell2 ∧
        (P.content st.pq).Perm (node1 :: P.content (P.pop st.pq)) ∧
        (P.content (P.pop st.pq)).Perm (node2 :: P.content (P.pop (P.pop st.pq))) ∧
        (∀ e ∈ P.content (P.pop st.pq),
          ∃ cell, st.nodes[e.ptr]? = some cell ∧ cell1.count ≤ cell.count) ∧
        (∀ e ∈ P.content (P.pop (P.pop st.pq)),
          ∃ cell, st.nodes[e.ptr]? = some cell ∧ cell2.count ≤ cell.count) ∧
        mergeStep P st = some st2 ∧
        st2.nodes[st.nodes.length]? = some
          ⟨wrapInt (cell1.count + cell2.count), 0, some node1.ptr, some node2.ptr, none⟩) ∧
    ∃ t, build P freqs = some t ∧
      ∀ nd ∈ t.nodes, ∀ a b : Nat, nd.c0 = some a → nd.c1 = some b →
        ∃ na nb, t.nodes[a]? = some na ∧ t.nodes[b]? = some nb ∧ na.count ≤ nb.count := by
  constructor
  · intro st hst hsize
    obtain ⟨ts, hinv⟩ := hst.inv hP
    obtain ⟨t1, t2, rest, st2, hperm, htop1, htop2, hq1, hq2, hmax1, hmax2, hstep, -, hinv2⟩ :=
      mergeStep_spec hP st ts hinv hsize
    have hcell : ∀ u ∈ t1 :: t2 :: rest, st.nodes[u.ptr]? = some (u.cell none) :=
      fun u hu => (hinv.repr u (hperm.symm.subset hu)).root_cell
    refine ⟨t1.entry, t2.entry, t1.cell none, t2.cell none, st2, htop1, htop2,
      hcell t1 (by simp), hcell t2 (by simp), ?_, ?_, ?_, ?_, hstep, ?_⟩
    · exact (hinv.queue.trans (hperm.map _)).trans (List.Perm.cons _ hq1.symm)
    · exact hq1.trans (List.Perm.cons _ hq2.symm)
    · intro e he
      obtain ⟨u, hu, rfl⟩ := List.mem_map.1 (hq1.subset he)
      refine ⟨u.cell none, hcell u (List.mem_cons_of_mem _ hu), ?_⟩
      simpa [PTree.entry] using count_le_of_comp_false (hmax1 u hu)
    · intro e he
      obtain ⟨u, hu, rfl⟩ := List.mem_map.1 (hq2.subset he)
      refine ⟨u.cell none, hcell u (by simp [hu]), ?_⟩
      simpa [PTree.entry] using count_le_of_comp_false (hmax2 u hu)
    · have := (hinv2.repr _ (List.mem_cons_self _ _)).root_cell
      simp only [PTree.ptr_node] at this
      rw [this]
      simp only [PTree.cell_count, PTree.entry_ptr]
      rfl
  · obtain ⟨t, T, hb, hB⟩ := build_built hP freqs hlen hlive
    refine ⟨t, hb, ?_⟩
    intro nd hnd a b ha hb2
    have hord : T.Ordered := hB.huff.ordered (leafForest_ordered freqs 0 0)
    obtain ⟨q, hq, hqe⟩ := List.getElem_of_mem hnd
    have hqm : q ∈ T.ptrs := hB.ptrs.symm.subset (List.mem_range.2 hq)
    obtain ⟨bits, u, hsub, hptr⟩ := PTree.exists_sub_of_mem_ptrs hqm
    obtain ⟨w, hw⟩ := hB.repr.of_sub hsub
    have hcell := hw.root_cell
    rw [hptr, List.getElem?_eq_getElem hq, hqe] at hcell
    cases u with
    | leaf q2 c s =>
      simp only [PTree.cell, Option.some.injEq] at hcell
      rw [hcell] at ha
      cases ha
    | node q2 c l r =>
      simp only [PTree.cell, Option.some.injEq] at hcell
      rw [hcell] at ha hb2
      simp only [Option.some.injEq] at ha hb2
      subst ha; subst hb2
      simp only [Repr] at hw
      have ho := hord.ordered_sub hsub
      simp only [PTree.Ordered] at ho
      exact ⟨_, _, hw.2.1.root_cell, hw.2.2.root_cell, by simpa using ho.1⟩

theorem merge_takes_two_lowest_in_slot_order_witness :
    listPQ.Lawful ∧ tableAAB.length = 256 ∧ (∃ f ∈ tableAAB, f ≠ 0) ∧
    LoopState listPQ tableAAB (buildLeaves listPQ tableAAB 0
      (⟨[], HCTree.init.leaves, 0, listPQ.empty⟩ : BuildState listPQ)) ∧
    listPQ.size (buildLeaves listPQ tableAAB 0
      (⟨[], HCTree.init.leaves, 0, listPQ.empty⟩ : BuildState listPQ)).pq > 1 ∧
    ∃ t, build listPQ tableAAB = some t ∧
      ∀ nd ∈ t.nodes, ∀ a b : Nat, nd.c0 = some a → nd.c1 = some b →
        ∃ na nb, t.nodes[a]? = some na ∧ t.nodes[b]? = some nb ∧ na.count ≤ nb.count :=
  ⟨listPQ_lawful, tableAAB_length, ⟨2, by decide, by decide⟩, LoopState.start, by decide,
    (merge_takes_two_lowest_in_slot_order listPQ listPQ_lawful tableAAB tableAAB_length
      ⟨2, by decide, by decide⟩).2⟩

/-! ## Sums over the table -/

theorem sum_range_ite (n b : Nat) (g : Nat → Int) (hb : b < n) :
    ((List.range n).map (fun s => if b = s then g s else 0)).sum = g b := by
  induction n with
  | zero => omega
  | succ n ih =>
    rw [List.range_succ, List.map_append, List.sum_append]
    by_cases hbn : b = n
    · subst hbn
      have h0 : ((List.range b).map (fun s => if b = s then g s else 0)).sum = 0 := by
        apply List.sum_eq_zero
        intro x hx
        obtain ⟨s, hs, rfl⟩ := List.mem_map.1 hx
        have := List.mem_range.1 hs
        rw [if_neg (by omega)]
      simp [h0]
    · rw [ih (by omega)]
      simp [hbn]

/-- A sum over the bytes of a sequence is the sum over the byte values of the number of
occurrences times the term. -/
theorem sum_map_eq_sum_count (n : Nat) (g : Nat → Int) (seq : List Nat)
    (hb : ∀ b ∈ seq, b < n) :
    (seq.map g).sum = ((List.range n).map (fun s => (seq.count s : Int) * g s)).sum := by
  induction seq with
  | nil => simp
  | cons b bs ih =>
    have hsplit : ((List.range n).map (fun s => (((b :: bs).count s : Nat) : Int) * g s)) =
        (List.range n).map (fun s => ((bs.count s : Nat) : Int) * g s +
          (if b = s then g s else 0)) := by
      apply List.map_congr_left
      intro s _
      rw [List.count_cons]
      by_cases h : b = s
      · subst h; simp; ring
      · have : (b == s) = false := by simpa using h
        simp [this, h]
    rw [hsplit, List.sum_map_add, ← ih (fun x hx => hb x (List.mem_cons_of_mem _ hx)),
      sum_range_ite n b g (hb b (List.mem_cons_self _ _))]
    simp [add_comm]

/-- The table of `compress`, entry by entry. -/
theorem frequencies_eq_map (seq : List Nat) (hb : ∀ b ∈ seq, b < 256) :
    frequencies seq = (List.range 256).map (fun s => wrapInt (seq.count s)) := by
  apply List.ext_getElem?
  intro i
  by_cases hi : i < 256
  · have h1 := getD_frequencies seq hb i
    rw [List.getD_eq_getElem?_getD, List.getElem?_eq_getElem (by rw [length_frequencies]; exact hi)]
      at h1
    rw [List.getElem?_eq_getElem (by rw [length_frequencies]; exact hi),
      List.getElem?_eq_getElem (by simpa using hi)]
    simp only [Option.getD_some] at h1
    simp [h1]
  · rw [List.getElem?_eq_none (by rw [length_frequencies]; omega),
      List.getElem?_eq_none (by simp; omega)]

/-- Reducing every term to 32 bits changes a sum by a multiple of 2^32. -/
theorem sum_map_wrapInt (xs : List Int) :
    ∃ k : Int, (xs.map wrapInt).sum = xs.sum + k * 4294967296 := by
  induction xs with
  | nil => exact ⟨0, by simp⟩
  | cons x xs ih =>
    obtain ⟨k, hk⟩ := ih
    refine ⟨k - (x + 2147483648) / 4294967296, ?_⟩
    simp only [List.map_cons, List.sum_cons, hk]
    unfold wrapInt
    omega

theorem countTotal_eq (seq : List Nat) (x : Int) (hx : IsInt32 x) :
    countTotal seq x = wrapInt (x + seq.length) := by
  induction seq generalizing x with
  | nil => simpa [countTotal] using (wrapInt_of_isInt32 hx).symm
  | cons b bs ih =>
    rw [countTotal, ih _ (isInt32_wrapInt _), wrapInt_wrapInt_add]
    congr 1
    simp only [List.length_cons, Nat.cast_add, Nat.cast_one]
    ring

/-- The sum of the table of `compress` and the number of bytes differ by a multiple of
2^32. -/
theorem sum_frequencies (seq : List Nat) (hb : ∀ b ∈ seq, b < 256) :
    ∃ k : Int, (frequencies seq).sum = (seq.length : Int) + k * 4294967296 := by
  obtain ⟨k, hk⟩ := sum_map_wrapInt ((List.range 256).map (fun s => ((seq.count s : Nat) : Int)))
  refine ⟨k, ?_⟩
  have h1 := sum_map_eq_sum_count 256 (fun _ => 1) seq hb
  simp only [List.map_const', List.sum_replicate, smul_eq_mul, mul_one] at h1
  rw [frequencies_eq_map seq hb]
  rw [List.map_map] at hk
  rw [show (fun s => wrapInt ((seq.count s : Nat) : Int)) =
    (wrapInt ∘ fun s => ((seq.count s : Nat) : Int)) from rfl, hk, ← h1]
  simp

/-- C18: for a table of 256 non-negative counts with a nonzero entry whose sum is below
2^31, the count of the root of the built tree is the sum of the 256 entries; and when the
table is the one `compress` counted for a byte sequence, that count is the total that
`compress` writes at the start of the header. -/
theorem root_count_is_the_input_size (P : PriorityQueue) (hP : P.Lawful) (freqs : List Int)
    (hlen : freqs.length = 256) (hlive : ∃ f ∈ freqs, f ≠ 0) (hno : NoOverflow freqs) :
    ∃ t r nd, build P freqs = some t ∧ t.root = some r ∧ t.nodes[r]? = some nd ∧
      nd.count = freqs.sum ∧
      ∀ seq : List Nat, (∀ b ∈ seq, b < 256) → frequencies seq = freqs →
        headerTotal seq = nd.count := by
  obtain ⟨t, T, hb, hB⟩ := build_built hP freqs hlen hlive
  have hcount : T.count = freqs.sum := by
    rw [PTree.count_eq_weight hB.tree_summed (hB.leaf_nonneg hno.1)
      (by rw [hB.weight_eq]; exact hno.2), hB.weight_eq]
  refine ⟨t, T.ptr, T.cell none, hb, hB.root, hB.repr.root_cell, ?_, ?_⟩
  · rw [PTree.cell_count, hcount]
  · intro seq hbytes hseq
    rw [PTree.cell_count, hcount, ← hseq]
    obtain ⟨k, hk⟩ := sum_frequencies seq hbytes
    have h0 : 0 ≤ (frequencies seq).sum := by
      rw [hseq]
      exact List.sum_nonneg hno.1
    have h1 : (frequencies seq).sum < 2147483648 := by
      rw [hseq]
      exact hno.2
    unfold headerTotal
    rw [countTotal_eq seq 0 (by unfold IsInt32; omega)]
    unfold wrapInt
    omega

theorem root_count_is_the_input_size_witness :
    listPQ.Lawful ∧ tableAAB.length = 256 ∧ (∃ f ∈ tableAAB, f ≠ 0) ∧ NoOverflow tableAAB ∧
    (∀ b ∈ [97, 97, 98], b < 256) ∧ frequencies [97, 97, 98] = tableAAB ∧
    tableAAB.sum = 3 ∧ headerTotal [97, 97, 98] = 3 ∧
    ∃ t r nd, build listPQ tableAAB = some t ∧ t.root = some r ∧ t.nodes[r]? = some nd ∧
      nd.count = tableAAB.sum ∧
      ∀ seq : List Nat, (∀ b ∈ seq, b < 256) → frequencies seq = tableAAB →
        headerTotal seq = nd.count :=
  ⟨listPQ_lawful, tableAAB_length, ⟨2, by decide, by decide⟩, tableAAB_noOverflow,
    by decide, by decide, by decide, by decide,
    root_count_is_the_input_size listPQ listPQ_lawful tableAAB tableAAB_length
      ⟨2, by decide, by decide⟩ tableAAB_noOverflow⟩

/-! ## The length of the payload -/

/-- What `encode` appends does not depend on what the stream holds already. -/
theorem encode_out (t : HCTree) (s : Nat) (out : List Bool) :
    encode t s out = (encode t s []).map (fun code => out ++ code) := by
  unfold encode
  cases h1 : findLeaf t.nodes s t.leaves with
  | none => rfl
  | some node =>
    dsimp only
    cases h2 : climb t.nodes t.nodes.length node [] with
    | none => rfl
    | some code => simp [writeCode_eq]

/-- The encoding loop of `compress` appends the codes of the bytes, in order. -/
theorem encodeAll_eq (t : HCTree) (code : Nat → List Bool) (seq : List Nat)
    (henc : ∀ b ∈ seq, encode t b [] = some (code b)) (out : List Bool) :
    encodeAll t seq out = some (out ++ seq.flatMap code) := by
  induction seq generalizing out with
  | nil => simp [encodeAll]
  | cons b bs ih =>
    rw [encodeAll, encode_out, henc b (List.mem_cons_self _ _)]
    simp only [Option.map_some']
    rw [ih (fun x hx => henc x (List.mem_cons_of_mem _ hx))]
    simp

theorem length_flatMap_int (code : Nat → List Bool) (seq : List Nat) :
    ((seq.flatMap code).length : Int) = (seq.map (fun b => ((code b).length : Int))).sum := by
  induction seq with
  | nil => simp
  | cons b bs ih =>
    rw [List.flatMap_cons, List.length_append, Nat.cast_add, ih]
    simp

theorem mem_seqNeg : ∀ b ∈ seqNeg, b < 256 := by
  intro b hb
  unfold seqNeg at hb
  rcases List.mem_append.1 hb with h | h
  · rw [(List.mem_replicate.1 h).2]; decide
  · rw [List.mem_singleton.1 h]; decide

theorem frequencies_seqNeg : frequencies seqNeg = tableNeg := by
  rw [frequencies_eq_map seqNeg mem_seqNeg]
  have h : ∀ s ∈ List.range 256, wrapInt ((seqNeg.count s : Nat) : Int) =
      wrapInt ((((if 0 = s then 2147483648 else 0) + (if 1 = s then 1 else 0) : Nat)) : Int) := by
    intro s _
    unfold seqNeg
    rw [count_replicate_append_singleton]
  rw [List.map_congr_left h]
  decide

/-- C11 (amended): for every non-empty sequence of fewer than 2^31 bytes, the encoding loop
of `compress` emits, on the tree built from the table that `compress` counts, a number of
bits equal to the sum over all 256 symbols of the frequency of the symbol times the depth
of its leaf. -/
theorem payload_length_below_int_max (P : PriorityQueue) (hP : P.Lawful) (seq : List Nat)
    (hne : seq ≠ []) (hbytes : ∀ b ∈ seq, b < 256) (hshort : seq.length < 2147483648) :
    ∃ t bits, build P (frequencies seq) = some t ∧ encodeAll t seq [] = some bits ∧
      (bits.length : Int) = t.wpl (frequencies seq) := by
  have hlen := length_frequencies seq
  have hexact : ∀ s, (frequencies seq).getD s 0 = (seq.count s : Int) := by
    intro s
    rw [getD_frequencies seq hbytes s]
    have h2 : seq.count s ≤ seq.length := List.count_le_length _ _
    exact wrapInt_of_isInt32 (by unfold IsInt32; omega)
  have hfreq : ∀ b ∈ seq, (frequencies seq).getD b 0 ≠ 0 := by
    intro b hb
    rw [hexact]
    have h1 : 0 < seq.count b := List.count_pos_iff.2 hb
    omega
  obtain ⟨b0, hb0⟩ := List.exists_mem_of_ne_nil seq hne
  obtain ⟨t, T, hbuild, hB⟩ := build_built hP _ hlen (exists_live_of_getD (hfreq b0 hb0))
  have hcode : ∀ b, ∃ bits : List Bool, b ∈ seq →
      ∃ q, T.sub bits = some (.leaf q ((frequencies seq).getD b 0) b) := by
    intro b
    by_cases hb : b ∈ seq
    · obtain ⟨bits, q, hq⟩ := hB.exists_path hlen b (hfreq b hb)
      exact ⟨bits, fun _ => ⟨q, hq⟩⟩
    · exact ⟨[], fun h => absurd h hb⟩
  choose code hcode2 using hcode
  have henc : ∀ b ∈ seq, encode t b [] = some (code b) := by
    intro b hb
    obtain ⟨q, hq⟩ := hcode2 b hb
    simpa using hB.encode_eq hlen hq []
  refine ⟨t, seq.flatMap code, hbuild, by simpa using encodeAll_eq t code seq henc [], ?_⟩
  rw [length_flatMap_int, sum_map_eq_sum_count 256 _ seq hbytes]
  unfold HCTree.wpl
  congr 1
  apply List.map_congr_left
  intro s _
  rw [hexact]
  by_cases hs : s ∈ seq
  · obtain ⟨q, hq⟩ := hcode2 s hs
    rw [hB.depth_of_sub hlen hq]
    rfl
  · rw [List.count_eq_zero_of_not_mem hs]
    simp

theorem payload_length_below_int_max_witness :
    listPQ.Lawful ∧ [97, 97, 98] ≠ ([] : List Nat) ∧ (∀ b ∈ [97, 97, 98], b < 256) ∧
    [97, 97, 98].length < 2147483648 ∧
    ∃ t bits, build listPQ (frequencies [97, 97, 98]) = some t ∧
      encodeAll t [97, 97, 98] [] = some bits ∧
      (bits.length : Int) = t.wpl (frequencies [97, 97, 98]) :=
  ⟨listPQ_lawful, by decide, by decide, by decide,
    payload_length_below_int_max listPQ listPQ_lawful [97, 97, 98] (by decide) (by decide)
      (by decide)⟩

/-- C11, as stated, fails on `seqNeg` (2^31 bytes 0, then one byte 1): the counter of byte 0
wraps to -2^31, the built tree gives both bytes a code of one bit, the encoding loop emits
2^31 + 1 bits, and the sum of frequency times depth over the table is -2^31 + 1. -/
theorem payload_length_differs_when_a_count_wraps :
    seqNeg ≠ [] ∧ (∀ b ∈ seqNeg, b < 256) ∧ frequencies seqNeg = tableNeg ∧
    build listPQ (frequencies seqNeg) = some treeNeg ∧
    (∃ bits, encodeAll treeNeg seqNeg [] = some bits ∧ (bits.length : Int) = 2147483649) ∧
    treeNeg.wpl (frequencies seqNeg) = -2147483647 := by
  have hne : seqNeg ≠ [] := by
    unfold seqNeg
    exact List.append_ne_nil_of_right_ne_nil _ (by decide)
  have henc : ∀ b ∈ seqNeg,
      encode treeNeg b [] = some ((fun s : Nat => if s = 0 then [false] else [true]) b) := by
    intro b hb
    unfold seqNeg at hb
    rcases List.mem_append.1 hb with h | h
    · rw [(List.mem_replicate.1 h).2]; decide
    · rw [List.mem_singleton.1 h]; decide
  refine ⟨hne, mem_seqNeg, frequencies_seqNeg, ?_, ⟨_, encodeAll_eq treeNeg _ seqNeg henc [], ?_⟩,
    ?_⟩
  · rw [frequencies_seqNeg]; decide
  · rw [List.nil_append, length_flatMap_int]
    have h1 : ∀ b ∈ seqNeg,
        (((fun s : Nat => if s = 0 then [false] else [true]) b).length : Int) = 1 := by
      intro b _
      by_cases hb : b = 0 <;> simp [hb]
    rw [List.map_congr_left h1, List.map_const', List.sum_replicate]
    unfold seqNeg
    rw [List.length_append, List.length_replicate]
    rfl
  · rw [frequencies_seqNeg]; decide

/-! ## Heavier symbols are not deeper -/

/-- A list with two different members can be rearranged to start with them. -/
theorem exists_perm_cons_cons {α : Type} {l : List α} {x y : α} (hxy : x ≠ y) (hx : x ∈ l)
    (hy : y ∈ l) : ∃ rest, l.Perm (x :: y :: rest) := by
  obtain ⟨s1, s2, rfl⟩ := List.append_of_mem hx
  have hy2 : y ∈ s1 ++ s2 := by
    simp only [List.mem_append, List.mem_cons] at hy ⊢
    rcases hy with h | h | h
    · exact Or.inl h
    · exact absurd h.symm hxy
    · exact Or.inr h
  obtain ⟨u1, u2, hu⟩ := List.append_of_mem hy2
  refine ⟨u1 ++ u2, List.perm_middle.trans (List.Perm.cons x ?_)⟩
  rw [hu]
  exact List.perm_middle

/-- In the tree built from a table without overflow, exchanging the depths of two leaves
does not lower the sum of frequency times depth. -/
theorem Built.exchange_leaves {freqs : List Int} {t : HCTree} {T : PTree}
    (hB : Built freqs t T) (hlen : freqs.length = 256) (hno : NoOverflow freqs)
    {a b da db : Nat} (hab : a ≠ b) (ha : (a, da) ∈ T.shape.symDepths 0)
    (hb : (b, db) ∈ T.shape.symDepths 0) :
    freqs.getD a 0 * (da : Int) + freqs.getD b 0 * (db : Int) ≤
      freqs.getD b 0 * (da : Int) + freqs.getD a 0 * (db : Int) := by
  have hleaf : ∀ x ∈ T.leafList, x.2.2 = freqs.getD x.2.1 0 := fun x hx =>
    leafTriples_count freqs hlen x (hB.leaves.subset hx)
  have hsym : T.shape.symbols.Perm (liveSymbols freqs) := by
    rw [PTree.shape_symbols, ← map_sym_leafTriples freqs hlen]
    exact hB.leaves.map _
  -- the leaves with their depths, the two leaves first
  obtain ⟨rest, hperm⟩ := exists_perm_cons_cons
    (show (a, da) ≠ (b, db) from fun h => hab (Prod.mk.inj h).1) ha hb
  -- the cost of the built tree
  have h1 : T.cost = freqs.getD a 0 * (da : Int) + freqs.getD b 0 * (db : Int) +
      (rest.map (fun p => freqs.getD p.1 0 * (p.2 : Int))).sum := by
    rw [← (PTree.shape_weight_cost (fun s => freqs.getD s 0) T hleaf).2]
    have h3 := CodeTree.sum_symDepths (fun s => freqs.getD s 0) T.shape 0
    simp only [Nat.cast_zero, zero_mul, add_zero] at h3
    rw [← h3, (hperm.map _).sum_eq]
    simp only [List.map_cons, List.sum_cons]
    ring
  -- the assignment of depths with the two depths exchanged
  have hC : ∃ C : Multiset (Int × Nat),
      C = (((freqs.getD b 0, da) :: (freqs.getD a 0, db) ::
        rest.map (fun p => (freqs.getD p.1 0, p.2)) : List (Int × Nat)) :
          Multiset (Int × Nat)) := ⟨_, rfl⟩
  obtain ⟨C, hCdef⟩ := hC
  have h2 : pairCost C = freqs.getD b 0 * (da : Int) + freqs.getD a 0 * (db : Int) +
      (rest.map (fun p => freqs.getD p.1 0 * (p.2 : Int))).sum := by
    rw [hCdef]
    simp only [pairCost, Multiset.map_coe, Multiset.sum_coe, List.map_cons, List.sum_cons,
      List.map_map]
    rw [← add_assoc]
    rfl
  have hW : Multiset.map Prod.fst C =
      (((leafForest freqs 0 0).map PTree.weight : List Int) : Multiset Int) := by
    rw [map_weight_leafForest, hCdef]
    simp only [Multiset.map_coe, List.map_cons, List.map_map]
    apply Multiset.coe_eq_coe.2
    have e2 : (leafTriples freqs 0 0).map (fun x => x.2.2) =
        (liveSymbols freqs).map (fun s => freqs.getD s 0) := by
      rw [← map_sym_leafTriples freqs hlen, List.map_map]
      apply List.map_congr_left
      intro x hx
      exact leafTriples_count freqs hlen x hx
    rw [e2]
    have e3 : ((T.shape.symDepths 0).map (fun p => freqs.getD p.1 0)).Perm
        ((liveSymbols freqs).map (fun s => freqs.getD s 0)) := by
      have : (T.shape.symDepths 0).map (fun p => freqs.getD p.1 0) =
          T.shape.symbols.map (fun s => freqs.getD s 0) := by
        rw [← CodeTree.map_fst_symDepths T.shape 0, List.map_map]
        rfl
      rw [this]
      exact hsym.map _
    refine List.Perm.trans ?_ ((hperm.map (fun p => freqs.getD p.1 0)).symm.trans e3)
    simp only [List.map_cons]
    exact List.Perm.swap _ _ _
  have hF : Full (Multiset.map Prod.snd C) := by
    have h4 := CodeTree.full_depths T.shape 0 0 (by simpa using Full.one)
    rw [add_zero] at h4
    have e : Multiset.map Prod.snd C =
        (((T.shape.symDepths 0).map Prod.snd : List Nat) : Multiset Nat) := by
      rw [hCdef]
      simp only [Multiset.map_coe, List.map_cons, List.map_map]
      apply Multiset.coe_eq_coe.2
      refine List.Perm.trans ?_ (hperm.map Prod.snd).symm
      simp only [List.map_cons]
      exact List.Perm.refl _
    rw [e]
    exact h4
  have key := hB.huff.cost_le (leafForest_summed freqs 0 0)
    (fun u hu x hx => hno.1 _ (leafForest_leaf_mem freqs 0 0 u hu x hx))
    (by rw [map_weight_leafForest, sum_leafTriples]; exact hno.2)
    C hW hF
  rw [sum_cost_leafForest, zero_add, h1, h2] at key
  linarith

/-- C19 (amended): for a table of 256 non-negative entries whose sum is below 2^31 and two
symbols `a`, `b` with `f[a] > f[b] > 0`, `encode` on the built tree emits for `a` at most as
many bits as for `b`. -/
theorem heavier_symbol_code_not_longer (P : PriorityQueue) (hP : P.Lawful)
    (freqs : List Int) (hlen : freqs.length = 256) (hno : NoOverflow freqs) (a b : Nat)
    (hab : freqs.getD a 0 > freqs.getD b 0) (hb : freqs.getD b 0 > 0) :
    ∃ t ca cb, build P freqs = some t ∧ (∀ out, encode t a out = some (out ++ ca)) ∧
      (∀ out, encode t b out = some (out ++ cb)) ∧ ca.length ≤ cb.length := by
  have hb0 : freqs.getD b 0 ≠ 0 := by omega
  have ha0 : freqs.getD a 0 ≠ 0 := by omega
  have hne : a ≠ b := by
    rintro rfl
    omega
  obtain ⟨t, T, hbuild, hB⟩ := build_built hP freqs hlen (exists_live_of_getD hb0)
  obtain ⟨ca, qa, hqa⟩ := hB.exists_path hlen a ha0
  obtain ⟨cb, qb, hqb⟩ := hB.exists_path hlen b hb0
  refine ⟨t, ca, cb, hbuild, fun out => hB.encode_eq hlen hqa out,
    fun out => hB.encode_eq hlen hqb out, ?_⟩
  have hnd : T.shape.symbols.Nodup := by
    rw [PTree.shape_symbols]
    exact hB.sym_nodup hlen
  have hdepth : ∀ (s q : Nat) (c : Int) (bits : List Bool),
      T.sub bits = some (.leaf q c s) → (s, bits.length) ∈ T.shape.symDepths 0 := by
    intro s q c bits hsub
    have hs : s ∈ (T.shape.symDepths 0).map Prod.fst := by
      rw [CodeTree.map_fst_symDepths, PTree.shape_symbols]
      exact List.mem_map.2 ⟨_, PTree.mem_leafList_of_sub hsub, rfl⟩
    obtain ⟨⟨s2, d⟩, hmem, rfl⟩ := List.mem_map.1 hs
    obtain ⟨e, he, hd⟩ := CodeTree.depthOf_of_mem hnd hmem
    rw [PTree.shape_depthOf, PTree.depthOf_of_sub (hB.sym_nodup hlen) hsub] at he
    cases he
    rw [hd, Nat.zero_add] at hmem
    exact hmem
  have key := hB.exchange_leaves hlen hno hne (hdepth a qa _ ca hqa) (hdepth b qb _ cb hqb)
  by_contra hlong
  have h1 : (cb.length : Int) < (ca.length : Int) := by omega
  have h2 := mul_pos (sub_pos.2 hab) (sub_pos.2 h1)
  nlinarith

theorem heavier_symbol_code_not_longer_witness :
    listPQ.Lawful ∧ tableAAB.length = 256 ∧ NoOverflow tableAAB ∧
    tableAAB.getD 97 0 > tableAAB.getD 98 0 ∧ tableAAB.getD 98 0 > 0 ∧
    ∃ t ca cb, build listPQ tableAAB = some t ∧
      (∀ out, encode t 97 out = some (out ++ ca)) ∧
      (∀ out, encode t 98 out = some (out ++ cb)) ∧ ca.length ≤ cb.length :=
  ⟨listPQ_lawful, tableAAB_length, tableAAB_noOverflow, by decide, by decide,
    heavier_symbol_code_not_longer listPQ listPQ_lawful tableAAB tableAAB_length
      tableAAB_noOverflow 97 98 (by decide) (by decide)⟩

/-- C19, as stated, fails on `tableSkew` (2^29 for the symbols 0 and 1, 2^30 for the symbols
2, 3 and 4): the merge of the leaves of 4 and 3 overflows to -2^31, so that their parent is
merged again before the other nodes; symbol 4, with the larger frequency, gets a code of 3
bits and symbol 0 a code of 2 bits. -/
theorem heavier_symbol_gets_longer_code_after_overflow :
    tableSkew.length = 256 ∧ (∀ f ∈ tableSkew, 0 ≤ f ∧ f < 2147483648) ∧
    tableSkew.getD 4 0 > tableSkew.getD 0 0 ∧ tableSkew.getD 0 0 > 0 ∧
    (build listPQ tableSkew).map (fun t => (encode t 4 [], encode t 0 [])) =
      some (some [false, false, false], some [true, true]) := by
  refine ⟨by decide, by decide, by decide, by decide, by decide⟩

end Huffman
